import Mathlib

/-!
# mango::simd — 128-bit integer vectors, portable and SSE2 backends

A shallow embedding of `include/mango/simd/scalar_int128.hpp` (the portable,
per-lane backend) and `include/mango/simd/sse_int128.hpp` (the SSE2 backend),
followed by theorems about the saturating arithmetic, the multiply emulation
sequences, compare, select, min, max, shuffle, unpack, pack, the sign mask
extraction, nand, abs, neg, the shifts, indexed access and the narrowing helper.

Conventions of the embedding.

* An unsigned `w`-bit scalar is a natural number below `2 ^ w`; a signed
  `w`-bit scalar is an integer in `[-2 ^ (w-1), 2 ^ (w-1))`.
* C arithmetic on operands narrower than `int` is carried out after integral
  promotion; the embedding computes the exact mathematical value and reduces
  modulo `2 ^ w` at the point where the source stores into a `w`-bit object.
  Values of type `int` that are only used bitwise are kept as their 32-bit
  two's complement patterns.
* An `__m128i` register is a natural number below `2 ^ 128`; lane `i` of width
  `w` occupies bits `[w*i, w*i + w)`.
-/

namespace mango.simd

/-! ## Scalar conversions -/

/-- Width in bits of C `int` and `unsigned int`. -/
def intBits : Nat := 32

/-- Conversion of an integer value to the unsigned `w`-bit type: reduction
modulo `2 ^ w`. -/
def toUnsigned (w : Nat) (z : Int) : Nat := (z % 2 ^ w).toNat

/-- Conversion of a bit pattern to the signed `w`-bit type: the low `w` bits
read in two's complement. -/
def toSigned (w : Nat) (u : Nat) : Int :=
  if u % 2 ^ w < 2 ^ (w - 1) then ((u % 2 ^ w : Nat) : Int)
  else ((u % 2 ^ w : Nat) : Int) - 2 ^ w

/-- The value `std::numeric_limits<ScalarType>::max()` of a signed `w`-bit type. -/
def signedMax (w : Nat) : Int := 2 ^ (w - 1) - 1

/-- The value `std::numeric_limits<ScalarType>::min()` of a signed `w`-bit type. -/
def signedMin (w : Nat) : Int := -(2 ^ (w - 1))

/-- The value `std::numeric_limits<ScalarType>::max()` of an unsigned `w`-bit type. -/
def unsignedMax (w : Nat) : Nat := 2 ^ w - 1

/-- The C expression `-(c)` for a comparison result `c`, of type `int`, as a
32-bit pattern: all ones when the comparison holds, zero otherwise. -/
def negBool (c : Bool) : Nat := if c then 2 ^ intBits - 1 else 0

/-- The C operator `~` applied to a promoted operand, as a 32-bit pattern. -/
def bitNot (z : Nat) : Nat := 2 ^ intBits - 1 - z % 2 ^ intBits

/-- Clamp of an integer to the closed interval `[lo, hi]`. -/
def clamp (z lo hi : Int) : Int := if z < lo then lo else if hi < z then hi else z

/-- Modelled from the spec: the scalar lane types of the header `simd.hpp`,
which is not part of the sources at hand: a width in bits and a signedness. -/
structure ScalarType where
  /-- Number of bits of the type. -/
  bits : Nat
  /-- Whether the type is a signed (two's complement) type. -/
  isSigned : Bool
  deriving DecidableEq

/-- The lane type `uint8`. -/
def uint8 : ScalarType := ⟨8, false⟩
/-- The lane type `uint16`. -/
def uint16 : ScalarType := ⟨16, false⟩
/-- The lane type `uint32`. -/
def uint32 : ScalarType := ⟨32, false⟩
/-- The lane type `int8`. -/
def int8 : ScalarType := ⟨8, true⟩
/-- The lane type `int16`. -/
def int16 : ScalarType := ⟨16, true⟩
/-- The lane type `int32`. -/
def int32 : ScalarType := ⟨32, true⟩

/-- The value of type `T` held by a bit pattern: the low `T.bits` bits, read
in two's complement when `T` is signed. -/
def ScalarType.ofBits (T : ScalarType) (u : Nat) : Int :=
  if T.isSigned then toSigned T.bits u else ((u % 2 ^ T.bits : Nat) : Int)

/-- Conversion `ScalarType(z)` of an integer value to the type `T`
(wrap-around). -/
def ScalarType.convert (T : ScalarType) (z : Int) : Int :=
  T.ofBits (toUnsigned T.bits z)

/-! ## Portable backend: scalar helpers (`scalar_int128.hpp`) -/

/-- The helper `scalar_mullo<ScalarType>`: `return ScalarType(a * b);`. The
product is formed exactly and converted to the lane type (for `int` lanes the
product is taken to wrap, as it does on the targets of the library). -/
def scalar_mullo (T : ScalarType) (a b : Int) : Int := T.convert (a * b)

/-- The helper `scalar_unsigned_adds<ScalarType>` for a `w`-bit unsigned type:
`v = a + b; v |= -(v < a); return v;`. -/
def scalar_unsigned_adds (w : Nat) (a b : Nat) : Nat :=
  let v := toUnsigned w ((a : Int) + b)
  let v := (v ||| negBool (decide (v < a))) % 2 ^ w
  v

/-- The helper `scalar_unsigned_subs<ScalarType>` for a `w`-bit unsigned type:
`v = a - b; v &= -(v <= a); return v;`. -/
def scalar_unsigned_subs (w : Nat) (a b : Nat) : Nat :=
  let v := toUnsigned w ((a : Int) - b)
  let v := (v &&& negBool (decide (v ≤ a))) % 2 ^ w
  v

/-- The helper `scalar_signed_adds<ScalarType>` for a `w`-bit signed type. The
operands are converted to the unsigned type, added with wrap-around, the
saturation bound is derived from the sign of `a`, and the bound replaces the
sum when `ScalarType((x ^ y) | ~(y ^ v)) >= 0`. -/
def scalar_signed_adds (w : Nat) (a b : Int) : Int :=
  let x := toUnsigned w a
  let y := toUnsigned w b
  let v := toUnsigned w ((x : Int) + y)
  let x := toUnsigned w (((x >>> (w - 1) : Nat) : Int) + signedMax w)
  if toSigned w ((x ^^^ y) ||| bitNot (y ^^^ v)) ≥ 0 then toSigned w x
  else toSigned w v

/-- The helper `scalar_signed_subs<ScalarType>` for a `w`-bit signed type. The
bound replaces the wrapped difference when
`ScalarType((x ^ y) & (x ^ v)) < 0`. -/
def scalar_signed_subs (w : Nat) (a b : Int) : Int :=
  let x := toUnsigned w a
  let y := toUnsigned w b
  let v := toUnsigned w ((x : Int) - y)
  let x := toUnsigned w (((x >>> (w - 1) : Nat) : Int) + signedMax w)
  if toSigned w ((x ^^^ y) &&& (x ^^^ v)) < 0 then toSigned w x
  else toSigned w v

/-! ## Portable backend: vectors -/

/-- Modelled from the spec: the vector type `scalar_type<ScalarType, Size>` of
the header `simd.hpp`, which is not part of the sources at hand: `Size` lanes
of `ScalarType`, lane 0 first. -/
abbrev scalar_type (α : Type) (Size : Nat) : Type := Fin Size → α

/-- The binary `scalar_unroll`: starting from a fresh vector, the loop
`for (i = 0; i < Size; ++i) v[i] = func(a[i], b[i]);`. -/
def scalar_unroll {α : Type} [Inhabited α] {Size : Nat} (func : α → α → α)
    (a b : scalar_type α Size) : scalar_type α Size :=
  (List.finRange Size).foldl (fun v i => Function.update v i (func (a i) (b i)))
    (fun _ => default)


/-- A vector given by the list of its lanes, lane 0 first; lanes beyond the
list are zero. -/
def ofList {Size : Nat} (l : List Int) : scalar_type Int Size := fun i => l.getD i.val 0

namespace portable

/-- Portable `adds(int8x16 a, int8x16 b)`. -/
def adds_int8x16 (a b : scalar_type Int 16) : scalar_type Int 16 :=
  scalar_unroll (scalar_signed_adds 8) a b

/-- Portable `adds(int16x8 a, int16x8 b)`. -/
def adds_int16x8 (a b : scalar_type Int 8) : scalar_type Int 8 :=
  scalar_unroll (scalar_signed_adds 16) a b

/-- Portable `adds(int32x4 a, int32x4 b)`. -/
def adds_int32x4 (a b : scalar_type Int 4) : scalar_type Int 4 :=
  scalar_unroll (scalar_signed_adds 32) a b

/-- Portable `subs(int32x4 a, int32x4 b)`. -/
def subs_int32x4 (a b : scalar_type Int 4) : scalar_type Int 4 :=
  scalar_unroll (scalar_signed_subs 32) a b

/-- Portable `adds(uint32x4 a, uint32x4 b)`. -/
def adds_uint32x4 (a b : scalar_type Nat 4) : scalar_type Nat 4 :=
  scalar_unroll (scalar_unsigned_adds 32) a b

/-- Portable `subs(uint32x4 a, uint32x4 b)`. -/
def subs_uint32x4 (a b : scalar_type Nat 4) : scalar_type Nat 4 :=
  scalar_unroll (scalar_unsigned_subs 32) a b

/-- Portable `mullo(uint8x16 a, uint8x16 b)`. -/
def mullo_uint8x16 (a b : scalar_type Int 16) : scalar_type Int 16 :=
  scalar_unroll (scalar_mullo uint8) a b

/-- Portable `mullo(int8x16 a, int8x16 b)`. -/
def mullo_int8x16 (a b : scalar_type Int 16) : scalar_type Int 16 :=
  scalar_unroll (scalar_mullo int8) a b

/-- Portable `mullo(uint32x4 a, uint32x4 b)`. -/
def mullo_uint32x4 (a b : scalar_type Int 4) : scalar_type Int 4 :=
  scalar_unroll (scalar_mullo uint32) a b

/-- Portable `mullo(int32x4 a, int32x4 b)`. -/
def mullo_int32x4 (a b : scalar_type Int 4) : scalar_type Int 4 :=
  scalar_unroll (scalar_mullo int32) a b

end portable

/-- The first operand of the `adds` scenario of the specification on
`int8x16`: `a = [127, -128, 100, 0, ...]`. -/
def adds_scenario_a : scalar_type Int 16 := ofList [127, -128, 100, 0]

/-- The second operand of the `adds` scenario of the specification on
`int8x16`: `b = [1, -1, 50, 0, ...]`. -/
def adds_scenario_b : scalar_type Int 16 := ofList [1, -1, 50, 0]

/-- Operands of `adds` on `int16x8` with lanes that saturate at both bounds. -/
def adds_scenario_a16 : scalar_type Int 8 := ofList [32767, -32768, 30000, 0]

/-- The second operand of the `int16x8` scenario. -/
def adds_scenario_b16 : scalar_type Int 8 := ofList [1, -1, 5000, 0]

/-- Operands of `adds` on `int32x4` with lanes that saturate at both bounds. -/
def adds_scenario_a32 : scalar_type Int 4 := ofList [2147483647, -2147483648, 2000000000, 0]

/-- The second operand of the `int32x4` scenario. -/
def adds_scenario_b32 : scalar_type Int 4 := ofList [1, -1, 500000000, 0]

/-! ## SSE2 backend: the register model and the intrinsics used

The intrinsics follow the operation sections of the Intel Intrinsics Guide. -/

/-- Lane `i` of width `w` of a register: bits `[w*i, w*i + w)`. -/
def lane (w i : Nat) (v : Nat) : Nat := v / 2 ^ (w * i) % 2 ^ w

/-- The register whose lanes of width `w` are the given list, lane 0 in the
least significant bits; each entry is truncated to `w` bits. -/
def ofLanes (w : Nat) : List Nat → Nat
  | [] => 0
  | x :: xs => x % 2 ^ w + 2 ^ w * ofLanes w xs

/-- The register with `n` lanes of width `w` whose lane `j` is `f j` truncated:
the loop `FOR j := 0 to n-1` of the intrinsics' operation sections. -/
def lanewise (w n : Nat) (f : Nat → Nat) : Nat := ofLanes w ((List.range n).map f)

/-- The `n` lanes of a register read as values of the lane type `T`: the
vector a register holds. -/
def lanesOf (T : ScalarType) (n : Nat) (v : Nat) : scalar_type Int n :=
  fun i => T.ofBits (lane T.bits i.val v)

/-- The `n` lanes of width `w` of a register as unsigned numbers. -/
def ulanesOf (w n : Nat) (v : Nat) : scalar_type Nat n := fun i => lane w i.val v

/-- The intrinsic `_mm_setzero_si128`. -/
def _mm_setzero_si128 : Nat := 0

/-- The intrinsic `_mm_set_epi32 (e3, e2, e1, e0)`: lane 0 is `e0`. -/
def _mm_set_epi32 (e3 e2 e1 e0 : Nat) : Nat := ofLanes 32 [e0, e1, e2, e3]

/-- The intrinsic `_mm_and_si128`: bitwise AND of 128 bits. -/
def _mm_and_si128 (a b : Nat) : Nat := a &&& b

/-- The intrinsic `_mm_or_si128`: bitwise OR of 128 bits. -/
def _mm_or_si128 (a b : Nat) : Nat := a ||| b

/-- The intrinsic `_mm_xor_si128`: bitwise XOR of 128 bits. -/
def _mm_xor_si128 (a b : Nat) : Nat := a ^^^ b

/-- The intrinsic `_mm_andnot_si128`: `(NOT a) AND b` on 128 bits. -/
def _mm_andnot_si128 (a b : Nat) : Nat := (2 ^ 128 - 1 - a % 2 ^ 128) &&& b

/-- The intrinsic `_mm_add_epi32`: wrapping addition of 32-bit lanes. -/
def _mm_add_epi32 (a b : Nat) : Nat :=
  lanewise 32 4 fun j => lane 32 j a + lane 32 j b

/-- The intrinsic `_mm_sub_epi32`: wrapping subtraction of 32-bit lanes. -/
def _mm_sub_epi32 (a b : Nat) : Nat :=
  lanewise 32 4 fun j => toUnsigned 32 ((lane 32 j a : Int) - lane 32 j b)

/-- The intrinsic `_mm_srai_epi32`: arithmetic right shift of 32-bit lanes by
`imm8`, shifting in sign bits (a count above 31 fills the lane with the sign). -/
def _mm_srai_epi32 (a : Nat) (imm8 : Nat) : Nat :=
  lanewise 32 4 fun j => toUnsigned 32 (toSigned 32 (lane 32 j a) / 2 ^ imm8)

/-- The intrinsic `_mm_cmpeq_epi32`: all ones in the lanes that are equal. -/
def _mm_cmpeq_epi32 (a b : Nat) : Nat :=
  lanewise 32 4 fun j => if lane 32 j a = lane 32 j b then 0xFFFFFFFF else 0

/-- The intrinsic `_mm_cmpgt_epi32`: all ones in the lanes where `a > b` as
signed 32-bit integers. -/
def _mm_cmpgt_epi32 (a b : Nat) : Nat :=
  lanewise 32 4 fun j =>
    if toSigned 32 (lane 32 j a) > toSigned 32 (lane 32 j b) then 0xFFFFFFFF else 0

/-- The intrinsic `_mm_cmplt_epi32`: all ones in the lanes where `a < b` as
signed 32-bit integers. -/
def _mm_cmplt_epi32 (a b : Nat) : Nat :=
  lanewise 32 4 fun j =>
    if toSigned 32 (lane 32 j a) < toSigned 32 (lane 32 j b) then 0xFFFFFFFF else 0

/-- The intrinsic `_mm_mullo_epi16`: the low 16 bits of the product of the
signed 16-bit lanes. -/
def _mm_mullo_epi16 (a b : Nat) : Nat :=
  lanewise 16 8 fun j => toUnsigned 16 (toSigned 16 (lane 16 j a) * toSigned 16 (lane 16 j b))

/-- The intrinsic `_mm_srli_epi16`: logical right shift of 16-bit lanes. -/
def _mm_srli_epi16 (a : Nat) (imm8 : Nat) : Nat :=
  lanewise 16 8 fun j => lane 16 j a >>> imm8

/-- The intrinsic `_mm_slli_epi16`: left shift of 16-bit lanes, shifting in
zeros. -/
def _mm_slli_epi16 (a : Nat) (imm8 : Nat) : Nat :=
  lanewise 16 8 fun j => lane 16 j a <<< imm8

/-- The intrinsic `_mm_mul_epu32`: the full 64-bit products of the unsigned
32-bit lanes 0 and 2. -/
def _mm_mul_epu32 (a b : Nat) : Nat :=
  lanewise 64 2 fun j => lane 32 (2 * j) a * lane 32 (2 * j) b

/-- The intrinsic `_mm_srli_si128`: shift of the whole register right by
`imm8` bytes, shifting in zeros. -/
def _mm_srli_si128 (a : Nat) (imm8 : Nat) : Nat := (a % 2 ^ 128) >>> (8 * imm8)

/-- The macro `_MM_SHUFFLE(fp3, fp2, fp1, fp0)`. -/
def _MM_SHUFFLE (fp3 fp2 fp1 fp0 : Nat) : Nat :=
  (fp3 <<< 6) ||| (fp2 <<< 4) ||| (fp1 <<< 2) ||| fp0

/-- The intrinsic `_mm_shuffle_epi32`: lane `j` of the result is the lane of
`a` selected by bits `[2j, 2j+2)` of the control byte. -/
def _mm_shuffle_epi32 (a : Nat) (imm8 : Nat) : Nat :=
  lanewise 32 4 fun j => lane 32 (lane 2 j imm8) a

/-- The intrinsic `_mm_unpacklo_epi32`: interleave of the two low 32-bit lanes
of `a` and `b`. -/
def _mm_unpacklo_epi32 (a b : Nat) : Nat :=
  ofLanes 32 [lane 32 0 a, lane 32 0 b, lane 32 1 a, lane 32 1 b]

/-! ## SSE2 backend (`sse_int128.hpp`) -/

namespace sse

/-- The helper `simd_mullo_epi8`. -/
def simd_mullo_epi8 (a b : Nat) : Nat :=
  let temp0 := _mm_mullo_epi16 a b
  let temp1 := _mm_mullo_epi16 (_mm_srli_epi16 a 8) (_mm_srli_epi16 b 8)
  _mm_or_si128 (_mm_slli_epi16 temp1 8) (_mm_srli_epi16 (_mm_slli_epi16 temp0 8) 8)

/-- The helper `simd_mullo_epi32`. -/
def simd_mullo_epi32 (a b : Nat) : Nat :=
  let temp0 := _mm_mul_epu32 a b
  let temp1 := _mm_mul_epu32 (_mm_srli_si128 a 4) (_mm_srli_si128 b 4)
  let temp0 := _mm_shuffle_epi32 temp0 (_MM_SHUFFLE 0 0 2 0)
  let temp1 := _mm_shuffle_epi32 temp1 (_MM_SHUFFLE 0 0 2 0)
  _mm_unpacklo_epi32 temp0 temp1

/-- The helper `_mm_select_si128` of the backend:
`or(and(mask, a), andnot(mask, b))`. -/
def _mm_select_si128 (mask a b : Nat) : Nat :=
  _mm_or_si128 (_mm_and_si128 mask a) (_mm_andnot_si128 mask b)

/-- SSE2 `mullo(uint8x16 a, uint8x16 b)`. -/
def mullo_uint8x16 (a b : Nat) : Nat := simd_mullo_epi8 a b

/-- SSE2 `mullo(int8x16 a, int8x16 b)`. -/
def mullo_int8x16 (a b : Nat) : Nat := simd_mullo_epi8 a b

/-- SSE2 `mullo(uint32x4 a, uint32x4 b)` when `MANGO_ENABLE_SSE4_1` is not
defined. -/
def mullo_uint32x4 (a b : Nat) : Nat := simd_mullo_epi32 a b

/-- SSE2 `mullo(int32x4 a, int32x4 b)` when `MANGO_ENABLE_SSE4_1` is not
defined. -/
def mullo_int32x4 (a b : Nat) : Nat := simd_mullo_epi32 a b

/-- SSE2 `adds(uint32x4 a, uint32x4 b)`. -/
def adds_uint32x4 (a b : Nat) : Nat :=
  let temp := _mm_add_epi32 a b
  _mm_or_si128 temp (_mm_cmplt_epi32 temp a)

/-- SSE2 `subs(uint32x4 a, uint32x4 b)`. -/
def subs_uint32x4 (a b : Nat) : Nat :=
  let temp := _mm_sub_epi32 a b
  _mm_and_si128 temp (_mm_cmpgt_epi32 a temp)

/-- SSE2 `adds(int32x4 a, int32x4 b)`. -/
def adds_int32x4 (a b : Nat) : Nat :=
  let v := _mm_add_epi32 a b
  let a := _mm_srai_epi32 a 31
  let temp := _mm_xor_si128 b v
  let temp := _mm_xor_si128 temp (_mm_cmpeq_epi32 temp temp)
  let temp := _mm_or_si128 temp (_mm_xor_si128 a b)
  _mm_select_si128 (_mm_cmpgt_epi32 _mm_setzero_si128 temp) v a

/-- SSE2 `subs(int32x4 a, int32x4 b)`. -/
def subs_int32x4 (a b : Nat) : Nat :=
  let v := _mm_sub_epi32 a b
  let a := _mm_srai_epi32 a 31
  let temp := _mm_and_si128 (_mm_xor_si128 a b) (_mm_xor_si128 a v)
  _mm_select_si128 (_mm_cmpgt_epi32 _mm_setzero_si128 temp) a v

end sse

/-! ## Portable backend: compare, select, min, max -/

/-- The values a lane of type `T` can hold. -/
def ScalarType.InRange (T : ScalarType) (z : Int) : Prop :=
  if T.isSigned then -(2 ^ (T.bits - 1)) ≤ z ∧ z < 2 ^ (T.bits - 1)
  else 0 ≤ z ∧ z < 2 ^ T.bits

instance (T : ScalarType) (z : Int) : Decidable (T.InRange z) := by
  unfold ScalarType.InRange
  exact inferInstance

/-- The value of type `T` whose bits are all set: `-1` for a signed type,
`2 ^ bits - 1` for an unsigned one. -/
def ScalarType.allOnes (T : ScalarType) : Int := T.ofBits (2 ^ T.bits - 1)

/-- The operand of a bitwise operator after integral promotion (or, for 32-bit
lanes, as it stands), as a 32-bit two's complement pattern. -/
def promoteBits (z : Int) : Nat := toUnsigned intBits z

/-- The helper `scalar_compare_eq<ScalarType>`: `return a == b ? ~0 : 0;`, the
`int` result converted to the lane type. -/
def scalar_compare_eq (T : ScalarType) (a b : Int) : Int :=
  T.ofBits (if a = b then bitNot 0 else 0)

/-- The helper `scalar_compare_gt<ScalarType>`: `return a > b ? ~0 : 0;`, the
`int` result converted to the lane type. -/
def scalar_compare_gt (T : ScalarType) (a b : Int) : Int :=
  T.ofBits (if a > b then bitNot 0 else 0)

/-- The helper `scalar_min<ScalarType>`: `std::min(a, b)`, which is
`(b < a) ? b : a`. -/
def scalar_min (a b : Int) : Int := if b < a then b else a

/-- The helper `scalar_max<ScalarType>`: `std::max(a, b)`, which is
`(a < b) ? b : a`. -/
def scalar_max (a b : Int) : Int := if a < b then b else a

/-- The helper `scalar_select`: starting from a fresh vector, the loop
`for (i = 0; i < Size; ++i) v[i] = (mask[i] & a[i]) | (~mask[i] & b[i]);`, each
lane converted back to the lane type. -/
def scalar_select (T : ScalarType) {Size : Nat} (mask a b : scalar_type Int Size) :
    scalar_type Int Size :=
  (List.finRange Size).foldl
    (fun v i => Function.update v i
      (T.ofBits ((promoteBits (mask i) &&& promoteBits (a i)) |||
        (bitNot (promoteBits (mask i)) &&& promoteBits (b i)))))
    (fun _ => default)

namespace portable

/-- Portable `compare_eq(V a, V b)` for the vector type `V` of `Size` lanes of
type `T`: `scalar_unroll(scalar_compare_eq, a, b)`. -/
def compare_eq (T : ScalarType) {Size : Nat} (a b : scalar_type Int Size) :
    scalar_type Int Size :=
  scalar_unroll (scalar_compare_eq T) a b

/-- Portable `compare_gt(V a, V b)` for the vector type `V` of `Size` lanes of
type `T`: `scalar_unroll(scalar_compare_gt, a, b)`. -/
def compare_gt (T : ScalarType) {Size : Nat} (a b : scalar_type Int Size) :
    scalar_type Int Size :=
  scalar_unroll (scalar_compare_gt T) a b

/-- Portable `select(V mask, V a, V b)`: `scalar_select(mask, a, b)`. -/
def select (T : ScalarType) {Size : Nat} (mask a b : scalar_type Int Size) :
    scalar_type Int Size :=
  scalar_select T mask a b

/-- Portable `min(V a, V b)`: `scalar_unroll(scalar_min, a, b)`. -/
def min {Size : Nat} (a b : scalar_type Int Size) : scalar_type Int Size :=
  scalar_unroll scalar_min a b

/-- Portable `max(V a, V b)`: `scalar_unroll(scalar_max, a, b)`. -/
def max {Size : Nat} (a b : scalar_type Int Size) : scalar_type Int Size :=
  scalar_unroll scalar_max a b

end portable

/-- A mask vector on `int8x16` for the select example: lane 0 all ones, the
other lanes zero. -/
def select_example_mask : scalar_type Int 16 := ofList [-1, 0]

/-- First operand of the select example on `int8x16`. -/
def select_example_a : scalar_type Int 16 := ofList [5, 6]

/-- Second operand of the select example on `int8x16`. -/
def select_example_b : scalar_type Int 16 := ofList [7, 8]

/-! ## SSE2 backend: compare, min, max, shuffle -/

/-- The intrinsic `_mm_set1_epi32`: the 32-bit value in all four lanes. -/
def _mm_set1_epi32 (a : Nat) : Nat := lanewise 32 4 fun _ => a

/-- The intrinsic `_mm_cmpgt_epi8`: all ones in the lanes where `a > b` as
signed 8-bit integers. -/
def _mm_cmpgt_epi8 (a b : Nat) : Nat :=
  lanewise 8 16 fun j =>
    if toSigned 8 (lane 8 j a) > toSigned 8 (lane 8 j b) then 0xFF else 0

/-- The intrinsic `_mm_cmpgt_epi16`: all ones in the lanes where `a > b` as
signed 16-bit integers. -/
def _mm_cmpgt_epi16 (a b : Nat) : Nat :=
  lanewise 16 8 fun j =>
    if toSigned 16 (lane 16 j a) > toSigned 16 (lane 16 j b) then 0xFFFF else 0

namespace sse

/-- SSE2 `compare_gt(uint8x16 a, uint8x16 b)` when `MANGO_ENABLE_XOP` is not
defined. -/
def compare_gt_uint8x16 (a b : Nat) : Nat :=
  let sign := _mm_set1_epi32 0x80808080
  _mm_cmpgt_epi8 (_mm_xor_si128 a sign) (_mm_xor_si128 b sign)

/-- SSE2 `compare_gt(uint16x8 a, uint16x8 b)` when `MANGO_ENABLE_XOP` is not
defined. -/
def compare_gt_uint16x8 (a b : Nat) : Nat :=
  let sign := _mm_set1_epi32 0x80008000
  _mm_cmpgt_epi16 (_mm_xor_si128 a sign) (_mm_xor_si128 b sign)

/-- SSE2 `compare_gt(uint32x4 a, uint32x4 b)` when `MANGO_ENABLE_XOP` is not
defined. -/
def compare_gt_uint32x4 (a b : Nat) : Nat :=
  let sign := _mm_set1_epi32 0x80000000
  _mm_cmpgt_epi32 (_mm_xor_si128 a sign) (_mm_xor_si128 b sign)

end sse

namespace sse

/-- SSE2 `min(uint16x8 a, uint16x8 b)` when `MANGO_ENABLE_SSE4_1` is not defined. -/
def min_uint16x8 (a b : Nat) : Nat :=
  let mask := compare_gt_uint16x8 a b
  _mm_select_si128 mask b a

/-- SSE2 `max(uint16x8 a, uint16x8 b)` when `MANGO_ENABLE_SSE4_1` is not defined. -/
def max_uint16x8 (a b : Nat) : Nat :=
  let mask := compare_gt_uint16x8 a b
  _mm_select_si128 mask a b

/-- SSE2 `min(uint32x4 a, uint32x4 b)` when `MANGO_ENABLE_SSE4_1` is not defined. -/
def min_uint32x4 (a b : Nat) : Nat :=
  let mask := compare_gt_uint32x4 a b
  _mm_select_si128 mask b a

/-- SSE2 `max(uint32x4 a, uint32x4 b)` when `MANGO_ENABLE_SSE4_1` is not defined. -/
def max_uint32x4 (a b : Nat) : Nat :=
  let mask := compare_gt_uint32x4 a b
  _mm_select_si128 mask a b

/-- SSE2 `min(int8x16 a, int8x16 b)` when `MANGO_ENABLE_SSE4_1` is not defined. -/
def min_int8x16 (a b : Nat) : Nat :=
  let mask := _mm_cmpgt_epi8 a b
  _mm_select_si128 mask b a

/-- SSE2 `max(int8x16 a, int8x16 b)` when `MANGO_ENABLE_SSE4_1` is not defined. -/
def max_int8x16 (a b : Nat) : Nat :=
  let mask := _mm_cmpgt_epi8 a b
  _mm_select_si128 mask a b

/-- SSE2 `min(int32x4 a, int32x4 b)` when `MANGO_ENABLE_SSE4_1` is not defined. -/
def min_int32x4 (a b : Nat) : Nat :=
  let mask := _mm_cmpgt_epi32 a b
  _mm_select_si128 mask b a

/-- SSE2 `max(int32x4 a, int32x4 b)` when `MANGO_ENABLE_SSE4_1` is not defined. -/
def max_int32x4 (a b : Nat) : Nat :=
  let mask := _mm_cmpgt_epi32 a b
  _mm_select_si128 mask a b

end sse

/-- First operand of the min/max example on `uint32x4`. -/
def minmax_example_a : scalar_type Int 4 := ofList [3, 4000000000, 7, 0]

/-- Second operand of the min/max example on `uint32x4`. -/
def minmax_example_b : scalar_type Int 4 := ofList [5, 2, 7, 1]

/-- The aggregate `{{ x, y, z, w }}` initialising a four-lane vector. -/
def set4 {α : Type} (x y z w : α) : scalar_type α 4 :=
  fun i => if i.val = 0 then x else if i.val = 1 then y else if i.val = 2 then z else w

namespace portable

/-- Portable `shuffle<x, y, z, w>(v)` on `uint32x4` and on `int32x4`, the
primary template: `{{ v[x], v[y], v[z], v[w] }}`. The `static_assert` on the
indices is their type. -/
def shuffle_generic (x y z w : Fin 4) (v : scalar_type Int 4) : scalar_type Int 4 :=
  set4 (v x) (v y) (v z) (v w)

/-- Portable `shuffle<x, y, z, w>(v)` as the compiler resolves it: the explicit
specialization `shuffle<0, 1, 2, 3>` returns `v`, every other instance is the
primary template. -/
def shuffle (x y z w : Fin 4) (v : scalar_type Int 4) : scalar_type Int 4 :=
  if x = 0 ∧ y = 1 ∧ z = 2 ∧ w = 3 then v else shuffle_generic x y z w v

end portable

namespace sse

/-- SSE2 `shuffle<x, y, z, w>(v)` on `uint32x4` and on `int32x4`, the primary
template: `_mm_shuffle_epi32(v, _MM_SHUFFLE(w, z, y, x))`. -/
def shuffle_generic (x y z w : Fin 4) (v : Nat) : Nat :=
  _mm_shuffle_epi32 v (_MM_SHUFFLE w z y x)

/-- SSE2 `shuffle<x, y, z, w>(v)` as the compiler resolves it: the explicit
specialization `shuffle<0, 1, 2, 3>` returns `v`. -/
def shuffle (x y z w : Fin 4) (v : Nat) : Nat :=
  if x = 0 ∧ y = 1 ∧ z = 2 ∧ w = 3 then v else shuffle_generic x y z w v

end sse

/-! ## Portable backend: unpacklo, unpackhi -/

/-- The assignment `v[k] = x` on a vector. -/
def setLane {α : Type} {N : Nat} (v : scalar_type α N) (k : Nat) (x : α) : scalar_type α N :=
  fun j => if j.val = k then x else v j

/-- The read `v[k]` of a vector. -/
def getLane {α : Type} [Inhabited α] {N : Nat} (v : scalar_type α N) (k : Nat) : α :=
  if h : k < N then v ⟨k, h⟩ else default

/-- The loop of `scalar_unpacklo` acting on the result vector `v`, which is
declared without an initialiser: a lane is `none` until the loop assigns it.
`for (i = 0; i < VectorType::size / 2; ++i) { v[i*2+0] = a[i]; v[i*2+1] = b[i]; }` -/
def scalar_unpacklo_loop {α : Type} [Inhabited α] {N : Nat} (a b : scalar_type α N) :
    scalar_type (Option α) N :=
  (List.range (N / 2)).foldl
    (fun v i => setLane (setLane v (i * 2 + 0) (some (getLane a i))) (i * 2 + 1)
      (some (getLane b i)))
    (fun _ => none)

/-- The helper `scalar_unpacklo`: the vector its loop leaves. -/
def scalar_unpacklo {α : Type} [Inhabited α] {N : Nat} (a b : scalar_type α N) :
    scalar_type α N :=
  fun j => (scalar_unpacklo_loop a b j).getD default

/-- The loop of `scalar_unpackhi` acting on the result vector `v`, a lane being
`none` until the loop assigns it; `half` is `VectorType::size / 2`.
`for (i = 0; i < half; ++i) { v[i*2+0] = a[i+half]; v[i*2+1] = b[i+half]; }` -/
def scalar_unpackhi_loop {α : Type} [Inhabited α] {N : Nat} (a b : scalar_type α N) :
    scalar_type (Option α) N :=
  let half := N / 2
  (List.range half).foldl
    (fun v i => setLane (setLane v (i * 2 + 0) (some (getLane a (i + half)))) (i * 2 + 1)
      (some (getLane b (i + half))))
    (fun _ => none)

/-- The helper `scalar_unpackhi`: the vector its loop leaves. -/
def scalar_unpackhi {α : Type} [Inhabited α] {N : Nat} (a b : scalar_type α N) :
    scalar_type α N :=
  fun j => (scalar_unpackhi_loop a b j).getD default

/-- First operand of the unpack example, four lanes. -/
def unpack_example_a : scalar_type Int 4 := ofList [10, 11, 12, 13]

/-- Second operand of the unpack example, four lanes. -/
def unpack_example_b : scalar_type Int 4 := ofList [20, 21, 22, 23]

/-! ## pack -/

/-- Modelled from the spec: the helper `byteclamp` of the library, which is not
part of the sources at hand: it clamps its argument into `[0, 255]`
("byte-clamp each of 4 signed 32-bit lanes into [0,255]"). -/
def byteclamp (v : Int) : Int := clamp v 0 255

namespace portable

/-- Portable `pack(int32x4 s)`: the four lanes passed through `byteclamp` into
`uint32` variables and combined as `x | (y << 8) | (z << 16) | (w << 24)`. The
helper `byteclamp` is defined outside the two source files and is a parameter
here. -/
def pack (byteclamp : Int → Int) (s : scalar_type Int 4) : Nat :=
  let x := toUnsigned 32 (byteclamp (s 0))
  let y := toUnsigned 32 (byteclamp (s 1))
  let z := toUnsigned 32 (byteclamp (s 2))
  let w := toUnsigned 32 (byteclamp (s 3))
  (x ||| ((y <<< 8) % 2 ^ 32) ||| ((z <<< 16) % 2 ^ 32) ||| ((w <<< 24) % 2 ^ 32)) % 2 ^ 32

end portable

/-- The intrinsic `_mm_packs_epi32`: the 32-bit lanes of `a`, then those of `b`,
each converted to 16 bits with signed saturation. -/
def _mm_packs_epi32 (a b : Nat) : Nat :=
  lanewise 16 8 fun j =>
    if j < 4 then toUnsigned 16 (clamp (toSigned 32 (lane 32 j a)) (-32768) 32767)
    else toUnsigned 16 (clamp (toSigned 32 (lane 32 (j - 4) b)) (-32768) 32767)

/-- The intrinsic `_mm_packus_epi16`: the signed 16-bit lanes of `a`, then those
of `b`, each converted to 8 bits with unsigned saturation. -/
def _mm_packus_epi16 (a b : Nat) : Nat :=
  lanewise 8 16 fun j =>
    if j < 8 then toUnsigned 8 (clamp (toSigned 16 (lane 16 j a)) 0 255)
    else toUnsigned 8 (clamp (toSigned 16 (lane 16 (j - 8) b)) 0 255)

/-- The intrinsic `_mm_cvtsi128_si32`: the low 32 bits of the register, here
as a bit pattern. -/
def _mm_cvtsi128_si32 (a : Nat) : Nat := lane 32 0 a

namespace sse

/-- SSE2 `pack(int32x4 s)`; the `int` it computes is returned as `uint32`. -/
def pack (s : Nat) : Nat :=
  let s16 := _mm_packs_epi32 s s
  let s8 := _mm_packus_epi16 s16 s16
  _mm_cvtsi128_si32 s8

end sse

/-- The pack example of the specification: lanes `[300, -10, 7, 255]`. -/
def pack_example : scalar_type Int 4 := ofList [300, -10, 7, 255]

/-! ## unpack and get_mask -/

namespace portable

/-- Portable `unpack(uint32 s)`: the four assignments
`v[0] = (s >> 0) & 0xff; v[1] = (s >> 8) & 0xff; v[2] = (s >> 16) & 0xff;
v[3] = (s >> 24);` on a fresh `int32x4`, each `uint32` value converted to the
`int` lane. -/
def unpack (s : Nat) : scalar_type Int 4 :=
  let v : scalar_type Int 4 := fun _ => default
  let v := setLane v 0 (int32.ofBits ((s >>> 0) &&& 0xff))
  let v := setLane v 1 (int32.ofBits ((s >>> 8) &&& 0xff))
  let v := setLane v 2 (int32.ofBits ((s >>> 16) &&& 0xff))
  let v := setLane v 3 (int32.ofBits (s >>> 24))
  v

/-- Portable `get_mask(int32x4 a)`: the sign bit of each lane isolated with
`& 0x80000000` in a `uint32` and moved to bit `i`. -/
def get_mask (a : scalar_type Int 4) : Nat :=
  let x := promoteBits (a 0) &&& 0x80000000
  let y := promoteBits (a 1) &&& 0x80000000
  let z := promoteBits (a 2) &&& 0x80000000
  let w := promoteBits (a 3) &&& 0x80000000
  let mask := (x >>> 31) ||| (y >>> 30) ||| (z >>> 29) ||| (w >>> 28)
  mask

end portable

/-- The intrinsic `_mm_cvtsi32_si128`: the 32-bit value in the low lane, the
upper 96 bits zero. -/
def _mm_cvtsi32_si128 (a : Nat) : Nat := a % 2 ^ 32

/-- The intrinsic `_mm_unpacklo_epi8`: the low eight bytes of `a` and of `b`,
interleaved, those of `a` in the even lanes. -/
def _mm_unpacklo_epi8 (a b : Nat) : Nat :=
  lanewise 8 16 fun j => if j % 2 = 0 then lane 8 (j / 2) a else lane 8 (j / 2) b

/-- The intrinsic `_mm_unpacklo_epi16`: the low four 16-bit lanes of `a` and of
`b`, interleaved, those of `a` in the even lanes. -/
def _mm_unpacklo_epi16 (a b : Nat) : Nat :=
  lanewise 16 8 fun j => if j % 2 = 0 then lane 16 (j / 2) a else lane 16 (j / 2) b

/-- The intrinsic `_mm_cvtepu8_epi32`: the low four bytes, each zero-extended
to a 32-bit lane. -/
def _mm_cvtepu8_epi32 (a : Nat) : Nat := lanewise 32 4 fun j => lane 8 j a

/-- The intrinsic `_mm_movemask_ps`: bit `j` of the result is the top bit of the
32-bit lane `j`. -/
def _mm_movemask_ps (a : Nat) : Nat := lanewise 1 4 fun j => lane 32 j a >>> 31

/-- The intrinsic `_mm_castsi128_ps`: the same 128 bits, retyped. -/
def _mm_castsi128_ps (a : Nat) : Nat := a

namespace sse

/-- SSE2 `unpack(uint32 s)` when `MANGO_ENABLE_SSE4_1` is not defined. -/
def unpack (s : Nat) : Nat :=
  let zero := _mm_setzero_si128
  let i := _mm_cvtsi32_si128 s
  _mm_unpacklo_epi16 (_mm_unpacklo_epi8 i zero) zero

/-- SSE2 `unpack(uint32 s)` when `MANGO_ENABLE_SSE4_1` is defined. -/
def unpack_sse4_1 (s : Nat) : Nat :=
  let i := _mm_cvtsi32_si128 s
  _mm_cvtepu8_epi32 i

/-- SSE2 `get_mask(int32x4 a)`; the `int` of the intrinsic is returned as
`uint32`. -/
def get_mask (a : Nat) : Nat := _mm_movemask_ps (_mm_castsi128_ps a)

end sse

/-- The vector of the mask extraction scenario of the specification: lanes 0
and 2 negative, lanes 1 and 3 not. -/
def get_mask_example : scalar_type Int 4 := ofList [-1, 0, -2147483648, 2147483647]

/-- A vector with every lane in `[0, 255]` for the round trip example. -/
def roundtrip_example : scalar_type Int 4 := ofList [0, 255, 7, 128]

/-! ## nand, abs, shifts -/

/-- The helper `scalar_nand<ScalarType>`: `return ~a & b;`. -/
def scalar_nand (T : ScalarType) (a b : Int) : Int :=
  T.ofBits (bitNot (promoteBits a) &&& promoteBits b)

namespace portable

/-- Portable `uint8x16_nand`, `uint16x8_nand`, `uint32x4_nand`, `int8x16_nand`,
`int16x8_nand`, `int32x4_nand`: `scalar_unroll(scalar_nand, a, b)` on `Size`
lanes of type `T`. -/
def nand (T : ScalarType) {Size : Nat} (a b : scalar_type Int Size) : scalar_type Int Size :=
  scalar_unroll (scalar_nand T) a b

end portable

namespace sse

/-- SSE2 `uint8x16_nand`, `uint16x8_nand`, `uint32x4_nand`, `int8x16_nand`,
`int16x8_nand`, `int32x4_nand`: `_mm_andnot_si128(a, b)`. -/
def nand (a b : Nat) : Nat := _mm_andnot_si128 a b

end sse

/-- The unary `scalar_unroll`: starting from a fresh vector, the loop
`for (i = 0; i < Size; ++i) v[i] = func(a[i]);`. -/
def scalar_unroll_unary {α : Type} [Inhabited α] {Size : Nat} (func : α → α)
    (a : scalar_type α Size) : scalar_type α Size :=
  (List.finRange Size).foldl (fun v i => Function.update v i (func (a i)))
    (fun _ => default)

/-- The helper `scalar_abs<ScalarType>`: `return std::abs(a);`. The absolute
value is taken on the promoted operand and converted to the lane type (for an
`int` lane at its minimum, where the library leaves `std::abs` without a
value, the result is taken to wrap, as the negation does on the targets of the
library). -/
def scalar_abs (T : ScalarType) (a : Int) : Int := T.convert (if a < 0 then -a else a)

namespace portable

/-- Portable `abs(int8x16)`, `abs(int16x8)`, `abs(int32x4)`:
`scalar_unroll(scalar_abs, a)` on `Size` lanes of type `T`. -/
def abs (T : ScalarType) {Size : Nat} (a : scalar_type Int Size) : scalar_type Int Size :=
  scalar_unroll_unary (scalar_abs T) a

end portable

/-- The intrinsic `_mm_sub_epi8`: wrapping subtraction of 8-bit lanes. -/
def _mm_sub_epi8 (a b : Nat) : Nat :=
  lanewise 8 16 fun j => toUnsigned 8 ((lane 8 j a : Int) - lane 8 j b)

/-- The intrinsic `_mm_sub_epi16`: wrapping subtraction of 16-bit lanes. -/
def _mm_sub_epi16 (a b : Nat) : Nat :=
  lanewise 16 8 fun j => toUnsigned 16 ((lane 16 j a : Int) - lane 16 j b)

/-- The intrinsic `_mm_srai_epi16`: arithmetic right shift of 16-bit lanes by
`imm8`, shifting in sign bits (a count above 15 fills the lane with the sign). -/
def _mm_srai_epi16 (a : Nat) (imm8 : Nat) : Nat :=
  lanewise 16 8 fun j => toUnsigned 16 (toSigned 16 (lane 16 j a) / 2 ^ imm8)

/-- The SSSE3 intrinsic `_mm_abs_epi8`: absolute value of the signed 8-bit
lanes, stored as an unsigned 8-bit pattern. -/
def _mm_abs_epi8 (a : Nat) : Nat :=
  lanewise 8 16 fun j =>
    toUnsigned 8 (if toSigned 8 (lane 8 j a) < 0 then -toSigned 8 (lane 8 j a)
      else toSigned 8 (lane 8 j a))

/-- The SSSE3 intrinsic `_mm_abs_epi16`: absolute value of the signed 16-bit
lanes, stored as an unsigned 16-bit pattern. -/
def _mm_abs_epi16 (a : Nat) : Nat :=
  lanewise 16 8 fun j =>
    toUnsigned 16 (if toSigned 16 (lane 16 j a) < 0 then -toSigned 16 (lane 16 j a)
      else toSigned 16 (lane 16 j a))

/-- The SSSE3 intrinsic `_mm_abs_epi32`: absolute value of the signed 32-bit
lanes, stored as an unsigned 32-bit pattern. -/
def _mm_abs_epi32 (a : Nat) : Nat :=
  lanewise 32 4 fun j =>
    toUnsigned 32 (if toSigned 32 (lane 32 j a) < 0 then -toSigned 32 (lane 32 j a)
      else toSigned 32 (lane 32 j a))

namespace sse

/-- SSE2 `abs(int8x16 a)` when `MANGO_ENABLE_SSSE3` is not defined. -/
def abs_int8x16 (a : Nat) : Nat :=
  let zero := _mm_setzero_si128
  let mask := _mm_cmpgt_epi8 zero a
  _mm_select_si128 mask (_mm_sub_epi8 zero a) a

/-- SSE2 `abs(int16x8 a)` when `MANGO_ENABLE_SSSE3` is not defined. -/
def abs_int16x8 (a : Nat) : Nat :=
  let mask := _mm_srai_epi16 a 15
  _mm_sub_epi16 (_mm_xor_si128 a mask) mask

/-- SSE2 `abs(int32x4 a)` when `MANGO_ENABLE_SSSE3` is not defined. -/
def abs_int32x4 (a : Nat) : Nat :=
  let mask := _mm_srai_epi32 a 31
  _mm_sub_epi32 (_mm_xor_si128 a mask) mask

/-- The `abs(int8x16 a)` of the backend when `MANGO_ENABLE_SSSE3` is defined. -/
def abs_int8x16_ssse3 (a : Nat) : Nat := _mm_abs_epi8 a

/-- The `abs(int16x8 a)` of the backend when `MANGO_ENABLE_SSSE3` is defined. -/
def abs_int16x8_ssse3 (a : Nat) : Nat := _mm_abs_epi16 a

/-- The `abs(int32x4 a)` of the backend when `MANGO_ENABLE_SSSE3` is defined. -/
def abs_int32x4_ssse3 (a : Nat) : Nat := _mm_abs_epi32 a

end sse

/-- The right shift `a >> n` of the language with an `int32` left operand and a
count below 32, as the targets of the library compute it: the two's complement
pattern of `a` moves right by `n` bits and the `n` vacated top bits are filled
with copies of the sign bit. -/
def int32_shr (a : Int) (n : Nat) : Int :=
  let u := toUnsigned 32 a
  toSigned 32 ((u >>> n) ||| (if u.testBit 31 then 2 ^ 32 - 2 ^ (32 - n) else 0))

namespace portable

/-- Portable `srl<Count>(uint32x4 a)`: `v[i] = a[i] >> Count` on the `uint32`
lanes, lane by lane. -/
def srl_uint32x4 (Count : Nat) (a : scalar_type Int 4) : scalar_type Int 4 :=
  let v : scalar_type Int 4 := fun _ => default
  let v := setLane v 0 (uint32.ofBits (toUnsigned 32 (a 0) >>> Count))
  let v := setLane v 1 (uint32.ofBits (toUnsigned 32 (a 1) >>> Count))
  let v := setLane v 2 (uint32.ofBits (toUnsigned 32 (a 2) >>> Count))
  let v := setLane v 3 (uint32.ofBits (toUnsigned 32 (a 3) >>> Count))
  v

/-- Portable `sra<Count>(uint32x4 a)`:
`v[i] = static_cast<int32>(a[i]) >> Count`, the `int32` result converted to
the `uint32` lane. -/
def sra_uint32x4 (Count : Nat) (a : scalar_type Int 4) : scalar_type Int 4 :=
  let v : scalar_type Int 4 := fun _ => default
  let v := setLane v 0 (uint32.convert (int32_shr (int32.convert (a 0)) Count))
  let v := setLane v 1 (uint32.convert (int32_shr (int32.convert (a 1)) Count))
  let v := setLane v 2 (uint32.convert (int32_shr (int32.convert (a 2)) Count))
  let v := setLane v 3 (uint32.convert (int32_shr (int32.convert (a 3)) Count))
  v

/-- Portable `sra<Count>(int32x4 a)`: `v[i] = a[i] >> Count` on the `int32`
lanes, lane by lane. -/
def sra_int32x4 (Count : Nat) (a : scalar_type Int 4) : scalar_type Int 4 :=
  let v : scalar_type Int 4 := fun _ => default
  let v := setLane v 0 (int32_shr (a 0) Count)
  let v := setLane v 1 (int32_shr (a 1) Count)
  let v := setLane v 2 (int32_shr (a 2) Count)
  let v := setLane v 3 (int32_shr (a 3) Count)
  v

end portable

/-- The intrinsic `_mm_srli_epi32`: logical right shift of 32-bit lanes by
`imm8`, shifting in zeros (a count above 31 clears the lane). -/
def _mm_srli_epi32 (a : Nat) (imm8 : Nat) : Nat :=
  lanewise 32 4 fun j => lane 32 j a >>> imm8

namespace sse

/-- SSE2 `srl<Count>(uint32x4 a)`: `_mm_srli_epi32(a, Count)`. -/
def srl_uint32x4 (Count : Nat) (a : Nat) : Nat := _mm_srli_epi32 a Count

/-- SSE2 `sra<Count>(uint32x4 a)`: `_mm_srai_epi32(a, Count)`. -/
def sra_uint32x4 (Count : Nat) (a : Nat) : Nat := _mm_srai_epi32 a Count

/-- SSE2 `sra<Count>(int32x4 a)`: `_mm_srai_epi32(a, Count)`. -/
def sra_int32x4 (Count : Nat) (a : Nat) : Nat := _mm_srai_epi32 a Count

end sse

/-- A vector of `int32` lanes for the shift examples. -/
def sra_example : scalar_type Int 4 := ofList [-7, -1, 1024, -2147483648]

/-- The shift operations of the interface. -/
inductive ShiftOp where
  | sll
  | srl
  | sra
  deriving DecidableEq

/-- The 128-bit integer vector types of the interface. -/
inductive VectorType where
  | uint8x16
  | uint16x8
  | uint32x4
  | int8x16
  | int16x8
  | int32x4
  deriving DecidableEq

namespace portable

/-- The shift templates `scalar_int128.hpp` defines, in the order of the file,
each with the vector type of its operand. -/
def shift_catalogue : List (ShiftOp × VectorType) :=
  [(ShiftOp.sll, VectorType.uint32x4), (ShiftOp.srl, VectorType.uint32x4),
    (ShiftOp.sra, VectorType.uint32x4), (ShiftOp.sll, VectorType.int32x4),
    (ShiftOp.srl, VectorType.int32x4), (ShiftOp.sra, VectorType.int32x4)]

end portable

namespace sse

/-- The shift templates `sse_int128.hpp` defines, in the order of the file,
each with the vector type of its operand. -/
def shift_catalogue : List (ShiftOp × VectorType) :=
  [(ShiftOp.sll, VectorType.uint32x4), (ShiftOp.srl, VectorType.uint32x4),
    (ShiftOp.sra, VectorType.uint32x4), (ShiftOp.sll, VectorType.int32x4),
    (ShiftOp.srl, VectorType.int32x4), (ShiftOp.sra, VectorType.int32x4)]

end sse

/-- A vector of `uint32` lanes for the shift examples, lane 0 with the top bit
set. -/
def srl_example : scalar_type Int 4 := ofList [2147483648, 4294967295, 1024, 7]

/-! ## The branches of the signed saturating helpers -/

/-- The bound `x = (x >> (sizeof(ScalarType) * 8 - 1)) + max` that
`scalar_signed_adds` and `scalar_signed_subs` derive from `a`, read as a value
of the signed type. -/
def scalar_signed_bound (w : Nat) (a : Int) : Int :=
  let x := toUnsigned w a
  let x := toUnsigned w (((x >>> (w - 1) : Nat) : Int) + signedMax w)
  toSigned w x

/-- The wrapped sum `v = x + y` of `scalar_signed_adds`, read as a value of the
signed type. -/
def scalar_signed_adds_wrapped (w : Nat) (a b : Int) : Int :=
  let x := toUnsigned w a
  let y := toUnsigned w b
  let v := toUnsigned w ((x : Int) + y)
  toSigned w v

/-- The test of the `if` of `scalar_signed_adds`,
`ScalarType((x ^ y) | ~(y ^ v)) >= 0` with `x` already holding the bound: when
it holds the bound replaces the sum. -/
def scalar_signed_adds_saturates (w : Nat) (a b : Int) : Bool :=
  let x := toUnsigned w a
  let y := toUnsigned w b
  let v := toUnsigned w ((x : Int) + y)
  let x := toUnsigned w (((x >>> (w - 1) : Nat) : Int) + signedMax w)
  decide (toSigned w ((x ^^^ y) ||| bitNot (y ^^^ v)) ≥ 0)

/-- The wrapped difference `v = x - y` of `scalar_signed_subs`, read as a value
of the signed type. -/
def scalar_signed_subs_wrapped (w : Nat) (a b : Int) : Int :=
  let x := toUnsigned w a
  let y := toUnsigned w b
  let v := toUnsigned w ((x : Int) - y)
  toSigned w v

/-- The test of the `if` of `scalar_signed_subs`,
`ScalarType((x ^ y) & (x ^ v)) < 0` with `x` already holding the bound: when it
holds the bound replaces the difference. -/
def scalar_signed_subs_saturates (w : Nat) (a b : Int) : Bool :=
  let x := toUnsigned w a
  let y := toUnsigned w b
  let v := toUnsigned w ((x : Int) - y)
  let x := toUnsigned w (((x >>> (w - 1) : Nat) : Int) + signedMax w)
  decide (toSigned w ((x ^^^ y) &&& (x ^^^ v)) < 0)

/-! ## Indexed access -/

namespace portable

/-- Portable `set_component<Index>(a, s)` on `uint32x4` and on `int32x4`:
`a[Index] = s; return a;`. The `static_assert` on the index is its type. -/
def set_component (Index : Fin 4) (a : scalar_type Int 4) (s : Int) : scalar_type Int 4 :=
  setLane a Index.val s

/-- Portable `get_component<Index>(a)` on `uint32x4` and on `int32x4`:
`return a[Index];`. -/
def get_component (Index : Fin 4) (a : scalar_type Int 4) : Int := a Index

end portable

/-- The intrinsic `_mm_unpackhi_epi32`: interleave of the two high 32-bit lanes
of `a` and `b`. -/
def _mm_unpackhi_epi32 (a b : Nat) : Nat :=
  ofLanes 32 [lane 32 2 a, lane 32 2 b, lane 32 3 a, lane 32 3 b]

/-- The intrinsic `_mm_castps_si128`: the same 128 bits. -/
def _mm_castps_si128 (a : Nat) : Nat := a

/-- The intrinsic `_mm_shuffle_ps`: lanes 0 and 1 of the result are the lanes of
`a` selected by bits `[0, 2)` and `[2, 4)` of the control byte, lanes 2 and 3 the
lanes of `b` selected by bits `[4, 6)` and `[6, 8)`. -/
def _mm_shuffle_ps (a b : Nat) (imm8 : Nat) : Nat :=
  ofLanes 32 [lane 32 (lane 2 0 imm8) a, lane 32 (lane 2 1 imm8) a,
    lane 32 (lane 2 2 imm8) b, lane 32 (lane 2 3 imm8) b]

namespace sse

/-- The macro `simd_shuffle_epi(a, b, mask)` of the backend:
`_mm_castps_si128(_mm_shuffle_ps(_mm_castsi128_ps(a), _mm_castsi128_ps(b), mask))`. -/
def simd_shuffle_epi (a b : Nat) (mask : Nat) : Nat :=
  _mm_castps_si128 (_mm_shuffle_ps (_mm_castsi128_ps a) (_mm_castsi128_ps b) mask)

/-- The specialization `set_component<0>(a, x)` when `MANGO_ENABLE_SSE4_1` is
not defined. -/
def set_component_0 (a : Nat) (x : Nat) : Nat :=
  let b := _mm_unpacklo_epi32 (_mm_set1_epi32 x) a
  simd_shuffle_epi b a (_MM_SHUFFLE 3 2 3 0)

/-- The specialization `set_component<1>(a, y)` when `MANGO_ENABLE_SSE4_1` is
not defined. -/
def set_component_1 (a : Nat) (y : Nat) : Nat :=
  let b := _mm_unpacklo_epi32 (_mm_set1_epi32 y) a
  simd_shuffle_epi b a (_MM_SHUFFLE 3 2 0 1)

/-- The specialization `set_component<2>(a, z)` when `MANGO_ENABLE_SSE4_1` is
not defined. -/
def set_component_2 (a : Nat) (z : Nat) : Nat :=
  let b := _mm_unpackhi_epi32 (_mm_set1_epi32 z) a
  simd_shuffle_epi a b (_MM_SHUFFLE 3 0 1 0)

/-- The specialization `set_component<3>(a, w)` when `MANGO_ENABLE_SSE4_1` is
not defined. -/
def set_component_3 (a : Nat) (w : Nat) : Nat :=
  let b := _mm_unpackhi_epi32 (_mm_set1_epi32 w) a
  simd_shuffle_epi a b (_MM_SHUFFLE 0 1 1 0)

/-- SSE2 `set_component<Index>(a, s)` on `uint32x4` and on `int32x4` as the
compiler resolves it: one of the four specializations. -/
def set_component (Index : Fin 4) (a : Nat) (s : Nat) : Nat :=
  if Index.val = 0 then set_component_0 a s
  else if Index.val = 1 then set_component_1 a s
  else if Index.val = 2 then set_component_2 a s
  else set_component_3 a s

/-- SSE2 `get_component<Index>(a)` on `uint32x4` and on `int32x4` when
`MANGO_ENABLE_SSE4_1` is not defined, one of the four specializations:
`_mm_cvtsi128_si32(a)` for index 0 and
`_mm_cvtsi128_si32(_mm_shuffle_epi32(a, 0x55))`, with `0xaa` and `0xff`, for
the others. The result is the bit pattern of the scalar. -/
def get_component (Index : Fin 4) (a : Nat) : Nat :=
  if Index.val = 0 then _mm_cvtsi128_si32 a
  else if Index.val = 1 then _mm_cvtsi128_si32 (_mm_shuffle_epi32 a 0x55)
  else if Index.val = 2 then _mm_cvtsi128_si32 (_mm_shuffle_epi32 a 0xaa)
  else _mm_cvtsi128_si32 (_mm_shuffle_epi32 a 0xff)

end sse

/-- A vector of `int32` lanes for the indexed access example. -/
def component_example : scalar_type Int 4 := ofList [10, -20, 30, -40]

/-! ## Shifts of `int32x4`, neg -/

namespace portable

/-- Portable `sll<Count>(int32x4 a)`: `v[i] = static_cast<uint32>(a[i]) << Count`,
the `uint32` result converted to the `int32` lane. -/
def sll_int32x4 (Count : Nat) (a : scalar_type Int 4) : scalar_type Int 4 :=
  let v : scalar_type Int 4 := fun _ => default
  let v := setLane v 0 (int32.ofBits ((toUnsigned 32 (a 0) <<< Count) % 2 ^ 32))
  let v := setLane v 1 (int32.ofBits ((toUnsigned 32 (a 1) <<< Count) % 2 ^ 32))
  let v := setLane v 2 (int32.ofBits ((toUnsigned 32 (a 2) <<< Count) % 2 ^ 32))
  let v := setLane v 3 (int32.ofBits ((toUnsigned 32 (a 3) <<< Count) % 2 ^ 32))
  v

/-- Portable `srl<Count>(int32x4 a)`: `v[i] = static_cast<uint32>(a[i]) >> Count`,
the `uint32` result converted to the `int32` lane. -/
def srl_int32x4 (Count : Nat) (a : scalar_type Int 4) : scalar_type Int 4 :=
  let v : scalar_type Int 4 := fun _ => default
  let v := setLane v 0 (int32.ofBits (toUnsigned 32 (a 0) >>> Count))
  let v := setLane v 1 (int32.ofBits (toUnsigned 32 (a 1) >>> Count))
  let v := setLane v 2 (int32.ofBits (toUnsigned 32 (a 2) >>> Count))
  let v := setLane v 3 (int32.ofBits (toUnsigned 32 (a 3) >>> Count))
  v

end portable

/-- The intrinsic `_mm_slli_epi32`: left shift of 32-bit lanes by `imm8`,
shifting in zeros (a count above 31 clears the lane). -/
def _mm_slli_epi32 (a : Nat) (imm8 : Nat) : Nat :=
  lanewise 32 4 fun j => lane 32 j a <<< imm8

namespace sse

/-- SSE2 `sll<Count>(int32x4 a)`: `_mm_slli_epi32(a, Count)`. -/
def sll_int32x4 (Count : Nat) (a : Nat) : Nat := _mm_slli_epi32 a Count

/-- SSE2 `srl<Count>(int32x4 a)`: `_mm_srli_epi32(a, Count)`. -/
def srl_int32x4 (Count : Nat) (a : Nat) : Nat := _mm_srli_epi32 a Count

end sse

/-- The helper `scalar_neg<ScalarType>`: `return -a;`, the negation taken on
the promoted operand and converted to the lane type (for an `int` lane at its
minimum the result is taken to wrap, as it does on the targets of the
library). -/
def scalar_neg (T : ScalarType) (a : Int) : Int := T.convert (-a)

namespace portable

/-- Portable `neg(int8x16)`, `neg(int16x8)`, `neg(int32x4)`:
`scalar_unroll(scalar_neg, a)` on `Size` lanes of type `T`. -/
def neg (T : ScalarType) {Size : Nat} (a : scalar_type Int Size) : scalar_type Int Size :=
  scalar_unroll_unary (scalar_neg T) a

end portable

namespace sse

/-- SSE2 `neg(int8x16 a)`: `_mm_sub_epi8(_mm_setzero_si128(), a)`. -/
def neg_int8x16 (a : Nat) : Nat := _mm_sub_epi8 _mm_setzero_si128 a

/-- SSE2 `neg(int16x8 a)`: `_mm_sub_epi16(_mm_setzero_si128(), a)`. -/
def neg_int16x8 (a : Nat) : Nat := _mm_sub_epi16 _mm_setzero_si128 a

end sse

/-- A vector of `int8` lanes holding the extreme and small values. -/
def abs_example : scalar_type Int 16 := ofList [-128, -127, -1, 0, 1, 127]

/-! ## Narrowing of 32-bit lanes -/

/-- The SSE4.1 intrinsic `_mm_packus_epi32`: the signed 32-bit lanes of `a`,
then those of `b`, each converted to 16 bits with unsigned saturation. -/
def _mm_packus_epi32 (a b : Nat) : Nat :=
  lanewise 16 8 fun j =>
    if j < 4 then toUnsigned 16 (clamp (toSigned 32 (lane 32 j a)) 0 65535)
    else toUnsigned 16 (clamp (toSigned 32 (lane 32 (j - 4) b)) 0 65535)

namespace sse

/-- The helper `simd_packus_epi32(a, b)` of the backend: both operands are
shifted left and arithmetically right by 16, then packed with
`_mm_packs_epi32`. -/
def simd_packus_epi32 (a b : Nat) : Nat :=
  let a := _mm_slli_epi32 a 16
  let a := _mm_srai_epi32 a 16
  let b := _mm_slli_epi32 b 16
  let b := _mm_srai_epi32 b 16
  _mm_packs_epi32 a b

end sse

/-! # Theorems -/

/-! ## Facts about the scalar conversions -/

theorem toUnsigned_lt (w : Nat) (z : Int) : toUnsigned w z < 2 ^ w := by
  unfold toUnsigned
  have h : (0 : Int) < 2 ^ w := by positivity
  have h1 := Int.emod_lt_of_pos z h
  have h2 := Int.emod_nonneg z (ne_of_gt h)
  zify
  rw [Int.toNat_of_nonneg h2]
  exact_mod_cast h1

theorem toUnsigned_cast (w : Nat) (z : Int) : ((toUnsigned w z : Nat) : Int) = z % 2 ^ w := by
  unfold toUnsigned
  exact Int.toNat_of_nonneg (Int.emod_nonneg z (by positivity))

theorem toUnsigned_natCast (w n : Nat) : toUnsigned w (n : Int) = n % 2 ^ w := by
  zify
  rw [toUnsigned_cast]

theorem emod_range (z M : Int) (h1 : -M ≤ z) (h2 : z < 2 * M) :
    z % M = if z < 0 then z + M else if z < M then z else z - M := by
  split_ifs with ha hb
  · rw [← Int.add_emod_self, Int.emod_eq_of_lt (by omega) (by omega)]
  · exact Int.emod_eq_of_lt (by omega) hb
  · have h : z = (z - M) + M := by ring
    rw [h, Int.add_emod_self, Int.emod_eq_of_lt (by omega) (by omega)]
    ring

theorem pow_pred_double {w : Nat} (hw : 0 < w) : 2 ^ w = 2 * 2 ^ (w - 1) := by
  obtain ⟨k, rfl⟩ : ∃ k, w = k + 1 := ⟨w - 1, by omega⟩
  rw [Nat.add_sub_cancel, pow_succ, Nat.mul_comm]

theorem toUnsigned_of_signed {w : Nat} (hw : 0 < w) (a : Int)
    (ha : signedMin w ≤ a ∧ a ≤ signedMax w) :
    ((toUnsigned w a : Nat) : Int) = if a < 0 then a + 2 ^ w else a := by
  have hp : (2 : Int) ^ w = 2 * 2 ^ (w - 1) := by exact_mod_cast pow_pred_double hw
  have hH : (0 : Int) < 2 ^ (w - 1) := by positivity
  unfold signedMin signedMax at ha
  rw [toUnsigned_cast, emod_range a _ (by omega) (by omega)]
  split_ifs <;> omega

theorem toUnsigned_add {w : Nat} (x y : Nat) (hx : x < 2 ^ w) (hy : y < 2 ^ w) :
    toUnsigned w ((x : Int) + y) = if x + y < 2 ^ w then x + y else x + y - 2 ^ w := by
  have hM : (0 : Int) < 2 ^ w := by positivity
  have hxi : (x : Int) < 2 ^ w := by exact_mod_cast hx
  have hyi : (y : Int) < 2 ^ w := by exact_mod_cast hy
  have h := toUnsigned_cast w ((x : Int) + y)
  rw [emod_range _ _ (by omega) (by omega)] at h
  have hc : ((2 ^ w : Nat) : Int) = 2 ^ w := by push_cast; rfl
  split_ifs at h ⊢ <;> omega

theorem toUnsigned_sub {w : Nat} (x y : Nat) (hx : x < 2 ^ w) (hy : y < 2 ^ w) :
    toUnsigned w ((x : Int) - y) = if y ≤ x then x - y else x + 2 ^ w - y := by
  have hM : (0 : Int) < 2 ^ w := by positivity
  have hxi : (x : Int) < 2 ^ w := by exact_mod_cast hx
  have hyi : (y : Int) < 2 ^ w := by exact_mod_cast hy
  have h := toUnsigned_cast w ((x : Int) - y)
  rw [emod_range _ _ (by omega) (by omega)] at h
  have hc : ((2 ^ w : Nat) : Int) = 2 ^ w := by push_cast; rfl
  split_ifs at h ⊢ <;> omega

theorem toUnsigned_bound {w : Nat} (hw : 0 < w) (x : Nat) (hx : x < 2 ^ w) :
    toUnsigned w (((x >>> (w - 1) : Nat) : Int) + signedMax w)
      = if x < 2 ^ (w - 1) then 2 ^ (w - 1) - 1 else 2 ^ (w - 1) := by
  have hp := pow_pred_double hw
  have hH : 0 < 2 ^ (w - 1) := Nat.pos_pow_of_pos _ (by decide)
  have hpi : (2 : Int) ^ w = 2 * 2 ^ (w - 1) := by exact_mod_cast hp
  have hc : ((2 ^ (w - 1) : Nat) : Int) = 2 ^ (w - 1) := by push_cast; rfl
  have h := toUnsigned_cast w (((x >>> (w - 1) : Nat) : Int) + signedMax w)
  rw [Nat.shiftRight_eq_div_pow] at h ⊢
  unfold signedMax at h ⊢
  by_cases hlt : x < 2 ^ (w - 1)
  · rw [Nat.div_eq_of_lt hlt] at h ⊢
    rw [emod_range _ _ (by omega) (by omega)] at h
    rw [if_pos hlt]
    split_ifs at h <;> omega
  · have hq : x / 2 ^ (w - 1) = 1 :=
      Nat.div_eq_of_lt_le (by omega) (by omega)
    rw [hq] at h ⊢
    rw [emod_range _ _ (by omega) (by omega)] at h
    rw [if_neg hlt]
    split_ifs at h <;> omega

theorem toSigned_of_lt {w : Nat} (u : Nat) (hu : u < 2 ^ w) :
    toSigned w u = if u < 2 ^ (w - 1) then (u : Int) else (u : Int) - 2 ^ w := by
  unfold toSigned
  rw [Nat.mod_eq_of_lt hu]
theorem testBit_msb {w x : Nat} (hw : 0 < w) (hx : x < 2 ^ w) :
    x.testBit (w - 1) = decide (2 ^ (w - 1) ≤ x) := by
  obtain ⟨k, rfl⟩ : ∃ k, w = k + 1 := ⟨w - 1, by omega⟩
  simp only [Nat.add_sub_cancel, Nat.testBit_to_div_mod]
  have h2 : 0 < 2 ^ k := Nat.pos_pow_of_pos k (by decide)
  have h3 : x / 2 ^ k < 2 := by
    rw [Nat.div_lt_iff_lt_mul h2]; rw [pow_succ] at hx; omega
  by_cases h : 2 ^ k ≤ x
  · have h4 : 1 ≤ x / 2 ^ k := (Nat.le_div_iff_mul_le h2).2 (by simpa using h)
    have h5 : x / 2 ^ k % 2 = 1 := by omega
    simp [h, h5]
  · have h4 : x / 2 ^ k = 0 := Nat.div_eq_of_lt (by omega)
    simp [h, h4]

theorem toSigned_nonneg_iff {w : Nat} (hw : 0 < w) (u : Nat) :
    0 ≤ toSigned w u ↔ u.testBit (w - 1) = false := by
  have hlt : u % 2 ^ w < 2 ^ w := Nat.mod_lt _ (Nat.pos_pow_of_pos w (by decide))
  have hb := testBit_msb hw hlt
  rw [Nat.testBit_mod_two_pow] at hb
  have hk : decide (w - 1 < w) = true := by simp; omega
  rw [hk, Bool.true_and] at hb
  rw [hb]
  unfold toSigned
  have hc : ((u % 2 ^ w : Nat) : Int) < 2 ^ w := by exact_mod_cast hlt
  split_ifs with h
  · simp only [decide_eq_false_iff_not, not_le]
    exact ⟨fun _ => h, fun _ => by positivity⟩
  · simp only [decide_eq_false_iff_not, not_le]
    constructor
    · intro h0; omega
    · intro h0; exact absurd h0 h

theorem toSigned_neg_iff {w : Nat} (hw : 0 < w) (u : Nat) :
    toSigned w u < 0 ↔ u.testBit (w - 1) = true := by
  rw [← not_le, toSigned_nonneg_iff hw, Bool.not_eq_false]

theorem testBit_bitNot (z i : Nat) :
    (bitNot z).testBit i = (decide (i < 32) && !z.testBit i) := by
  unfold bitNot intBits
  have h : z % 2 ^ 32 < 2 ^ 32 := Nat.mod_lt _ (by norm_num)
  have h1 := Nat.testBit_two_pow_sub_succ h i
  rw [Nat.testBit_mod_two_pow] at h1
  rw [show 2 ^ 32 - 1 - z % 2 ^ 32 = 2 ^ 32 - (z % 2 ^ 32 + 1) by omega, h1]
  by_cases hi : i < 32 <;> simp [hi]

theorem or_negBool (v : Nat) (c : Bool) (hv : v < 2 ^ 32) :
    v ||| negBool c = if c then 2 ^ 32 - 1 else v := by
  cases c
  · simp [negBool]
  · simp only [negBool, intBits, if_true]
    apply Nat.eq_of_testBit_eq
    intro i
    rw [Nat.testBit_or, Nat.testBit_two_pow_sub_one]
    by_cases hi : i < 32
    · simp [hi]
    · have hle : 2 ^ 32 ≤ 2 ^ i := Nat.pow_le_pow_right (by decide) (by omega)
      simp [hi, Nat.testBit_lt_two_pow (lt_of_lt_of_le hv hle)]

theorem and_negBool (v : Nat) (c : Bool) (hv : v < 2 ^ 32) :
    v &&& negBool c = if c then v else 0 := by
  cases c
  · simp [negBool]
  · simp only [negBool, intBits, if_true]
    rw [Nat.and_pow_two_sub_one_eq_mod, Nat.mod_eq_of_lt hv]

theorem adds_cond_iff (p q r : Prop) [Decidable p] [Decidable q] [Decidable r] :
    (((decide p ^^ decide q) || !(decide q ^^ decide r)) = false) ↔ ((p ↔ q) ∧ ¬(q ↔ r)) := by
  by_cases hp : p <;> by_cases hq : q <;> by_cases hr : r <;> simp [hp, hq, hr]

theorem subs_cond_iff (p q r : Prop) [Decidable p] [Decidable q] [Decidable r] :
    (((decide p ^^ decide q) && (decide p ^^ decide r)) = true) ↔ (¬(p ↔ q) ∧ ¬(p ↔ r)) := by
  by_cases hp : p <;> by_cases hq : q <;> by_cases hr : r <;> simp [hp, hq, hr]


/-! ## The portable saturating helpers against the unbounded clamp -/

theorem scalar_signed_adds_eq (w : Nat) (a b : Int) (hw0 : 0 < w) (hw32 : w ≤ 32)
    (ha : signedMin w ≤ a ∧ a ≤ signedMax w) (hb : signedMin w ≤ b ∧ b ≤ signedMax w) :
    scalar_signed_adds w a b = clamp (a + b) (signedMin w) (signedMax w) := by
  have hk : w - 1 < 32 := by omega
  unfold scalar_signed_adds
  simp only [ge_iff_le, toSigned_nonneg_iff hw0, Nat.testBit_or, Nat.testBit_xor,
    testBit_bitNot, hk, decide_True, Bool.true_and, testBit_msb hw0 (toUnsigned_lt w _),
    adds_cond_iff]
  have hx := toUnsigned_of_signed hw0 a ha
  have hxl := toUnsigned_lt w a
  generalize toUnsigned w a = x at hx hxl ⊢
  have hy := toUnsigned_of_signed hw0 b hb
  have hyl := toUnsigned_lt w b
  generalize toUnsigned w b = y at hy hyl ⊢
  have hv := toUnsigned_add x y hxl hyl
  have hvl := toUnsigned_lt w (↑x + ↑y)
  generalize toUnsigned w (↑x + ↑y) = v at hv hvl ⊢
  have hs := toUnsigned_bound hw0 x hxl
  have hsl := toUnsigned_lt w (↑(x >>> (w - 1)) + signedMax w)
  generalize toUnsigned w (↑(x >>> (w - 1)) + signedMax w) = s at hs hsl ⊢
  rw [toSigned_of_lt s hsl, toSigned_of_lt v hvl]
  unfold clamp signedMin signedMax at *
  have hp := pow_pred_double hw0
  have hpi : (2 : Int) ^ w = ((2 ^ w : Nat) : Int) := by push_cast; rfl
  have hci : (2 : Int) ^ (w - 1) = ((2 ^ (w - 1) : Nat) : Int) := by push_cast; rfl
  generalize (2 : Nat) ^ w = M at *
  generalize (2 : Nat) ^ (w - 1) = H at *
  have hs1 : (x < H → s = H - 1) ∧ (¬x < H → s = H) := by
    constructor <;> intro h <;> simp only [h, if_true, if_false] at hs <;> exact hs
  have hv1 : (x + y < M → v = x + y) ∧ (¬x + y < M → v = x + y - M) := by
    constructor <;> intro h <;> simp only [h, if_true, if_false] at hv <;> exact hv
  clear hs hv
  by_cases h1 : a < 0 <;> by_cases h2 : b < 0 <;>
    simp only [h1, h2, if_true, if_false] at hx hy <;>
    split_ifs <;> omega

theorem scalar_signed_subs_eq (w : Nat) (a b : Int) (hw0 : 0 < w)
    (ha : signedMin w ≤ a ∧ a ≤ signedMax w) (hb : signedMin w ≤ b ∧ b ≤ signedMax w) :
    scalar_signed_subs w a b = clamp (a - b) (signedMin w) (signedMax w) := by
  unfold scalar_signed_subs
  simp only [toSigned_neg_iff hw0, Nat.testBit_and, Nat.testBit_xor,
    testBit_msb hw0 (toUnsigned_lt w _), subs_cond_iff]
  have hx := toUnsigned_of_signed hw0 a ha
  have hxl := toUnsigned_lt w a
  generalize toUnsigned w a = x at hx hxl ⊢
  have hy := toUnsigned_of_signed hw0 b hb
  have hyl := toUnsigned_lt w b
  generalize toUnsigned w b = y at hy hyl ⊢
  have hv := toUnsigned_sub x y hxl hyl
  have hvl := toUnsigned_lt w (↑x - ↑y)
  generalize toUnsigned w (↑x - ↑y) = v at hv hvl ⊢
  have hs := toUnsigned_bound hw0 x hxl
  have hsl := toUnsigned_lt w (↑(x >>> (w - 1)) + signedMax w)
  generalize toUnsigned w (↑(x >>> (w - 1)) + signedMax w) = s at hs hsl ⊢
  rw [toSigned_of_lt s hsl, toSigned_of_lt v hvl]
  unfold clamp signedMin signedMax at *
  have hp := pow_pred_double hw0
  have hpi : (2 : Int) ^ w = ((2 ^ w : Nat) : Int) := by push_cast; rfl
  have hci : (2 : Int) ^ (w - 1) = ((2 ^ (w - 1) : Nat) : Int) := by push_cast; rfl
  generalize (2 : Nat) ^ w = M at *
  generalize (2 : Nat) ^ (w - 1) = H at *
  have hs1 : (x < H → s = H - 1) ∧ (¬x < H → s = H) := by
    constructor <;> intro h <;> simp only [h, if_true, if_false] at hs <;> exact hs
  have hv1 : (y ≤ x → v = x - y) ∧ (¬y ≤ x → v = x + M - y) := by
    constructor <;> intro h <;> simp only [h, if_true, if_false] at hv <;> exact hv
  clear hs hv
  by_cases h1 : a < 0 <;> by_cases h2 : b < 0 <;>
    simp only [h1, h2, if_true, if_false] at hx hy <;>
    split_ifs <;> omega

theorem scalar_unsigned_adds_eq (w a b : Nat) (hw : w = 8 ∨ w = 16 ∨ w = 32)
    (ha : a < 2 ^ w) (hb : b < 2 ^ w) :
    scalar_unsigned_adds w a b =
      if (a + b) % 2 ^ w < a then unsignedMax w else (a + b) % 2 ^ w := by
  unfold scalar_unsigned_adds
  have hc : ((a : Int) + b) = ((a + b : Nat) : Int) := by push_cast; rfl
  have hv32 : (a + b) % 2 ^ w < 2 ^ 32 :=
    lt_of_lt_of_le (Nat.mod_lt _ (Nat.pos_pow_of_pos w (by decide)))
      (Nat.pow_le_pow_right (by decide) (by omega))
  simp only [hc, toUnsigned_natCast, or_negBool _ _ hv32, unsignedMax]
  rcases hw with rfl | rfl | rfl <;>
  · norm_num at *
    split_ifs <;> omega

theorem scalar_unsigned_subs_eq (w a b : Nat) (hw : w = 8 ∨ w = 16 ∨ w = 32)
    (ha : a < 2 ^ w) (hb : b < 2 ^ w) :
    scalar_unsigned_subs w a b = a - b := by
  unfold scalar_unsigned_subs
  have hv := toUnsigned_cast w (↑a - ↑b)
  have hlt := toUnsigned_lt w (↑a - ↑b)
  generalize toUnsigned w (↑a - ↑b) = v at hv hlt ⊢
  have hv32 : v < 2 ^ 32 := lt_of_lt_of_le hlt (Nat.pow_le_pow_right (by decide) (by omega))
  simp only [and_negBool _ _ hv32]
  rcases hw with rfl | rfl | rfl <;>
  · norm_num at *
    split_ifs <;> omega

/-! ## Loops over lanes -/

theorem foldl_update_apply {α : Type} {n : Nat} (g : Fin n → α) (l : List (Fin n))
    (init : Fin n → α) (j : Fin n) :
    (l.foldl (fun v i => Function.update v i (g i)) init) j = if j ∈ l then g j else init j := by
  induction l generalizing init with
  | nil => simp
  | cons k l ih =>
    simp only [List.foldl_cons, ih, List.mem_cons]
    by_cases h : j ∈ l
    · simp [h]
    · by_cases hk : j = k
      · subst hk; simp [h]
      · simp [h, hk, Function.update_noteq hk]

theorem scalar_unroll_apply {α : Type} [Inhabited α] {Size : Nat} (func : α → α → α)
    (a b : scalar_type α Size) (i : Fin Size) :
    scalar_unroll func a b i = func (a i) (b i) := by
  unfold scalar_unroll
  rw [foldl_update_apply (fun i => func (a i) (b i))]
  simp [List.mem_finRange]

/-! ## Lanes of a register -/

theorem lane_lt (w i v : Nat) : lane w i v < 2 ^ w :=
  Nat.mod_lt _ (Nat.pos_pow_of_pos w (by decide))

theorem lane_ofLanes (w : Nat) (l : List Nat) (i : Nat) :
    lane w i (ofLanes w l) = l.getD i 0 % 2 ^ w := by
  induction l generalizing i with
  | nil => simp [lane, ofLanes]
  | cons x xs ih =>
    have hp : 0 < 2 ^ w := Nat.pos_pow_of_pos w (by decide)
    cases i with
    | zero =>
      simp only [lane, ofLanes, Nat.mul_zero, pow_zero, Nat.div_one, List.getD_cons_zero]
      rw [Nat.add_mul_mod_self_left, Nat.mod_mod]
    | succ j =>
      have h := ih j
      simp only [lane, ofLanes, List.getD_cons_succ] at h ⊢
      rw [Nat.mul_succ, Nat.add_comm (w * j) w, pow_add, ← Nat.div_div_eq_div_mul,
        Nat.add_mul_div_left _ _ hp, Nat.div_eq_of_lt (Nat.mod_lt _ hp), Nat.zero_add]
      exact h

theorem lane_lanewise (w n : Nat) (f : Nat → Nat) (i : Nat) (h : i < n) :
    lane w i (lanewise w n f) = f i % 2 ^ w := by
  unfold lanewise
  rw [lane_ofLanes, List.getD_eq_getElem?_getD, List.getElem?_map, List.getElem?_range h]
  rfl

theorem testBit_lane (w i v k : Nat) :
    (lane w i v).testBit k = (decide (k < w) && v.testBit (w * i + k)) := by
  unfold lane
  rw [Nat.testBit_mod_two_pow, ← Nat.shiftRight_eq_div_pow, Nat.testBit_shiftRight]

theorem lane_or (w i a b : Nat) : lane w i (a ||| b) = lane w i a ||| lane w i b := by
  apply Nat.eq_of_testBit_eq
  intro k
  simp only [testBit_lane, Nat.testBit_or, Bool.and_or_distrib_left]

theorem lane8_of_lane16 (i v : Nat) :
    lane 8 i v = lane 16 (i / 2) v / 2 ^ (8 * (i % 2)) % 2 ^ 8 := by
  unfold lane
  have hi : 8 * i = 16 * (i / 2) + 8 * (i % 2) := by omega
  rw [hi, pow_add, ← Nat.div_div_eq_div_mul]
  generalize v / 2 ^ (16 * (i / 2)) = u
  rcases Nat.mod_two_eq_zero_or_one i with h | h
  · rw [h]; norm_num
  · rw [h]; norm_num; omega

theorem lane32_even (k v : Nat) : lane 32 (2 * k) v = lane 64 k v % 2 ^ 32 := by
  unfold lane
  rw [show 32 * (2 * k) = 64 * k by ring]
  generalize v / 2 ^ (64 * k) = u
  omega

theorem lane32_srli_si128_4 (k v : Nat) (hk : k < 3) :
    lane 32 k (_mm_srli_si128 v 4) = lane 32 (k + 1) v := by
  unfold lane _mm_srli_si128
  interval_cases k <;> norm_num [Nat.shiftRight_eq_div_pow] <;> omega

/-! ## Multiplication: signed and unsigned products agree in the low bits -/

theorem toSigned_emod (w : Nat) (u : Nat) : toSigned w u % 2 ^ w = (u : Int) % 2 ^ w := by
  unfold toSigned
  split_ifs
  · push_cast
    exact Int.emod_emod_of_dvd _ (dvd_refl _)
  · push_cast
    rw [Int.sub_emod, Int.emod_self, sub_zero, Int.emod_emod_of_dvd _ (dvd_refl _),
      Int.emod_emod_of_dvd _ (dvd_refl _)]

theorem toUnsigned_signed_mul (w x y : Nat) :
    toUnsigned w (toSigned w x * toSigned w y) = (x * y) % 2 ^ w := by
  zify
  rw [toUnsigned_cast, Int.mul_emod, toSigned_emod, toSigned_emod, ← Int.mul_emod]

theorem scalar_mullo_ofBits (T : ScalarType) (x y : Nat) :
    scalar_mullo T (T.ofBits x) (T.ofBits y) = T.ofBits ((x * y) % 2 ^ T.bits) := by
  unfold scalar_mullo ScalarType.convert
  congr 1
  unfold ScalarType.ofBits
  cases T.isSigned
  · simp only [Bool.false_eq_true, if_false]
    rw [← Nat.cast_mul, toUnsigned_natCast, ← Nat.mul_mod]
  · simp only [if_true]
    exact toUnsigned_signed_mul _ x y

/-! ## The multiply emulation sequences of the SSE2 backend -/

theorem lane8_simd_mullo_epi8 (a b i : Nat) (hi : i < 16) :
    lane 8 i (sse.simd_mullo_epi8 a b) = (lane 8 i a * lane 8 i b) % 2 ^ 8 := by
  have hj : i / 2 < 8 := by omega
  unfold sse.simd_mullo_epi8 _mm_or_si128
  simp only []
  rw [lane_or, lane8_of_lane16 i (_mm_slli_epi16 _ _), lane8_of_lane16 i (_mm_srli_epi16 _ _),
    lane8_of_lane16 i a, lane8_of_lane16 i b]
  simp only [_mm_slli_epi16, _mm_srli_epi16, _mm_mullo_epi16, lane_lanewise _ _ _ _ hj,
    toUnsigned_signed_mul, Nat.shiftLeft_eq, Nat.shiftRight_eq_div_pow]
  have hA : lane 16 (i / 2) a < 2 ^ 16 := lane_lt _ _ _
  have hB : lane 16 (i / 2) b < 2 ^ 16 := lane_lt _ _ _
  generalize lane 16 (i / 2) a = A at hA ⊢
  generalize lane 16 (i / 2) b = B at hB ⊢
  rcases Nat.mod_two_eq_zero_or_one i with h | h <;> rw [h]
  · norm_num
    generalize A * B = P
    omega
  · norm_num
    generalize A * B = P
    generalize A / 256 * (B / 256) = Q
    have h0 : P * 256 % 65536 / 256 % 65536 / 256 % 256 = 0 := by omega
    have h1 : Q * 256 % 65536 / 256 % 256 = Q % 256 := by omega
    rw [h0, h1, Nat.or_zero]

theorem lane32_mul_epu32 (a b k : Nat) (hk : k < 2) :
    lane 32 (2 * k) (_mm_mul_epu32 a b) = (lane 32 (2 * k) a * lane 32 (2 * k) b) % 2 ^ 32 := by
  rw [lane32_even, _mm_mul_epu32, lane_lanewise 64 2 _ k hk]
  generalize lane 32 (2 * k) a * lane 32 (2 * k) b = P
  omega

theorem lane32_simd_mullo_epi32 (a b i : Nat) (hi : i < 4) :
    lane 32 i (sse.simd_mullo_epi32 a b) = (lane 32 i a * lane 32 i b) % 2 ^ 32 := by
  unfold sse.simd_mullo_epi32 _mm_unpacklo_epi32
  simp only []
  rw [lane_ofLanes]
  have hs0 : lane 2 0 (_MM_SHUFFLE 0 0 2 0) = 0 := by decide
  have hs1 : lane 2 1 (_MM_SHUFFLE 0 0 2 0) = 2 := by decide
  have m0 : ∀ x y, lane 32 0 (_mm_mul_epu32 x y) = (lane 32 0 x * lane 32 0 y) % 2 ^ 32 :=
    fun x y => lane32_mul_epu32 x y 0 (by norm_num)
  have m2 : ∀ x y, lane 32 2 (_mm_mul_epu32 x y) = (lane 32 2 x * lane 32 2 y) % 2 ^ 32 :=
    fun x y => lane32_mul_epu32 x y 1 (by norm_num)
  have s0 : ∀ v, lane 32 0 (_mm_srli_si128 v 4) = lane 32 1 v :=
    fun v => lane32_srli_si128_4 0 v (by norm_num)
  have s2 : ∀ v, lane 32 2 (_mm_srli_si128 v 4) = lane 32 3 v :=
    fun v => lane32_srli_si128_4 2 v (by norm_num)
  interval_cases i <;>
  simp only [List.getD_cons_zero, List.getD_cons_succ, _mm_shuffle_epi32,
    lane_lanewise 32 4 _ 0 (by norm_num), lane_lanewise 32 4 _ 1 (by norm_num), hs0, hs1,
    m0, m2, s0, s2, Nat.mod_mod]

/-! ## Claims -/

/-- C1: portable signed saturating add. For a lane width `w` of 8, 16 or 32 bits
and vectors whose lane `i` holds signed `w`-bit values, `scalar_signed_adds` on
that pair of lanes equals the sum formed in unbounded integers and clamped to
`[MIN_w, MAX_w]`, and so does lane `i` of `scalar_unroll(scalar_signed_adds, a, b)`;
hence every lane of `adds` on `int8x16`, on `int16x8` and on `int32x4` is the
clamped unbounded sum of the operands' lanes. -/
theorem scalar_signed_adds_clamp (w : Nat) (hw : w = 8 ∨ w = 16 ∨ w = 32) (Size : Nat)
    (a b : scalar_type Int Size) (i : Fin Size)
    (ha : signedMin w ≤ a i ∧ a i ≤ signedMax w)
    (hb : signedMin w ≤ b i ∧ b i ≤ signedMax w)
    (a8 b8 : scalar_type Int 16) (i8 : Fin 16)
    (ha8 : signedMin 8 ≤ a8 i8 ∧ a8 i8 ≤ signedMax 8)
    (hb8 : signedMin 8 ≤ b8 i8 ∧ b8 i8 ≤ signedMax 8)
    (a16 b16 : scalar_type Int 8) (i16 : Fin 8)
    (ha16 : signedMin 16 ≤ a16 i16 ∧ a16 i16 ≤ signedMax 16)
    (hb16 : signedMin 16 ≤ b16 i16 ∧ b16 i16 ≤ signedMax 16)
    (a32 b32 : scalar_type Int 4) (i32 : Fin 4)
    (ha32 : signedMin 32 ≤ a32 i32 ∧ a32 i32 ≤ signedMax 32)
    (hb32 : signedMin 32 ≤ b32 i32 ∧ b32 i32 ≤ signedMax 32) :
    scalar_signed_adds w (a i) (b i) = clamp (a i + b i) (signedMin w) (signedMax w) ∧
    scalar_unroll (scalar_signed_adds w) a b i
      = clamp (a i + b i) (signedMin w) (signedMax w) ∧
    portable.adds_int8x16 a8 b8 i8
      = clamp (a8 i8 + b8 i8) (signedMin 8) (signedMax 8) ∧
    portable.adds_int16x8 a16 b16 i16
      = clamp (a16 i16 + b16 i16) (signedMin 16) (signedMax 16) ∧
    portable.adds_int32x4 a32 b32 i32
      = clamp (a32 i32 + b32 i32) (signedMin 32) (signedMax 32) := by
  have h := scalar_signed_adds_eq w (a i) (b i) (by omega) (by omega) ha hb
  have h8 := scalar_signed_adds_eq 8 (a8 i8) (b8 i8) (by decide) (by decide) ha8 hb8
  have h16 := scalar_signed_adds_eq 16 (a16 i16) (b16 i16) (by decide) (by decide) ha16 hb16
  have h32 := scalar_signed_adds_eq 32 (a32 i32) (b32 i32) (by decide) (by decide) ha32 hb32
  refine ⟨h, ?_, ?_, ?_, ?_⟩
  · rw [scalar_unroll_apply]
    exact h
  · unfold portable.adds_int8x16
    rw [scalar_unroll_apply]
    exact h8
  · unfold portable.adds_int16x8
    rw [scalar_unroll_apply]
    exact h16
  · unfold portable.adds_int32x4
    rw [scalar_unroll_apply]
    exact h32

/-- The scenario of the specification, `a = [127,-128,100,0,...]` and
`b = [1,-1,50,0,...]` on `int8x16`, with scenarios on `int16x8` and `int32x4`
that saturate in the same lanes: the hypotheses of C1 hold in lane 2 of each,
the conclusion is obtained there, and the first four lanes of `adds(a, b)` are
the upper bound, the lower bound, the upper bound and `0` at every width. -/
theorem scalar_signed_adds_clamp_witness :
    ((8 = 8 ∨ 8 = 16 ∨ 8 = 32) ∧
      (signedMin 8 ≤ adds_scenario_a 2 ∧ adds_scenario_a 2 ≤ signedMax 8) ∧
      (signedMin 8 ≤ adds_scenario_b 2 ∧ adds_scenario_b 2 ≤ signedMax 8) ∧
      (signedMin 16 ≤ adds_scenario_a16 2 ∧ adds_scenario_a16 2 ≤ signedMax 16) ∧
      (signedMin 16 ≤ adds_scenario_b16 2 ∧ adds_scenario_b16 2 ≤ signedMax 16) ∧
      (signedMin 32 ≤ adds_scenario_a32 2 ∧ adds_scenario_a32 2 ≤ signedMax 32) ∧
      (signedMin 32 ≤ adds_scenario_b32 2 ∧ adds_scenario_b32 2 ≤ signedMax 32)) ∧
    (scalar_signed_adds 8 (adds_scenario_a 2) (adds_scenario_b 2)
        = clamp (adds_scenario_a 2 + adds_scenario_b 2) (signedMin 8) (signedMax 8) ∧
      scalar_unroll (scalar_signed_adds 8) adds_scenario_a adds_scenario_b 2
        = clamp (adds_scenario_a 2 + adds_scenario_b 2) (signedMin 8) (signedMax 8) ∧
      portable.adds_int8x16 adds_scenario_a adds_scenario_b 2
        = clamp (adds_scenario_a 2 + adds_scenario_b 2) (signedMin 8) (signedMax 8) ∧
      portable.adds_int16x8 adds_scenario_a16 adds_scenario_b16 2
        = clamp (adds_scenario_a16 2 + adds_scenario_b16 2) (signedMin 16) (signedMax 16) ∧
      portable.adds_int32x4 adds_scenario_a32 adds_scenario_b32 2
        = clamp (adds_scenario_a32 2 + adds_scenario_b32 2) (signedMin 32) (signedMax 32)) ∧
    (portable.adds_int8x16 adds_scenario_a adds_scenario_b 0 = 127 ∧
      portable.adds_int8x16 adds_scenario_a adds_scenario_b 1 = -128 ∧
      portable.adds_int8x16 adds_scenario_a adds_scenario_b 2 = 127 ∧
      portable.adds_int8x16 adds_scenario_a adds_scenario_b 3 = 0) ∧
    (portable.adds_int16x8 adds_scenario_a16 adds_scenario_b16 0 = 32767 ∧
      portable.adds_int16x8 adds_scenario_a16 adds_scenario_b16 1 = -32768 ∧
      portable.adds_int16x8 adds_scenario_a16 adds_scenario_b16 2 = 32767 ∧
      portable.adds_int16x8 adds_scenario_a16 adds_scenario_b16 3 = 0) ∧
    (portable.adds_int32x4 adds_scenario_a32 adds_scenario_b32 0 = 2147483647 ∧
      portable.adds_int32x4 adds_scenario_a32 adds_scenario_b32 1 = -2147483648 ∧
      portable.adds_int32x4 adds_scenario_a32 adds_scenario_b32 2 = 2147483647 ∧
      portable.adds_int32x4 adds_scenario_a32 adds_scenario_b32 3 = 0) :=
  ⟨⟨by decide, by decide, by decide, by decide, by decide, by decide, by decide⟩,
    scalar_signed_adds_clamp 8 (by decide) 16 adds_scenario_a adds_scenario_b 2
      (by decide) (by decide)
      adds_scenario_a adds_scenario_b 2 (by decide) (by decide)
      adds_scenario_a16 adds_scenario_b16 2 (by decide) (by decide)
      adds_scenario_a32 adds_scenario_b32 2 (by decide) (by decide),
    by decide, by decide, by decide⟩

/-- C2: portable signed saturating subtract. For a lane width `w` of 8, 16 or 32
bits and signed `w`-bit values `a`, `b`, `scalar_signed_subs(a, b)` equals the
difference formed in unbounded integers and clamped to `[MIN_w, MAX_w]`. -/
theorem scalar_signed_subs_clamp (w : Nat) (hw : w = 8 ∨ w = 16 ∨ w = 32) (a b : Int)
    (ha : signedMin w ≤ a ∧ a ≤ signedMax w) (hb : signedMin w ≤ b ∧ b ≤ signedMax w) :
    scalar_signed_subs w a b = clamp (a - b) (signedMin w) (signedMax w) :=
  scalar_signed_subs_eq w a b (by omega) ha hb

/-- The hypotheses of C2 hold for 16-bit `a = -32768`, `b = 1`, where the
difference saturates at the minimum. -/
theorem scalar_signed_subs_clamp_witness :
    ((16 = 8 ∨ 16 = 16 ∨ 16 = 32) ∧
      (signedMin 16 ≤ (-32768 : Int) ∧ (-32768 : Int) ≤ signedMax 16) ∧
      (signedMin 16 ≤ (1 : Int) ∧ (1 : Int) ≤ signedMax 16)) ∧
    scalar_signed_subs 16 (-32768) 1 = clamp (-32768 - 1) (signedMin 16) (signedMax 16) :=
  ⟨⟨by decide, by decide, by decide⟩,
    scalar_signed_subs_clamp 16 (by decide) (-32768) 1 (by decide) (by decide)⟩

/-- C3: portable unsigned saturating add. For a lane width `w` of 8, 16 or 32 bits
and unsigned `w`-bit values `a`, `b`, `scalar_unsigned_adds(a, b)` equals the
smaller of `a + b`, formed in unbounded integers, and `2^w - 1`; that is, it is
all ones when the wrapped sum is below `a`, and the sum otherwise. -/
theorem scalar_unsigned_adds_min (w : Nat) (hw : w = 8 ∨ w = 16 ∨ w = 32) (a b : Nat)
    (ha : a < 2 ^ w) (hb : b < 2 ^ w) :
    scalar_unsigned_adds w a b = min (a + b) (2 ^ w - 1) ∧
    scalar_unsigned_adds w a b
      = if toUnsigned w ((a : Int) + b) < a then unsignedMax w else a + b := by
  have hc : ((a : Int) + b) = ((a + b : Nat) : Int) := by push_cast; rfl
  rw [scalar_unsigned_adds_eq w a b hw ha hb, hc, toUnsigned_natCast, unsignedMax]
  rcases hw with rfl | rfl | rfl <;>
  · norm_num at *
    constructor <;> split_ifs <;> omega

/-- The hypotheses of C3 hold for 8-bit `a = 200`, `b = 100`, where the sum
saturates at 255. -/
theorem scalar_unsigned_adds_min_witness :
    ((8 = 8 ∨ 8 = 16 ∨ 8 = 32) ∧ 200 < 2 ^ 8 ∧ 100 < 2 ^ 8) ∧
    (scalar_unsigned_adds 8 200 100 = min (200 + 100) (2 ^ 8 - 1) ∧
      scalar_unsigned_adds 8 200 100
        = if toUnsigned 8 (((200 : Nat) : Int) + (100 : Nat)) < 200 then unsignedMax 8
          else 200 + 100) :=
  ⟨⟨by decide, by decide, by decide⟩,
    scalar_unsigned_adds_min 8 (by decide) 200 100 (by decide) (by decide)⟩

/-- C4: portable unsigned saturating subtract. For a lane width `w` of 8, 16 or 32
bits and unsigned `w`-bit values `a`, `b`, `scalar_unsigned_subs(a, b)` equals the
larger of `a - b`, formed in unbounded integers, and 0; in particular
`subs(a, 0) = a`, and `subs(a, b) = 0` whenever `b > a`. -/
theorem scalar_unsigned_subs_max (w : Nat) (hw : w = 8 ∨ w = 16 ∨ w = 32) (a b : Nat)
    (ha : a < 2 ^ w) (hb : b < 2 ^ w) :
    ((scalar_unsigned_subs w a b : Nat) : Int) = max ((a : Int) - b) 0 ∧
    scalar_unsigned_subs w a 0 = a ∧
    (a < b → scalar_unsigned_subs w a b = 0) := by
  have h0 : (0 : Nat) < 2 ^ w := Nat.pos_pow_of_pos w (by decide)
  rw [scalar_unsigned_subs_eq w a b hw ha hb, scalar_unsigned_subs_eq w a 0 hw ha h0]
  refine ⟨?_, by omega, by omega⟩
  rcases le_total b a with h | h
  · rw [Nat.cast_sub h, max_eq_left (by omega)]
  · rw [Nat.sub_eq_zero_of_le h, max_eq_right (by omega)]
    rfl

/-- The hypotheses of C4 hold for 32-bit `a = 5`, `b = 7`, where the difference
saturates at 0. -/
theorem scalar_unsigned_subs_max_witness :
    ((32 = 8 ∨ 32 = 16 ∨ 32 = 32) ∧ 5 < 2 ^ 32 ∧ 7 < 2 ^ 32) ∧
    (((scalar_unsigned_subs 32 5 7 : Nat) : Int) = max (((5 : Nat) : Int) - (7 : Nat)) 0 ∧
      scalar_unsigned_subs 32 5 0 = 5 ∧
      (5 < 7 → scalar_unsigned_subs 32 5 7 = 0)) :=
  ⟨⟨by decide, by decide, by decide⟩,
    scalar_unsigned_subs_max 32 (by decide) 5 7 (by decide) (by decide)⟩

/-- C5: the SSE2 `adds(int32x4, int32x4)` evaluated where lanes overflow. With
lanes `a = [2147483647, -2147483648, 0, 0]` and `b = [1, -1, 0, 0]` the unbounded
sums clamp to `2147483647` and `-2147483648`, which is what the portable `adds`
returns, while the SSE2 sequence returns `0` and `-1`: in an overflowing lane it
selects `a >> 31`, the sign mask of `a`, not the saturation bound. -/
theorem sse_adds_int32x4_overflow_lanes :
    lanesOf int32 4 (_mm_set_epi32 0 0 0x80000000 0x7FFFFFFF) 0 = 2147483647 ∧
    lanesOf int32 4 (_mm_set_epi32 0 0 0xFFFFFFFF 1) 0 = 1 ∧
    lanesOf int32 4 (_mm_set_epi32 0 0 0x80000000 0x7FFFFFFF) 1 = -2147483648 ∧
    lanesOf int32 4 (_mm_set_epi32 0 0 0xFFFFFFFF 1) 1 = -1 ∧
    clamp (2147483647 + 1) (signedMin 32) (signedMax 32) = 2147483647 ∧
    clamp (-2147483648 + -1) (signedMin 32) (signedMax 32) = -2147483648 ∧
    lanesOf int32 4 (sse.adds_int32x4 (_mm_set_epi32 0 0 0x80000000 0x7FFFFFFF)
      (_mm_set_epi32 0 0 0xFFFFFFFF 1)) 0 = 0 ∧
    lanesOf int32 4 (sse.adds_int32x4 (_mm_set_epi32 0 0 0x80000000 0x7FFFFFFF)
      (_mm_set_epi32 0 0 0xFFFFFFFF 1)) 1 = -1 ∧
    portable.adds_int32x4 (lanesOf int32 4 (_mm_set_epi32 0 0 0x80000000 0x7FFFFFFF))
      (lanesOf int32 4 (_mm_set_epi32 0 0 0xFFFFFFFF 1)) 0 = 2147483647 ∧
    portable.adds_int32x4 (lanesOf int32 4 (_mm_set_epi32 0 0 0x80000000 0x7FFFFFFF))
      (lanesOf int32 4 (_mm_set_epi32 0 0 0xFFFFFFFF 1)) 1 = -2147483648 := by
  decide

/-- C6: the SSE2 `subs(int32x4, int32x4)` evaluated where lanes overflow. With
lanes `a = [2147483647, -2147483648, 0, 0]` and `b = [-1, 1, 0, 0]` the unbounded
differences clamp to `2147483647` and `-2147483648`, which is what the portable
`subs` returns, while the SSE2 sequence returns `0` and `-1`: in an overflowing
lane it selects `a >> 31`, the sign mask of `a`, not the saturation bound. -/
theorem sse_subs_int32x4_overflow_lanes :
    lanesOf int32 4 (_mm_set_epi32 0 0 0x80000000 0x7FFFFFFF) 0 = 2147483647 ∧
    lanesOf int32 4 (_mm_set_epi32 0 0 1 0xFFFFFFFF) 0 = -1 ∧
    lanesOf int32 4 (_mm_set_epi32 0 0 0x80000000 0x7FFFFFFF) 1 = -2147483648 ∧
    lanesOf int32 4 (_mm_set_epi32 0 0 1 0xFFFFFFFF) 1 = 1 ∧
    clamp (2147483647 - -1) (signedMin 32) (signedMax 32) = 2147483647 ∧
    clamp (-2147483648 - 1) (signedMin 32) (signedMax 32) = -2147483648 ∧
    lanesOf int32 4 (sse.subs_int32x4 (_mm_set_epi32 0 0 0x80000000 0x7FFFFFFF)
      (_mm_set_epi32 0 0 1 0xFFFFFFFF)) 0 = 0 ∧
    lanesOf int32 4 (sse.subs_int32x4 (_mm_set_epi32 0 0 0x80000000 0x7FFFFFFF)
      (_mm_set_epi32 0 0 1 0xFFFFFFFF)) 1 = -1 ∧
    portable.subs_int32x4 (lanesOf int32 4 (_mm_set_epi32 0 0 0x80000000 0x7FFFFFFF))
      (lanesOf int32 4 (_mm_set_epi32 0 0 1 0xFFFFFFFF)) 0 = 2147483647 ∧
    portable.subs_int32x4 (lanesOf int32 4 (_mm_set_epi32 0 0 0x80000000 0x7FFFFFFF))
      (lanesOf int32 4 (_mm_set_epi32 0 0 1 0xFFFFFFFF)) 1 = -2147483648 := by
  decide

/-- C7: the SSE2 and the portable `adds(uint32x4, uint32x4)` evaluated on the
same operands, lanes `a = [0x7FFFFFFF, 0x80000000, 0, 0]` and
`b = [1, 0x80000000, 0, 0]`. The portable result has lanes `0x80000000` (no
wrap) and `0xFFFFFFFF` (saturated); the SSE2 result has `0xFFFFFFFF` and `0`,
because `_mm_cmplt_epi32` compares the lanes as signed numbers. -/
theorem sse_adds_uint32x4_differs :
    ulanesOf 32 4 (_mm_set_epi32 0 0 0x80000000 0x7FFFFFFF) 0 = 0x7FFFFFFF ∧
    ulanesOf 32 4 (_mm_set_epi32 0 0 0x80000000 1) 0 = 1 ∧
    ulanesOf 32 4 (_mm_set_epi32 0 0 0x80000000 0x7FFFFFFF) 1 = 0x80000000 ∧
    ulanesOf 32 4 (_mm_set_epi32 0 0 0x80000000 1) 1 = 0x80000000 ∧
    ulanesOf 32 4 (sse.adds_uint32x4 (_mm_set_epi32 0 0 0x80000000 0x7FFFFFFF)
      (_mm_set_epi32 0 0 0x80000000 1)) 0 = 0xFFFFFFFF ∧
    portable.adds_uint32x4 (ulanesOf 32 4 (_mm_set_epi32 0 0 0x80000000 0x7FFFFFFF))
      (ulanesOf 32 4 (_mm_set_epi32 0 0 0x80000000 1)) 0 = 0x80000000 ∧
    ulanesOf 32 4 (sse.adds_uint32x4 (_mm_set_epi32 0 0 0x80000000 0x7FFFFFFF)
      (_mm_set_epi32 0 0 0x80000000 1)) 1 = 0 ∧
    portable.adds_uint32x4 (ulanesOf 32 4 (_mm_set_epi32 0 0 0x80000000 0x7FFFFFFF))
      (ulanesOf 32 4 (_mm_set_epi32 0 0 0x80000000 1)) 1 = 0xFFFFFFFF := by
  decide

/-- C8: the SSE2 and the portable `subs(uint32x4, uint32x4)` evaluated on the
same operands, lanes `a = [5, 0x80000000, 0, 0]` and `b = [0, 1, 0, 0]`. The
portable result has lanes `5` and `0x7FFFFFFF`; the SSE2 result has `0` in both:
in lane 0 the difference equals `a` and the strict `_mm_cmpgt_epi32(a, diff)`
clears it, in lane 1 the comparison is made on signed numbers. -/
theorem sse_subs_uint32x4_differs :
    ulanesOf 32 4 (_mm_set_epi32 0 0 0x80000000 5) 0 = 5 ∧
    ulanesOf 32 4 (_mm_set_epi32 0 0 1 0) 0 = 0 ∧
    ulanesOf 32 4 (_mm_set_epi32 0 0 0x80000000 5) 1 = 0x80000000 ∧
    ulanesOf 32 4 (_mm_set_epi32 0 0 1 0) 1 = 1 ∧
    ulanesOf 32 4 (sse.subs_uint32x4 (_mm_set_epi32 0 0 0x80000000 5)
      (_mm_set_epi32 0 0 1 0)) 0 = 0 ∧
    portable.subs_uint32x4 (ulanesOf 32 4 (_mm_set_epi32 0 0 0x80000000 5))
      (ulanesOf 32 4 (_mm_set_epi32 0 0 1 0)) 0 = 5 ∧
    ulanesOf 32 4 (sse.subs_uint32x4 (_mm_set_epi32 0 0 0x80000000 5)
      (_mm_set_epi32 0 0 1 0)) 1 = 0 ∧
    portable.subs_uint32x4 (ulanesOf 32 4 (_mm_set_epi32 0 0 0x80000000 5))
      (ulanesOf 32 4 (_mm_set_epi32 0 0 1 0)) 1 = 0x7FFFFFFF := by
  decide

/-- C9: the 8-bit multiply emulation. For all registers `a`, `b` and every byte
lane `i`, lane `i` of `simd_mullo_epi8(a, b)` is `(a[i] * b[i]) mod 2^8`, so
nothing of a neighbouring byte enters a lane, and the SSE2 `mullo` on `uint8x16`
and on `int8x16` returns in that lane the value the portable `mullo`
(`scalar_mullo` per lane) returns on the same vectors. -/
theorem simd_mullo_epi8_lanes (a b : Nat) (i : Fin 16) :
    lane 8 i (sse.simd_mullo_epi8 a b) = (lane 8 i a * lane 8 i b) % 2 ^ 8 ∧
    lanesOf uint8 16 (sse.mullo_uint8x16 a b) i
      = portable.mullo_uint8x16 (lanesOf uint8 16 a) (lanesOf uint8 16 b) i ∧
    lanesOf int8 16 (sse.mullo_int8x16 a b) i
      = portable.mullo_int8x16 (lanesOf int8 16 a) (lanesOf int8 16 b) i := by
  have h := lane8_simd_mullo_epi8 a b i i.isLt
  refine ⟨h, ?_, ?_⟩
  · show uint8.ofBits (lane 8 i (sse.simd_mullo_epi8 a b)) = _
    rw [h, portable.mullo_uint8x16, scalar_unroll_apply]
    exact (scalar_mullo_ofBits uint8 _ _).symm
  · show int8.ofBits (lane 8 i (sse.simd_mullo_epi8 a b)) = _
    rw [h, portable.mullo_int8x16, scalar_unroll_apply]
    exact (scalar_mullo_ofBits int8 _ _).symm

/-- C10: the 32-bit multiply emulation. For all registers `a`, `b` and every
32-bit lane `i`, lane `i` of `simd_mullo_epi32(a, b)` is `(a[i] * b[i]) mod 2^32`,
in lane order, and the `mullo` of the SSE2 backend without SSE4.1 on `uint32x4`
and on `int32x4` returns in that lane the value the portable `mullo` returns on
the same vectors. -/
theorem simd_mullo_epi32_lanes (a b : Nat) (i : Fin 4) :
    lane 32 i (sse.simd_mullo_epi32 a b) = (lane 32 i a * lane 32 i b) % 2 ^ 32 ∧
    lanesOf uint32 4 (sse.mullo_uint32x4 a b) i
      = portable.mullo_uint32x4 (lanesOf uint32 4 a) (lanesOf uint32 4 b) i ∧
    lanesOf int32 4 (sse.mullo_int32x4 a b) i
      = portable.mullo_int32x4 (lanesOf int32 4 a) (lanesOf int32 4 b) i := by
  have h := lane32_simd_mullo_epi32 a b i i.isLt
  refine ⟨h, ?_, ?_⟩
  · show uint32.ofBits (lane 32 i (sse.simd_mullo_epi32 a b)) = _
    rw [h, portable.mullo_uint32x4, scalar_unroll_apply]
    exact (scalar_mullo_ofBits uint32 _ _).symm
  · show int32.ofBits (lane 32 i (sse.simd_mullo_epi32 a b)) = _
    rw [h, portable.mullo_int32x4, scalar_unroll_apply]
    exact (scalar_mullo_ofBits int32 _ _).symm

/-! ## Select and compare in the portable backend -/

theorem scalar_select_apply (T : ScalarType) {Size : Nat} (mask a b : scalar_type Int Size)
    (i : Fin Size) :
    scalar_select T mask a b i
      = T.ofBits ((promoteBits (mask i) &&& promoteBits (a i)) |||
          (bitNot (promoteBits (mask i)) &&& promoteBits (b i))) := by
  unfold scalar_select
  rw [foldl_update_apply (fun i => T.ofBits ((promoteBits (mask i) &&& promoteBits (a i)) |||
    (bitNot (promoteBits (mask i)) &&& promoteBits (b i))))]
  simp [List.mem_finRange]

theorem promoteBits_lt (z : Int) : promoteBits z < 2 ^ 32 := toUnsigned_lt 32 z

theorem ofBits_promoteBits (T : ScalarType) (hT : T.bits = 8 ∨ T.bits = 16 ∨ T.bits = 32)
    (z : Int) (hz : T.InRange z) : T.ofBits (promoteBits z) = z := by
  obtain ⟨w, s⟩ := T
  have h := toUnsigned_cast 32 z
  unfold promoteBits intBits
  generalize toUnsigned 32 z = p at h ⊢
  simp only at hT
  cases s <;> rcases hT with rfl | rfl | rfl <;>
    simp only [ScalarType.InRange, ScalarType.ofBits, toSigned, Bool.false_eq_true, if_false,
      if_true] at hz ⊢ <;>
    norm_num at hz h ⊢ <;> (try split_ifs) <;> omega

theorem promoteBits_of_nonneg (z : Int) (h0 : 0 ≤ z) (h1 : z < 2 ^ 32) :
    ((promoteBits z : Nat) : Int) = z := by
  unfold promoteBits intBits
  rw [toUnsigned_cast, Int.emod_eq_of_lt h0 h1]

theorem and_allOnes32 (p : Nat) (hp : p < 2 ^ 32) : (2 ^ 32 - 1) &&& p = p := by
  rw [Nat.and_comm, Nat.and_pow_two_sub_one_eq_mod, Nat.mod_eq_of_lt hp]

theorem bitNot_lowOnes_and (w p : Nat) (hp : p < 2 ^ w) :
    bitNot (2 ^ w - 1) &&& p = 0 := by
  apply Nat.eq_of_testBit_eq
  intro k
  rw [Nat.testBit_and, testBit_bitNot, Nat.testBit_two_pow_sub_one, Nat.zero_testBit]
  by_cases hk : k < w
  · simp [hk]
  · have hle : 2 ^ w ≤ 2 ^ k := Nat.pow_le_pow_right (by decide) (by omega)
    simp [Nat.testBit_lt_two_pow (lt_of_lt_of_le hp hle)]

theorem allOnes_cases (T : ScalarType) (hT : T.bits = 8 ∨ T.bits = 16 ∨ T.bits = 32) :
    T.allOnes ≠ 0 ∧ T.InRange T.allOnes ∧
    promoteBits T.allOnes = if T.isSigned then 2 ^ 32 - 1 else 2 ^ T.bits - 1 := by
  obtain ⟨w, s⟩ := T
  simp only at hT
  cases s <;> rcases hT with rfl | rfl | rfl <;> decide

theorem scalar_select_lane (T : ScalarType) (hT : T.bits = 8 ∨ T.bits = 16 ∨ T.bits = 32)
    {Size : Nat} (mask a b : scalar_type Int Size) (i : Fin Size)
    (hm : mask i = 0 ∨ mask i = T.allOnes) (ha : T.InRange (a i)) (hb : T.InRange (b i)) :
    scalar_select T mask a b i = if mask i ≠ 0 then a i else b i := by
  rw [scalar_select_apply]
  have hpa := promoteBits_lt (a i)
  have hpb := promoteBits_lt (b i)
  rcases hm with h0 | h1
  · have hz : promoteBits 0 = 0 := by decide
    have hn : bitNot 0 = 2 ^ 32 - 1 := by decide
    rw [h0, hz, hn, Nat.zero_and, Nat.zero_or, and_allOnes32 _ hpb,
      ofBits_promoteBits T hT _ hb]
    simp
  · obtain ⟨hne, -, hp⟩ := allOnes_cases T hT
    rw [h1, hp, if_pos hne]
    cases hs : T.isSigned
    · have hb0 : (0 : Int) ≤ b i ∧ b i < 2 ^ T.bits := by
        simpa [ScalarType.InRange, hs] using hb
      have ha0 : (0 : Int) ≤ a i ∧ a i < 2 ^ T.bits := by
        simpa [ScalarType.InRange, hs] using ha
      have hle : (2 : Int) ^ T.bits ≤ 2 ^ 32 :=
        pow_le_pow_right₀ (by norm_num) (by omega)
      have hbl : promoteBits (b i) < 2 ^ T.bits := by
        have := promoteBits_of_nonneg (b i) hb0.1 (lt_of_lt_of_le hb0.2 hle)
        zify; rw [this]; exact_mod_cast hb0.2
      have hal : promoteBits (a i) < 2 ^ T.bits := by
        have := promoteBits_of_nonneg (a i) ha0.1 (lt_of_lt_of_le ha0.2 hle)
        zify; rw [this]; exact_mod_cast ha0.2
      simp only [Bool.false_eq_true, if_false]
      rw [bitNot_lowOnes_and _ _ hbl, Nat.or_zero, Nat.and_comm,
        Nat.and_pow_two_sub_one_eq_mod, Nat.mod_eq_of_lt hal, ofBits_promoteBits T hT _ ha]
    · have hn : bitNot (2 ^ 32 - 1) = 0 := by decide
      simp only [if_true]
      rw [hn, Nat.zero_and, Nat.or_zero, and_allOnes32 _ hpa, ofBits_promoteBits T hT _ ha]

/-! ## Bitwise operations lane by lane -/

theorem lane_and (w i a b : Nat) : lane w i (a &&& b) = lane w i a &&& lane w i b := by
  apply Nat.eq_of_testBit_eq
  intro k
  simp only [testBit_lane, Nat.testBit_and]
  cases decide (k < w) <;> simp

theorem lane_xor (w i a b : Nat) : lane w i (a ^^^ b) = lane w i a ^^^ lane w i b := by
  apply Nat.eq_of_testBit_eq
  intro k
  simp only [testBit_lane, Nat.testBit_xor]
  cases decide (k < w) <;> simp

theorem lane_not128 (w i m : Nat) (h : w * i + w ≤ 128) :
    lane w i (2 ^ 128 - 1 - m % 2 ^ 128) = 2 ^ w - 1 - lane w i m := by
  have h1 : m % 2 ^ 128 < 2 ^ 128 := Nat.mod_lt _ (by norm_num)
  have h2 : lane w i m < 2 ^ w := lane_lt w i m
  rw [show 2 ^ 128 - 1 - m % 2 ^ 128 = 2 ^ 128 - (m % 2 ^ 128 + 1) by omega,
    show 2 ^ w - 1 - lane w i m = 2 ^ w - (lane w i m + 1) by omega]
  apply Nat.eq_of_testBit_eq
  intro k
  rw [testBit_lane, Nat.testBit_two_pow_sub_succ h1, Nat.testBit_two_pow_sub_succ h2,
    Nat.testBit_mod_two_pow, testBit_lane]
  by_cases hk : k < w
  · have hlt : w * i + k < 128 := by omega
    simp [hk, hlt]
  · simp [hk]

theorem lane_select (w i M A B : Nat) (h : w * i + w ≤ 128)
    (hM : lane w i M = 0 ∨ lane w i M = 2 ^ w - 1) :
    lane w i (sse._mm_select_si128 M A B)
      = if lane w i M ≠ 0 then lane w i A else lane w i B := by
  unfold sse._mm_select_si128 _mm_or_si128 _mm_and_si128 _mm_andnot_si128
  rw [lane_or, lane_and, lane_and, lane_not128 w i M h]
  have hA := lane_lt w i A
  have hB := lane_lt w i B
  rcases hM with h0 | h1
  · rw [h0, Nat.zero_and, Nat.zero_or, Nat.sub_zero, Nat.and_comm,
      Nat.and_pow_two_sub_one_eq_mod, Nat.mod_eq_of_lt hB]
    simp
  · rw [h1, Nat.sub_self, Nat.zero_and, Nat.or_zero, Nat.and_comm,
      Nat.and_pow_two_sub_one_eq_mod, Nat.mod_eq_of_lt hA]
    by_cases hz : 2 ^ w - 1 = 0
    · have : lane w i A = 0 := by omega
      have : lane w i B = 0 := by omega
      simp [*]
    · simp [hz]
/-! ## Claims on compare, select, min, max -/

/-- C11: select correctness. For a lane type `T` of 8, 16 or 32 bits, vectors
`a`, `b` of that type and a mask whose lane `i` is all zero or all ones, lane `i`
of the portable `scalar_select(mask, a, b)` is `a[i]` when `mask[i] != 0` and
`b[i]` otherwise; and for registers `M`, `A`, `B` and a lane `j` of that width
inside the 128 bits whose mask lane is all zero or all ones, lane `j` of
`_mm_select_si128(M, A, B)` is the lane of `A` when the mask lane is not zero and
the lane of `B` otherwise. -/
theorem select_lanes (T : ScalarType) (hT : T.bits = 8 ∨ T.bits = 16 ∨ T.bits = 32)
    (Size : Nat) (mask a b : scalar_type Int Size) (i : Fin Size)
    (hm : mask i = 0 ∨ mask i = T.allOnes) (ha : T.InRange (a i)) (hb : T.InRange (b i))
    (M A B j : Nat) (hj : T.bits * j + T.bits ≤ 128)
    (hM : lane T.bits j M = 0 ∨ lane T.bits j M = 2 ^ T.bits - 1) :
    scalar_select T mask a b i = (if mask i ≠ 0 then a i else b i) ∧
    lane T.bits j (sse._mm_select_si128 M A B)
      = (if lane T.bits j M ≠ 0 then lane T.bits j A else lane T.bits j B) :=
  ⟨scalar_select_lane T hT mask a b i hm ha hb, lane_select T.bits j M A B hj hM⟩

/-- The hypotheses of C11 hold for `int8` lanes with the mask `[-1, 0, ...]`,
`a = [5, 6, ...]`, `b = [7, 8, ...]` in lane 0, and for the registers with the
same first two byte lanes, where the mask byte is `0xFF`. -/
theorem select_lanes_witness :
    ((int8.bits = 8 ∨ int8.bits = 16 ∨ int8.bits = 32) ∧
      (select_example_mask 0 = 0 ∨ select_example_mask 0 = int8.allOnes) ∧
      int8.InRange (select_example_a 0) ∧ int8.InRange (select_example_b 0) ∧
      int8.bits * 0 + int8.bits ≤ 128 ∧
      (lane int8.bits 0 0x00FF = 0 ∨ lane int8.bits 0 0x00FF = 2 ^ int8.bits - 1)) ∧
    (scalar_select int8 select_example_mask select_example_a select_example_b 0
        = (if select_example_mask 0 ≠ 0 then select_example_a 0 else select_example_b 0) ∧
      lane int8.bits 0 (sse._mm_select_si128 0x00FF 0x0605 0x0807)
        = (if lane int8.bits 0 0x00FF ≠ 0 then lane int8.bits 0 0x0605
            else lane int8.bits 0 0x0807)) :=
  ⟨⟨by decide, by decide, by decide, by decide, by decide, by decide⟩,
    select_lanes int8 (by decide) 16 select_example_mask select_example_a select_example_b 0
      (by decide) (by decide) (by decide) 0x00FF 0x0605 0x0807 0 (by decide) (by decide)⟩

/-- C12: mask well-formedness. For a lane type `T` of 8, 16 or 32 bits, signed
or unsigned, every lane of the portable `compare_eq(a, b)` and `compare_gt(a, b)`
is either zero or the value of `T` with all bits set (whose bit pattern is
`2^bits - 1`), never anything else, and it is the all-ones value exactly when
`a[i] == b[i]`, respectively `a[i] > b[i]` as values of the lane type. -/
theorem compare_mask_lanes (T : ScalarType) (hT : T.bits = 8 ∨ T.bits = 16 ∨ T.bits = 32)
    (Size : Nat) (a b : scalar_type Int Size) (i : Fin Size) :
    (portable.compare_eq T a b i = 0 ∨ portable.compare_eq T a b i = T.allOnes) ∧
    (portable.compare_eq T a b i = T.allOnes ↔ a i = b i) ∧
    (portable.compare_gt T a b i = 0 ∨ portable.compare_gt T a b i = T.allOnes) ∧
    (portable.compare_gt T a b i = T.allOnes ↔ a i > b i) ∧
    toUnsigned T.bits T.allOnes = 2 ^ T.bits - 1 ∧ toUnsigned T.bits 0 = 0 := by
  have hk : T.ofBits (bitNot 0) = T.allOnes ∧ T.ofBits 0 = 0 ∧ T.allOnes ≠ 0 ∧
      toUnsigned T.bits T.allOnes = 2 ^ T.bits - 1 ∧ toUnsigned T.bits 0 = 0 := by
    obtain ⟨w, s⟩ := T
    simp only at hT
    cases s <;> rcases hT with rfl | rfl | rfl <;> decide
  obtain ⟨h1, h0, hne, hp, hz⟩ := hk
  unfold portable.compare_eq portable.compare_gt
  rw [scalar_unroll_apply, scalar_unroll_apply]
  unfold scalar_compare_eq scalar_compare_gt
  refine ⟨?_, ?_, ?_, ?_, hp, hz⟩
  · by_cases h : a i = b i
    · rw [if_pos h, h1]; exact Or.inr rfl
    · rw [if_neg h, h0]; exact Or.inl rfl
  · by_cases h : a i = b i
    · rw [if_pos h, h1]; exact ⟨fun _ => h, fun _ => rfl⟩
    · rw [if_neg h, h0]; exact ⟨fun e => absurd e.symm hne, fun e => absurd e h⟩
  · by_cases h : a i > b i
    · rw [if_pos h, h1]; exact Or.inr rfl
    · rw [if_neg h, h0]; exact Or.inl rfl
  · by_cases h : a i > b i
    · rw [if_pos h, h1]; exact ⟨fun _ => h, fun _ => rfl⟩
    · rw [if_neg h, h0]; exact ⟨fun e => absurd e.symm hne, fun e => absurd e h⟩

/-- The hypothesis of C12 holds for `uint16`; on the lanes `b[0] = 7`, `a[0] = 5`
of the select example the conclusion is obtained, and there `compare_eq` gives
`0` and `compare_gt` gives `65535`. -/
theorem compare_mask_lanes_witness :
    (uint16.bits = 8 ∨ uint16.bits = 16 ∨ uint16.bits = 32) ∧
    ((portable.compare_eq uint16 select_example_b select_example_a 0 = 0 ∨
        portable.compare_eq uint16 select_example_b select_example_a 0 = uint16.allOnes) ∧
      (portable.compare_eq uint16 select_example_b select_example_a 0 = uint16.allOnes ↔
        select_example_b 0 = select_example_a 0) ∧
      (portable.compare_gt uint16 select_example_b select_example_a 0 = 0 ∨
        portable.compare_gt uint16 select_example_b select_example_a 0 = uint16.allOnes) ∧
      (portable.compare_gt uint16 select_example_b select_example_a 0 = uint16.allOnes ↔
        select_example_b 0 > select_example_a 0) ∧
      toUnsigned uint16.bits uint16.allOnes = 2 ^ uint16.bits - 1 ∧
      toUnsigned uint16.bits 0 = 0) ∧
    portable.compare_eq uint16 select_example_b select_example_a 0 = 0 ∧
    portable.compare_gt uint16 select_example_b select_example_a 0 = 65535 :=
  ⟨by decide,
    compare_mask_lanes uint16 (by decide) 16 select_example_b select_example_a 0,
    by decide, by decide⟩
/-! ## Unsigned order through the signed compare -/

theorem xor_msb_of_lt (k x : Nat) (hx : x < 2 ^ k) : x ^^^ 2 ^ k = 2 ^ k + x := by
  apply Nat.eq_of_testBit_eq
  intro i
  rw [Nat.testBit_xor, Nat.testBit_two_pow]
  rcases Nat.lt_trichotomy i k with h | h | h
  · rw [Nat.testBit_two_pow_add_gt h]
    have : ¬ k = i := by omega
    simp [this]
  · subst h
    rw [Nat.testBit_two_pow_add_eq, Nat.testBit_lt_two_pow hx]
    simp
  · have h1 : 2 ^ (k + 1) ≤ 2 ^ i := Nat.pow_le_pow_right (by decide) (by omega)
    have h2 : 2 ^ k + x < 2 ^ i := by rw [pow_succ] at h1; omega
    have h3 : x < 2 ^ i := by omega
    have : ¬ k = i := by omega
    rw [Nat.testBit_lt_two_pow h2, Nat.testBit_lt_two_pow h3]
    simp [this]

theorem xor_msb (k x : Nat) (hx : x < 2 ^ (k + 1)) :
    x ^^^ 2 ^ k = if x < 2 ^ k then x + 2 ^ k else x - 2 ^ k := by
  split_ifs with h
  · rw [xor_msb_of_lt k x h, Nat.add_comm]
  · have hr : x - 2 ^ k < 2 ^ k := by rw [pow_succ] at hx; omega
    have he := xor_msb_of_lt k (x - 2 ^ k) hr
    have hx2 : 2 ^ k + (x - 2 ^ k) = x := by omega
    rw [hx2] at he
    calc x ^^^ 2 ^ k = ((x - 2 ^ k) ^^^ 2 ^ k) ^^^ 2 ^ k := by rw [he]
      _ = x - 2 ^ k := by rw [Nat.xor_assoc, Nat.xor_self, Nat.xor_zero]

theorem signed_flip_gt (w x y : Nat) (hw : 0 < w) (hx : x < 2 ^ w) (hy : y < 2 ^ w) :
    toSigned w (x ^^^ 2 ^ (w - 1)) > toSigned w (y ^^^ 2 ^ (w - 1)) ↔ x > y := by
  obtain ⟨k, rfl⟩ : ∃ k, w = k + 1 := ⟨w - 1, by omega⟩
  simp only [Nat.add_sub_cancel]
  have hp : 2 ^ (k + 1) = 2 * 2 ^ k := by rw [pow_succ, Nat.mul_comm]
  have hxx := xor_msb k x hx
  have hyy := xor_msb k y hy
  have hxl : x ^^^ 2 ^ k < 2 ^ (k + 1) := by rw [hxx]; split_ifs <;> omega
  have hyl : y ^^^ 2 ^ k < 2 ^ (k + 1) := by rw [hyy]; split_ifs <;> omega
  rw [toSigned_of_lt _ hxl, toSigned_of_lt _ hyl, hxx, hyy]
  simp only [Nat.add_sub_cancel]
  have hpi : (2 : Int) ^ (k + 1) = ((2 ^ (k + 1) : Nat) : Int) := by push_cast; rfl
  rw [hpi]
  generalize (2 : Nat) ^ (k + 1) = M at *
  generalize (2 : Nat) ^ k = H at *
  split_ifs <;> omega

theorem lane8_sign (i : Nat) (hi : i < 16) : lane 8 i (_mm_set1_epi32 0x80808080) = 2 ^ 7 := by
  interval_cases i <;> decide

theorem lane16_sign (i : Nat) (hi : i < 8) : lane 16 i (_mm_set1_epi32 0x80008000) = 2 ^ 15 := by
  interval_cases i <;> decide

theorem lane32_sign (i : Nat) (hi : i < 4) :
    lane 32 i (_mm_set1_epi32 0x80000000) = 2 ^ 31 := by
  interval_cases i <;> decide

theorem lane8_cmpgt_epi8 (a b i : Nat) (hi : i < 16) :
    lane 8 i (_mm_cmpgt_epi8 a b)
      = if toSigned 8 (lane 8 i a) > toSigned 8 (lane 8 i b) then 2 ^ 8 - 1 else 0 := by
  unfold _mm_cmpgt_epi8
  rw [lane_lanewise _ _ _ _ hi]
  split_ifs <;> rfl

theorem lane16_cmpgt_epi16 (a b i : Nat) (hi : i < 8) :
    lane 16 i (_mm_cmpgt_epi16 a b)
      = if toSigned 16 (lane 16 i a) > toSigned 16 (lane 16 i b) then 2 ^ 16 - 1 else 0 := by
  unfold _mm_cmpgt_epi16
  rw [lane_lanewise _ _ _ _ hi]
  split_ifs <;> rfl

theorem lane32_cmpgt_epi32 (a b i : Nat) (hi : i < 4) :
    lane 32 i (_mm_cmpgt_epi32 a b)
      = if toSigned 32 (lane 32 i a) > toSigned 32 (lane 32 i b) then 2 ^ 32 - 1 else 0 := by
  unfold _mm_cmpgt_epi32
  rw [lane_lanewise _ _ _ _ hi]
  split_ifs <;> rfl

theorem lane8_compare_gt_uint8x16 (a b i : Nat) (hi : i < 16) :
    lane 8 i (sse.compare_gt_uint8x16 a b)
      = if lane 8 i a > lane 8 i b then 2 ^ 8 - 1 else 0 := by
  unfold sse.compare_gt_uint8x16 _mm_xor_si128
  simp only []
  rw [lane8_cmpgt_epi8 _ _ _ hi, lane_xor, lane_xor, lane8_sign i hi]
  have h := signed_flip_gt 8 (lane 8 i a) (lane 8 i b) (by decide) (lane_lt _ _ _) (lane_lt _ _ _)
  simp only [Nat.add_one_sub_one, show (8 : Nat) - 1 = 7 from rfl] at h
  by_cases hc : lane 8 i a > lane 8 i b
  · rw [if_pos (h.2 hc), if_pos hc]
  · rw [if_neg (fun hn => hc (h.1 hn)), if_neg hc]

theorem lane16_compare_gt_uint16x8 (a b i : Nat) (hi : i < 8) :
    lane 16 i (sse.compare_gt_uint16x8 a b)
      = if lane 16 i a > lane 16 i b then 2 ^ 16 - 1 else 0 := by
  unfold sse.compare_gt_uint16x8 _mm_xor_si128
  simp only []
  rw [lane16_cmpgt_epi16 _ _ _ hi, lane_xor, lane_xor, lane16_sign i hi]
  have h := signed_flip_gt 16 (lane 16 i a) (lane 16 i b) (by decide) (lane_lt _ _ _)
    (lane_lt _ _ _)
  simp only [show (16 : Nat) - 1 = 15 from rfl] at h
  by_cases hc : lane 16 i a > lane 16 i b
  · rw [if_pos (h.2 hc), if_pos hc]
  · rw [if_neg (fun hn => hc (h.1 hn)), if_neg hc]

theorem lane32_compare_gt_uint32x4 (a b i : Nat) (hi : i < 4) :
    lane 32 i (sse.compare_gt_uint32x4 a b)
      = if lane 32 i a > lane 32 i b then 2 ^ 32 - 1 else 0 := by
  unfold sse.compare_gt_uint32x4 _mm_xor_si128
  simp only []
  rw [lane32_cmpgt_epi32 _ _ _ hi, lane_xor, lane_xor, lane32_sign i hi]
  have h := signed_flip_gt 32 (lane 32 i a) (lane 32 i b) (by decide) (lane_lt _ _ _)
    (lane_lt _ _ _)
  simp only [show (32 : Nat) - 1 = 31 from rfl] at h
  by_cases hc : lane 32 i a > lane 32 i b
  · rw [if_pos (h.2 hc), if_pos hc]
  · rw [if_neg (fun hn => hc (h.1 hn)), if_neg hc]

theorem ofBits_bitNot_zero (T : ScalarType) (hT : T.bits = 8 ∨ T.bits = 16 ∨ T.bits = 32) :
    T.ofBits (bitNot 0) = T.ofBits (2 ^ T.bits - 1) := by
  obtain ⟨w, s⟩ := T
  simp only at hT
  cases s <;> rcases hT with rfl | rfl | rfl <;> decide

theorem ofBits_unsigned (T : ScalarType) (hs : T.isSigned = false) (x : Nat)
    (hx : x < 2 ^ T.bits) : T.ofBits x = (x : Int) := by
  unfold ScalarType.ofBits
  rw [hs, Nat.mod_eq_of_lt hx]
  rfl

theorem ofBits_signed (T : ScalarType) (hs : T.isSigned = true) (x : Nat) :
    T.ofBits x = toSigned T.bits x := by
  unfold ScalarType.ofBits
  rw [hs]
  rfl

theorem lanesOf_compare_gt (T : ScalarType) (hT : T.bits = 8 ∨ T.bits = 16 ∨ T.bits = 32)
    (n : Nat) (a b r : Nat) (i : Fin n)
    (h : lane T.bits i r
      = if T.ofBits (lane T.bits i a) > T.ofBits (lane T.bits i b) then 2 ^ T.bits - 1 else 0) :
    lanesOf T n r i = portable.compare_gt T (lanesOf T n a) (lanesOf T n b) i := by
  unfold portable.compare_gt
  rw [scalar_unroll_apply]
  unfold lanesOf scalar_compare_gt
  rw [h]
  split_ifs
  · exact (ofBits_bitNot_zero T hT).symm
  · rfl

theorem ofBits_gt_unsigned (T : ScalarType) (hs : T.isSigned = false) (x y : Nat)
    (hx : x < 2 ^ T.bits) (hy : y < 2 ^ T.bits) : T.ofBits x > T.ofBits y ↔ x > y := by
  rw [ofBits_unsigned T hs x hx, ofBits_unsigned T hs y hy]
  exact Nat.cast_lt
/-- C13: unsigned greater-than through the sign-bit flip. For all registers `a`,
`b`, the SSE2 `compare_gt` without XOP on `uint8x16`, `uint16x8` and `uint32x4`,
which XORs both operands with `0x80808080`, `0x80008000`, `0x80000000` and applies
the signed compare, has in each lane all ones when `a[i] > b[i]` as unsigned
numbers and zero otherwise, and the vector it holds is the one the portable
unsigned `compare_gt` returns on the same vectors. -/
theorem compare_gt_unsigned_flip (a b : Nat) (i : Fin 16) (j : Fin 8) (k : Fin 4) :
    (lane 8 i (sse.compare_gt_uint8x16 a b)
        = (if lane 8 i a > lane 8 i b then 2 ^ 8 - 1 else 0) ∧
      lanesOf uint8 16 (sse.compare_gt_uint8x16 a b) i
        = portable.compare_gt uint8 (lanesOf uint8 16 a) (lanesOf uint8 16 b) i) ∧
    (lane 16 j (sse.compare_gt_uint16x8 a b)
        = (if lane 16 j a > lane 16 j b then 2 ^ 16 - 1 else 0) ∧
      lanesOf uint16 8 (sse.compare_gt_uint16x8 a b) j
        = portable.compare_gt uint16 (lanesOf uint16 8 a) (lanesOf uint16 8 b) j) ∧
    (lane 32 k (sse.compare_gt_uint32x4 a b)
        = (if lane 32 k a > lane 32 k b then 2 ^ 32 - 1 else 0) ∧
      lanesOf uint32 4 (sse.compare_gt_uint32x4 a b) k
        = portable.compare_gt uint32 (lanesOf uint32 4 a) (lanesOf uint32 4 b) k) := by
  have h8 := lane8_compare_gt_uint8x16 a b i i.isLt
  have h16 := lane16_compare_gt_uint16x8 a b j j.isLt
  have h32 := lane32_compare_gt_uint32x4 a b k k.isLt
  refine ⟨⟨h8, ?_⟩, ⟨h16, ?_⟩, ⟨h32, ?_⟩⟩
  · apply lanesOf_compare_gt uint8 (by decide)
    have e := ofBits_gt_unsigned uint8 rfl (lane 8 i a) (lane 8 i b) (lane_lt _ _ _)
      (lane_lt _ _ _)
    show lane 8 i (sse.compare_gt_uint8x16 a b)
      = if uint8.ofBits (lane 8 i a) > uint8.ofBits (lane 8 i b) then 2 ^ 8 - 1 else 0
    rw [h8]
    by_cases hc : lane 8 i a > lane 8 i b
    · rw [if_pos hc, if_pos (e.2 hc)]
    · rw [if_neg hc, if_neg (fun hn => hc (e.1 hn))]
  · apply lanesOf_compare_gt uint16 (by decide)
    have e := ofBits_gt_unsigned uint16 rfl (lane 16 j a) (lane 16 j b) (lane_lt _ _ _)
      (lane_lt _ _ _)
    show lane 16 j (sse.compare_gt_uint16x8 a b)
      = if uint16.ofBits (lane 16 j a) > uint16.ofBits (lane 16 j b) then 2 ^ 16 - 1 else 0
    rw [h16]
    by_cases hc : lane 16 j a > lane 16 j b
    · rw [if_pos hc, if_pos (e.2 hc)]
    · rw [if_neg hc, if_neg (fun hn => hc (e.1 hn))]
  · apply lanesOf_compare_gt uint32 (by decide)
    have e := ofBits_gt_unsigned uint32 rfl (lane 32 k a) (lane 32 k b) (lane_lt _ _ _)
      (lane_lt _ _ _)
    show lane 32 k (sse.compare_gt_uint32x4 a b)
      = if uint32.ofBits (lane 32 k a) > uint32.ofBits (lane 32 k b) then 2 ^ 32 - 1 else 0
    rw [h32]
    by_cases hc : lane 32 k a > lane 32 k b
    · rw [if_pos hc, if_pos (e.2 hc)]
    · rw [if_neg hc, if_neg (fun hn => hc (e.1 hn))]
/-! ## min and max as select of compare -/

theorem scalar_compare_gt_eq (T : ScalarType) (hT : T.bits = 8 ∨ T.bits = 16 ∨ T.bits = 32)
    (a b : Int) : scalar_compare_gt T a b = if a > b then T.allOnes else 0 := by
  have hk : T.ofBits (bitNot 0) = T.allOnes ∧ T.ofBits 0 = 0 := by
    obtain ⟨w, s⟩ := T
    simp only at hT
    cases s <;> rcases hT with rfl | rfl | rfl <;> decide
  unfold scalar_compare_gt
  split_ifs
  · exact hk.1
  · exact hk.2

theorem select_compare_gt_lane (T : ScalarType) (hT : T.bits = 8 ∨ T.bits = 16 ∨ T.bits = 32)
    {Size : Nat} (a b x y : scalar_type Int Size) (i : Fin Size)
    (hx : T.InRange (x i)) (hy : T.InRange (y i)) :
    portable.select T (portable.compare_gt T a b) x y i = if a i > b i then x i else y i := by
  have hne := (allOnes_cases T hT).1
  have hm : portable.compare_gt T a b i = if a i > b i then T.allOnes else 0 := by
    unfold portable.compare_gt
    rw [scalar_unroll_apply, scalar_compare_gt_eq T hT]
  unfold portable.select
  rw [scalar_select_lane T hT _ x y i (by rw [hm]; split_ifs <;> simp) hx hy, hm]
  by_cases h : a i > b i
  · rw [if_pos h, if_pos hne, if_pos h]
  · rw [if_neg h, if_neg h]; simp

theorem lane_select_of_cond (w i mask X Y : Nat) (c : Prop) [Decidable c] (hw : 0 < w)
    (h : w * i + w ≤ 128) (hmask : lane w i mask = if c then 2 ^ w - 1 else 0) :
    lane w i (sse._mm_select_si128 mask X Y) = if c then lane w i X else lane w i Y := by
  have hp : 2 ^ w - 1 ≠ 0 := by
    have : 2 ≤ 2 ^ w := by
      calc 2 = 2 ^ 1 := rfl
        _ ≤ 2 ^ w := Nat.pow_le_pow_right (by decide) hw
    omega
  rw [lane_select w i mask X Y h (by rw [hmask]; split_ifs <;> simp), hmask]
  by_cases hc : c
  · rw [if_pos hc, if_pos hp, if_pos hc]
  · rw [if_neg hc, if_neg hc]; simp

theorem lanesOf_min (T : ScalarType) (n : Nat) (a b r : Nat) (i : Fin n)
    (h : lane T.bits i r
      = if T.ofBits (lane T.bits i a) > T.ofBits (lane T.bits i b) then lane T.bits i b
        else lane T.bits i a) :
    lanesOf T n r i = portable.min (lanesOf T n a) (lanesOf T n b) i := by
  unfold portable.min
  rw [scalar_unroll_apply]
  unfold lanesOf scalar_min
  rw [h]
  split_ifs <;> rfl

theorem lanesOf_max (T : ScalarType) (n : Nat) (a b r : Nat) (i : Fin n)
    (h : lane T.bits i r
      = if T.ofBits (lane T.bits i a) > T.ofBits (lane T.bits i b) then lane T.bits i a
        else lane T.bits i b) :
    lanesOf T n r i = portable.max (lanesOf T n a) (lanesOf T n b) i := by
  unfold portable.max
  rw [scalar_unroll_apply]
  unfold lanesOf scalar_max
  rw [h]
  split_ifs <;> first | rfl | omega
/-- C14: min is the select/compare composition. For a lane type `T` of 8, 16 or
32 bits and vectors `a`, `b` of that type, lane `i` of the portable `min(a, b)`
(`std::min` per lane) equals lane `i` of `select(compare_gt(a, b), b, a)` and is
the smaller of the two values (the unsigned minimum for an unsigned type); and
for all registers `A`, `B` the SSE2 fallback `min` on `uint16x8`, `uint32x4`,
`int8x16` and `int32x4`, defined as that composition, holds in each lane the
value the portable `min` returns on the same vectors. -/
theorem min_is_select_compare (T : ScalarType)
    (hT : T.bits = 8 ∨ T.bits = 16 ∨ T.bits = 32) (Size : Nat)
    (a b : scalar_type Int Size) (i : Fin Size)
    (ha : T.InRange (a i)) (hb : T.InRange (b i))
    (A B : Nat) (j8 : Fin 16) (j16 : Fin 8) (j32 : Fin 4) :
    portable.min a b i = portable.select T (portable.compare_gt T a b) b a i ∧
    portable.min a b i = Min.min (a i) (b i) ∧
    lanesOf uint16 8 (sse.min_uint16x8 A B) j16
      = portable.min (lanesOf uint16 8 A) (lanesOf uint16 8 B) j16 ∧
    lanesOf uint32 4 (sse.min_uint32x4 A B) j32
      = portable.min (lanesOf uint32 4 A) (lanesOf uint32 4 B) j32 ∧
    lanesOf int8 16 (sse.min_int8x16 A B) j8
      = portable.min (lanesOf int8 16 A) (lanesOf int8 16 B) j8 ∧
    lanesOf int32 4 (sse.min_int32x4 A B) j32
      = portable.min (lanesOf int32 4 A) (lanesOf int32 4 B) j32 := by
  have hmin : portable.min a b i = if b i < a i then b i else a i := by
    unfold portable.min
    rw [scalar_unroll_apply]
    rfl
  refine ⟨?_, ?_, ?_, ?_, ?_, ?_⟩
  · rw [select_compare_gt_lane T hT a b b a i hb ha, hmin]
  · rw [hmin]
    split_ifs with h
    · exact (min_eq_right (le_of_lt h)).symm
    · exact (min_eq_left (not_lt.1 h)).symm
  · apply lanesOf_min uint16
    have e := ofBits_gt_unsigned uint16 rfl (lane 16 j16 A) (lane 16 j16 B) (lane_lt _ _ _)
      (lane_lt _ _ _)
    show lane 16 j16 (sse.min_uint16x8 A B)
      = if uint16.ofBits (lane 16 j16 A) > uint16.ofBits (lane 16 j16 B) then lane 16 j16 B
        else lane 16 j16 A
    unfold sse.min_uint16x8
    rw [lane_select_of_cond 16 j16 _ B A _ (by decide) (by omega)
      (lane16_compare_gt_uint16x8 A B j16 j16.isLt)]
    by_cases hc : lane 16 j16 A > lane 16 j16 B
    · rw [if_pos hc, if_pos (e.2 hc)]
    · rw [if_neg hc, if_neg (fun hn => hc (e.1 hn))]
  · apply lanesOf_min uint32
    have e := ofBits_gt_unsigned uint32 rfl (lane 32 j32 A) (lane 32 j32 B) (lane_lt _ _ _)
      (lane_lt _ _ _)
    show lane 32 j32 (sse.min_uint32x4 A B)
      = if uint32.ofBits (lane 32 j32 A) > uint32.ofBits (lane 32 j32 B) then lane 32 j32 B
        else lane 32 j32 A
    unfold sse.min_uint32x4
    rw [lane_select_of_cond 32 j32 _ B A _ (by decide) (by omega)
      (lane32_compare_gt_uint32x4 A B j32 j32.isLt)]
    by_cases hc : lane 32 j32 A > lane 32 j32 B
    · rw [if_pos hc, if_pos (e.2 hc)]
    · rw [if_neg hc, if_neg (fun hn => hc (e.1 hn))]
  · apply lanesOf_min int8
    show lane 8 j8 (sse.min_int8x16 A B)
      = if toSigned 8 (lane 8 j8 A) > toSigned 8 (lane 8 j8 B) then lane 8 j8 B
        else lane 8 j8 A
    unfold sse.min_int8x16
    rw [lane_select_of_cond 8 j8 _ B A _ (by decide) (by omega)
      (lane8_cmpgt_epi8 A B j8 j8.isLt)]
  · apply lanesOf_min int32
    show lane 32 j32 (sse.min_int32x4 A B)
      = if toSigned 32 (lane 32 j32 A) > toSigned 32 (lane 32 j32 B) then lane 32 j32 B
        else lane 32 j32 A
    unfold sse.min_int32x4
    rw [lane_select_of_cond 32 j32 _ B A _ (by decide) (by omega)
      (lane32_cmpgt_epi32 A B j32 j32.isLt)]

/-- The hypotheses of C14 hold for `uint32` lanes `a[1] = 4000000000`,
`b[1] = 2`, where the minimum is the unsigned one, and for two registers. -/
theorem min_is_select_compare_witness :
    ((uint32.bits = 8 ∨ uint32.bits = 16 ∨ uint32.bits = 32) ∧
      uint32.InRange (minmax_example_a 1) ∧ uint32.InRange (minmax_example_b 1)) ∧
    (portable.min minmax_example_a minmax_example_b 1
        = portable.select uint32
            (portable.compare_gt uint32 minmax_example_a minmax_example_b)
            minmax_example_b minmax_example_a 1 ∧
      portable.min minmax_example_a minmax_example_b 1
        = Min.min (minmax_example_a 1) (minmax_example_b 1) ∧
      lanesOf uint16 8 (sse.min_uint16x8 0x8000 0x7FFF) 0
        = portable.min (lanesOf uint16 8 0x8000) (lanesOf uint16 8 0x7FFF) 0 ∧
      lanesOf uint32 4 (sse.min_uint32x4 0x8000 0x7FFF) 0
        = portable.min (lanesOf uint32 4 0x8000) (lanesOf uint32 4 0x7FFF) 0 ∧
      lanesOf int8 16 (sse.min_int8x16 0x8000 0x7FFF) 0
        = portable.min (lanesOf int8 16 0x8000) (lanesOf int8 16 0x7FFF) 0 ∧
      lanesOf int32 4 (sse.min_int32x4 0x8000 0x7FFF) 0
        = portable.min (lanesOf int32 4 0x8000) (lanesOf int32 4 0x7FFF) 0) :=
  ⟨⟨by decide, by decide, by decide⟩,
    min_is_select_compare uint32 (by decide) 4 minmax_example_a minmax_example_b 1
      (by decide) (by decide) 0x8000 0x7FFF 0 0 0⟩

/-- C15: max is the select/compare composition. For a lane type `T` of 8, 16 or
32 bits and vectors `a`, `b` of that type, lane `i` of the portable `max(a, b)`
(`std::max` per lane) equals lane `i` of `select(compare_gt(a, b), a, b)` and is
the larger of the two values (the unsigned maximum for an unsigned type); and
for all registers `A`, `B` the SSE2 fallback `max` on `uint16x8`, `uint32x4`,
`int8x16` and `int32x4`, defined as that composition, holds in each lane the
value the portable `max` returns on the same vectors. -/
theorem max_is_select_compare (T : ScalarType)
    (hT : T.bits = 8 ∨ T.bits = 16 ∨ T.bits = 32) (Size : Nat)
    (a b : scalar_type Int Size) (i : Fin Size)
    (ha : T.InRange (a i)) (hb : T.InRange (b i))
    (A B : Nat) (j8 : Fin 16) (j16 : Fin 8) (j32 : Fin 4) :
    portable.max a b i = portable.select T (portable.compare_gt T a b) a b i ∧
    portable.max a b i = Max.max (a i) (b i) ∧
    lanesOf uint16 8 (sse.max_uint16x8 A B) j16
      = portable.max (lanesOf uint16 8 A) (lanesOf uint16 8 B) j16 ∧
    lanesOf uint32 4 (sse.max_uint32x4 A B) j32
      = portable.max (lanesOf uint32 4 A) (lanesOf uint32 4 B) j32 ∧
    lanesOf int8 16 (sse.max_int8x16 A B) j8
      = portable.max (lanesOf int8 16 A) (lanesOf int8 16 B) j8 ∧
    lanesOf int32 4 (sse.max_int32x4 A B) j32
      = portable.max (lanesOf int32 4 A) (lanesOf int32 4 B) j32 := by
  have hmax : portable.max a b i = if a i < b i then b i else a i := by
    unfold portable.max
    rw [scalar_unroll_apply]
    rfl
  refine ⟨?_, ?_, ?_, ?_, ?_, ?_⟩
  · rw [select_compare_gt_lane T hT a b a b i ha hb, hmax]
    split_ifs <;> first | rfl | omega
  · rw [hmax]
    split_ifs with h
    · exact (max_eq_right (le_of_lt h)).symm
    · exact (max_eq_left (not_lt.1 h)).symm
  · apply lanesOf_max uint16
    have e := ofBits_gt_unsigned uint16 rfl (lane 16 j16 A) (lane 16 j16 B) (lane_lt _ _ _)
      (lane_lt _ _ _)
    show lane 16 j16 (sse.max_uint16x8 A B)
      = if uint16.ofBits (lane 16 j16 A) > uint16.ofBits (lane 16 j16 B) then lane 16 j16 A
        else lane 16 j16 B
    unfold sse.max_uint16x8
    rw [lane_select_of_cond 16 j16 _ A B _ (by decide) (by omega)
      (lane16_compare_gt_uint16x8 A B j16 j16.isLt)]
    by_cases hc : lane 16 j16 A > lane 16 j16 B
    · rw [if_pos hc, if_pos (e.2 hc)]
    · rw [if_neg hc, if_neg (fun hn => hc (e.1 hn))]
  · apply lanesOf_max uint32
    have e := ofBits_gt_unsigned uint32 rfl (lane 32 j32 A) (lane 32 j32 B) (lane_lt _ _ _)
      (lane_lt _ _ _)
    show lane 32 j32 (sse.max_uint32x4 A B)
      = if uint32.ofBits (lane 32 j32 A) > uint32.ofBits (lane 32 j32 B) then lane 32 j32 A
        else lane 32 j32 B
    unfold sse.max_uint32x4
    rw [lane_select_of_cond 32 j32 _ A B _ (by decide) (by omega)
      (lane32_compare_gt_uint32x4 A B j32 j32.isLt)]
    by_cases hc : lane 32 j32 A > lane 32 j32 B
    · rw [if_pos hc, if_pos (e.2 hc)]
    · rw [if_neg hc, if_neg (fun hn => hc (e.1 hn))]
  · apply lanesOf_max int8
    show lane 8 j8 (sse.max_int8x16 A B)
      = if toSigned 8 (lane 8 j8 A) > toSigned 8 (lane 8 j8 B) then lane 8 j8 A
        else lane 8 j8 B
    unfold sse.max_int8x16
    rw [lane_select_of_cond 8 j8 _ A B _ (by decide) (by omega)
      (lane8_cmpgt_epi8 A B j8 j8.isLt)]
  · apply lanesOf_max int32
    show lane 32 j32 (sse.max_int32x4 A B)
      = if toSigned 32 (lane 32 j32 A) > toSigned 32 (lane 32 j32 B) then lane 32 j32 A
        else lane 32 j32 B
    unfold sse.max_int32x4
    rw [lane_select_of_cond 32 j32 _ A B _ (by decide) (by omega)
      (lane32_cmpgt_epi32 A B j32 j32.isLt)]

/-- The hypotheses of C15 hold for `uint32` lanes `a[1] = 4000000000`,
`b[1] = 2`, where the maximum is the unsigned one, and for two registers. -/
theorem max_is_select_compare_witness :
    ((uint32.bits = 8 ∨ uint32.bits = 16 ∨ uint32.bits = 32) ∧
      uint32.InRange (minmax_example_a 1) ∧ uint32.InRange (minmax_example_b 1)) ∧
    (portable.max minmax_example_a minmax_example_b 1
        = portable.select uint32
            (portable.compare_gt uint32 minmax_example_a minmax_example_b)
            minmax_example_a minmax_example_b 1 ∧
      portable.max minmax_example_a minmax_example_b 1
        = Max.max (minmax_example_a 1) (minmax_example_b 1) ∧
      lanesOf uint16 8 (sse.max_uint16x8 0x8000 0x7FFF) 0
        = portable.max (lanesOf uint16 8 0x8000) (lanesOf uint16 8 0x7FFF) 0 ∧
      lanesOf uint32 4 (sse.max_uint32x4 0x8000 0x7FFF) 0
        = portable.max (lanesOf uint32 4 0x8000) (lanesOf uint32 4 0x7FFF) 0 ∧
      lanesOf int8 16 (sse.max_int8x16 0x8000 0x7FFF) 0
        = portable.max (lanesOf int8 16 0x8000) (lanesOf int8 16 0x7FFF) 0 ∧
      lanesOf int32 4 (sse.max_int32x4 0x8000 0x7FFF) 0
        = portable.max (lanesOf int32 4 0x8000) (lanesOf int32 4 0x7FFF) 0) :=
  ⟨⟨by decide, by decide, by decide⟩,
    max_is_select_compare uint32 (by decide) 4 minmax_example_a minmax_example_b 1
      (by decide) (by decide) 0x8000 0x7FFF 0 0 0⟩
/-! ## Shuffle -/

theorem lane2_MM_SHUFFLE :
    ∀ x y z w i : Fin 4, lane 2 i (_MM_SHUFFLE w z y x) = (set4 x y z w i).val := by
  decide

theorem lane32_shuffle_generic (x y z w i : Fin 4) (v : Nat) :
    lane 32 i (sse.shuffle_generic x y z w v) = lane 32 (set4 x y z w i).val v := by
  unfold sse.shuffle_generic _mm_shuffle_epi32
  rw [lane_lanewise _ _ _ _ i.isLt, lane2_MM_SHUFFLE, Nat.mod_eq_of_lt (lane_lt _ _ _)]

theorem set4_apply_comm {α β : Type} (f : α → β) (x y z w : α) (i : Fin 4) :
    f (set4 x y z w i) = set4 (f x) (f y) (f z) (f w) i := by
  unfold set4
  split_ifs <;> rfl

theorem portable_shuffle_identity (v : scalar_type Int 4) :
    portable.shuffle_generic 0 1 2 3 v = v := by
  funext i
  unfold portable.shuffle_generic set4
  have h := i.isLt
  split_ifs with h0 h1 h2
  · exact congrArg v (Fin.ext h0.symm)
  · exact congrArg v (Fin.ext h1.symm)
  · exact congrArg v (Fin.ext h2.symm)
  · exact congrArg v (Fin.ext (by show 3 = i.val; omega))
/-- C16: shuffle identity. For every four-lane 32-bit vector `v` of the portable
backend (`uint32x4` and `int32x4` alike), `shuffle<0,1,2,3>(v)` is `v`, and the
explicit specialization returns what the primary template
`{{ v[x], v[y], v[z], v[w] }}` returns at `(x, y, z, w) = (0, 1, 2, 3)`. -/
theorem shuffle_identity (v : scalar_type Int 4) :
    portable.shuffle 0 1 2 3 v = v ∧
    portable.shuffle 0 1 2 3 v = portable.shuffle_generic 0 1 2 3 v := by
  have h : portable.shuffle 0 1 2 3 v = v := by
    unfold portable.shuffle
    rw [if_pos ⟨rfl, rfl, rfl, rfl⟩]
  exact ⟨h, by rw [h, portable_shuffle_identity]⟩

/-- C17: shuffle across the backends. For all indices `x`, `y`, `z`, `w` below 4
and every register `v`, the SSE2 `shuffle<x,y,z,w>(v)`, which is
`_mm_shuffle_epi32(v, _MM_SHUFFLE(w, z, y, x))`, has the 32-bit lanes
`v[x], v[y], v[z], v[w]` in that order, and read as `uint32x4` or as `int32x4` it
is the vector the portable `shuffle<x,y,z,w>` returns. -/
theorem shuffle_cross_backend (x y z w i : Fin 4) (v : Nat) :
    lane 32 i (sse.shuffle_generic x y z w v) = set4 (lane 32 x v) (lane 32 y v)
      (lane 32 z v) (lane 32 w v) i ∧
    lanesOf uint32 4 (sse.shuffle x y z w v) i
      = portable.shuffle x y z w (lanesOf uint32 4 v) i ∧
    lanesOf int32 4 (sse.shuffle x y z w v) i
      = portable.shuffle x y z w (lanesOf int32 4 v) i := by
  have h := lane32_shuffle_generic x y z w i v
  have hs := set4_apply_comm (fun k : Fin 4 => lane 32 k.val v) x y z w i
  simp only at hs
  refine ⟨by rw [h, hs], ?_, ?_⟩
  · unfold sse.shuffle portable.shuffle
    split_ifs
    · rfl
    · show uint32.ofBits (lane 32 i (sse.shuffle_generic x y z w v)) = _
      rw [h]
      exact set4_apply_comm (fun k : Fin 4 => uint32.ofBits (lane 32 k.val v)) x y z w i
  · unfold sse.shuffle portable.shuffle
    split_ifs
    · rfl
    · show int32.ofBits (lane 32 i (sse.shuffle_generic x y z w v)) = _
      rw [h]
      exact set4_apply_comm (fun k : Fin 4 => int32.ofBits (lane 32 k.val v)) x y z w i
/-! ## unpacklo and unpackhi -/

theorem setLane_apply {α : Type} {N : Nat} (v : scalar_type α N) (k : Nat) (x : α)
    (j : Fin N) : setLane v k x j = if j.val = k then x else v j := rfl

theorem unpack_fold {α : Type} {N : Nat} (f g : Nat → α) (m : Nat)
    (init : scalar_type (Option α) N) (j : Fin N) :
    ((List.range m).foldl
        (fun v i => setLane (setLane v (i * 2 + 0) (some (f i))) (i * 2 + 1) (some (g i)))
        init) j
      = if j.val / 2 < m then some (if j.val % 2 = 0 then f (j.val / 2) else g (j.val / 2))
        else init j := by
  induction m with
  | zero => simp
  | succ m ih =>
    rw [List.range_succ, List.foldl_append, List.foldl_cons, List.foldl_nil]
    rw [setLane_apply, setLane_apply, ih]
    by_cases h1 : j.val = m * 2 + 1
    · have e1 : j.val / 2 = m := by omega
      have e2 : ¬ j.val % 2 = 0 := by omega
      rw [if_pos h1, if_pos (by omega), if_neg e2, e1]
    · rw [if_neg h1]
      by_cases h0 : j.val = m * 2 + 0
      · have e1 : j.val / 2 = m := by omega
        have e2 : j.val % 2 = 0 := by omega
        rw [if_pos h0, if_pos (by omega), if_pos e2, e1]
      · rw [if_neg h0]
        have e : j.val / 2 < m + 1 ↔ j.val / 2 < m := by omega
        by_cases hm : j.val / 2 < m
        · rw [if_pos hm, if_pos (e.2 hm)]
        · rw [if_neg hm, if_neg (fun hn => hm (e.1 hn))]

theorem scalar_unpacklo_loop_apply {α : Type} [Inhabited α] {N : Nat} (hN : N % 2 = 0)
    (a b : scalar_type α N) (j : Fin N) :
    scalar_unpacklo_loop a b j
      = some (if j.val % 2 = 0 then getLane a (j.val / 2) else getLane b (j.val / 2)) := by
  unfold scalar_unpacklo_loop
  rw [unpack_fold (fun i => getLane a i) (fun i => getLane b i), if_pos (by have := j.isLt; omega)]

theorem scalar_unpackhi_loop_apply {α : Type} [Inhabited α] {N : Nat} (hN : N % 2 = 0)
    (a b : scalar_type α N) (j : Fin N) :
    scalar_unpackhi_loop a b j
      = some (if j.val % 2 = 0 then getLane a (j.val / 2 + N / 2)
          else getLane b (j.val / 2 + N / 2)) := by
  unfold scalar_unpackhi_loop
  rw [unpack_fold (fun i => getLane a (i + N / 2)) (fun i => getLane b (i + N / 2)),
    if_pos (by have := j.isLt; omega)]

theorem getLane_of_lt {α : Type} [Inhabited α] {N : Nat} (v : scalar_type α N) (k : Nat)
    (h : k < N) : getLane v k = v ⟨k, h⟩ := by
  unfold getLane
  rw [dif_pos h]
/-- C18: unpacklo interleaves the low halves. For a vector type of `N` lanes,
`N` being 16, 8 or 4, all `a`, `b` and every `i < N/2`, lane `2i` of
`scalar_unpacklo(a, b)` is `a[i]` and lane `2i+1` is `b[i]`; and the loop assigns
every one of the `N` lanes of the result, which is declared without an
initialiser. -/
theorem scalar_unpacklo_lanes {α : Type} [Inhabited α] (N : Nat)
    (hN : N = 16 ∨ N = 8 ∨ N = 4) (a b : scalar_type α N) (i : Nat) (hi : i < N / 2) :
    getLane (scalar_unpacklo a b) (2 * i) = getLane a i ∧
    getLane (scalar_unpacklo a b) (2 * i + 1) = getLane b i ∧
    ∀ j : Fin N, (scalar_unpacklo_loop a b j).isSome = true := by
  have hE : N % 2 = 0 := by omega
  refine ⟨?_, ?_, ?_⟩
  · rw [getLane_of_lt _ (2 * i) (by omega)]
    unfold scalar_unpacklo
    rw [scalar_unpacklo_loop_apply hE]
    simp only [Option.getD_some]
    rw [if_pos (by omega), show 2 * i / 2 = i by omega]
  · rw [getLane_of_lt _ (2 * i + 1) (by omega)]
    unfold scalar_unpacklo
    rw [scalar_unpacklo_loop_apply hE]
    simp only [Option.getD_some]
    rw [if_neg (by omega), show (2 * i + 1) / 2 = i by omega]
  · intro j
    rw [scalar_unpacklo_loop_apply hE]
    rfl

/-- The hypotheses of C18 hold for four lanes and `i = 1` with
`a = [10, 11, 12, 13]`, `b = [20, 21, 22, 23]`: lanes 2 and 3 of the result are
`a[1] = 11` and `b[1] = 21`. -/
theorem scalar_unpacklo_lanes_witness :
    ((4 = 16 ∨ 4 = 8 ∨ 4 = 4) ∧ 1 < 4 / 2) ∧
    (getLane (scalar_unpacklo unpack_example_a unpack_example_b) (2 * 1)
        = getLane unpack_example_a 1 ∧
      getLane (scalar_unpacklo unpack_example_a unpack_example_b) (2 * 1 + 1)
        = getLane unpack_example_b 1 ∧
      ∀ j : Fin 4, (scalar_unpacklo_loop unpack_example_a unpack_example_b j).isSome = true) ∧
    getLane (scalar_unpacklo unpack_example_a unpack_example_b) 2 = 11 ∧
    getLane (scalar_unpacklo unpack_example_a unpack_example_b) 3 = 21 :=
  ⟨⟨by decide, by decide⟩,
    scalar_unpacklo_lanes 4 (by decide) unpack_example_a unpack_example_b 1 (by decide),
    by decide, by decide⟩

/-- C19: unpackhi interleaves the high halves. For a vector type of `N` lanes,
`N` being 16, 8 or 4, all `a`, `b` and every `i < N/2`, lane `2i` of
`scalar_unpackhi(a, b)` is `a[i + N/2]` and lane `2i+1` is `b[i + N/2]`, and the
loop assigns every lane of the result. -/
theorem scalar_unpackhi_lanes {α : Type} [Inhabited α] (N : Nat)
    (hN : N = 16 ∨ N = 8 ∨ N = 4) (a b : scalar_type α N) (i : Nat) (hi : i < N / 2) :
    getLane (scalar_unpackhi a b) (2 * i) = getLane a (i + N / 2) ∧
    getLane (scalar_unpackhi a b) (2 * i + 1) = getLane b (i + N / 2) ∧
    ∀ j : Fin N, (scalar_unpackhi_loop a b j).isSome = true := by
  have hE : N % 2 = 0 := by omega
  refine ⟨?_, ?_, ?_⟩
  · rw [getLane_of_lt _ (2 * i) (by omega)]
    unfold scalar_unpackhi
    rw [scalar_unpackhi_loop_apply hE]
    simp only [Option.getD_some]
    rw [if_pos (by omega), show 2 * i / 2 = i by omega]
  · rw [getLane_of_lt _ (2 * i + 1) (by omega)]
    unfold scalar_unpackhi
    rw [scalar_unpackhi_loop_apply hE]
    simp only [Option.getD_some]
    rw [if_neg (by omega), show (2 * i + 1) / 2 = i by omega]
  · intro j
    rw [scalar_unpackhi_loop_apply hE]
    rfl

/-- The hypotheses of C19 hold for four lanes and `i = 1` with
`a = [10, 11, 12, 13]`, `b = [20, 21, 22, 23]`: lanes 2 and 3 of the result are
`a[3] = 13` and `b[3] = 23`. -/
theorem scalar_unpackhi_lanes_witness :
    ((4 = 16 ∨ 4 = 8 ∨ 4 = 4) ∧ 1 < 4 / 2) ∧
    (getLane (scalar_unpackhi unpack_example_a unpack_example_b) (2 * 1)
        = getLane unpack_example_a (1 + 4 / 2) ∧
      getLane (scalar_unpackhi unpack_example_a unpack_example_b) (2 * 1 + 1)
        = getLane unpack_example_b (1 + 4 / 2) ∧
      ∀ j : Fin 4, (scalar_unpackhi_loop unpack_example_a unpack_example_b j).isSome = true) ∧
    getLane (scalar_unpackhi unpack_example_a unpack_example_b) 2 = 13 ∧
    getLane (scalar_unpackhi unpack_example_a unpack_example_b) 3 = 23 :=
  ⟨⟨by decide, by decide⟩,
    scalar_unpackhi_lanes 4 (by decide) unpack_example_a unpack_example_b 1 (by decide),
    by decide, by decide⟩
/-! ## pack -/

theorem clamp_range (z lo hi : Int) (h : lo ≤ hi) : lo ≤ clamp z lo hi ∧ clamp z lo hi ≤ hi := by
  unfold clamp
  split_ifs <;> omega

theorem clamp_clamp_byte (z : Int) : clamp (clamp z (-32768) 32767) 0 255 = clamp z 0 255 := by
  unfold clamp
  split_ifs <;> omega

theorem toSigned16_toUnsigned16 (c : Int) (h : -32768 ≤ c ∧ c ≤ 32767) :
    toSigned 16 (toUnsigned 16 c) = c := by
  have h1 := toUnsigned_cast 16 c
  have h2 := toUnsigned_lt 16 c
  generalize toUnsigned 16 c = u at h1 h2 ⊢
  rw [toSigned_of_lt u h2]
  norm_num at h1 h2 ⊢
  split_ifs <;> omega

theorem toUnsigned_byte (w : Nat) (hw : 8 ≤ w) (c : Int) (h : 0 ≤ c ∧ c ≤ 255) :
    ((toUnsigned w c : Nat) : Int) = c := by
  have hp : (2 : Int) ^ 8 ≤ 2 ^ w := pow_le_pow_right₀ (by norm_num) hw
  rw [toUnsigned_cast, Int.emod_eq_of_lt h.1 (by norm_num at hp; omega)]

theorem lane32_zero_bytes (v : Nat) :
    lane 32 0 v = lane 8 0 v + 2 ^ 8 * lane 8 1 v + 2 ^ 16 * lane 8 2 v + 2 ^ 24 * lane 8 3 v := by
  unfold lane
  norm_num
  omega

theorem lane8_pack_bytes (s j : Nat) (hj : j < 4) :
    ((lane 8 j (_mm_packus_epi16 (_mm_packs_epi32 s s) (_mm_packs_epi32 s s)) : Nat) : Int)
      = clamp (toSigned 32 (lane 32 j s)) 0 255 := by
  unfold _mm_packus_epi16
  rw [lane_lanewise _ _ _ _ (by omega), if_pos (by omega)]
  unfold _mm_packs_epi32
  rw [lane_lanewise _ _ _ _ (by omega), if_pos hj, Nat.mod_eq_of_lt (toUnsigned_lt 16 _),
    toSigned16_toUnsigned16 _ (clamp_range _ _ _ (by norm_num)), clamp_clamp_byte,
    Nat.mod_eq_of_lt (toUnsigned_lt 8 _)]
  exact toUnsigned_byte 8 (le_refl _) _ (clamp_range _ _ _ (by norm_num))

theorem sse_pack_eq (s : Nat) :
    ((sse.pack s : Nat) : Int)
      = clamp (toSigned 32 (lane 32 0 s)) 0 255
        + clamp (toSigned 32 (lane 32 1 s)) 0 255 * 2 ^ 8
        + clamp (toSigned 32 (lane 32 2 s)) 0 255 * 2 ^ 16
        + clamp (toSigned 32 (lane 32 3 s)) 0 255 * 2 ^ 24 := by
  unfold sse.pack _mm_cvtsi128_si32
  simp only []
  rw [lane32_zero_bytes]
  push_cast
  rw [lane8_pack_bytes s 0 (by decide), lane8_pack_bytes s 1 (by decide),
    lane8_pack_bytes s 2 (by decide), lane8_pack_bytes s 3 (by decide)]
  ring

theorem or_shift_bytes (x y z w : Nat) (hx : x < 2 ^ 8) (hy : y < 2 ^ 8) (hz : z < 2 ^ 8)
    (hw : w < 2 ^ 8) :
    (x ||| ((y <<< 8) % 2 ^ 32) ||| ((z <<< 16) % 2 ^ 32) ||| ((w <<< 24) % 2 ^ 32)) % 2 ^ 32
      = x + y * 2 ^ 8 + z * 2 ^ 16 + w * 2 ^ 24 := by
  have e1 : (y <<< 8) % 2 ^ 32 = 2 ^ 8 * y := by rw [Nat.shiftLeft_eq]; omega
  have e2 : (z <<< 16) % 2 ^ 32 = 2 ^ 16 * z := by rw [Nat.shiftLeft_eq]; omega
  have e3 : (w <<< 24) % 2 ^ 32 = 2 ^ 24 * w := by rw [Nat.shiftLeft_eq]; omega
  rw [e1, e2, e3]
  have s1 : x ||| 2 ^ 8 * y = 2 ^ 8 * y + x := by
    rw [Nat.or_comm]
    exact (Nat.mul_add_lt_is_or hx y).symm
  have s2 : (2 ^ 8 * y + x) ||| 2 ^ 16 * z = 2 ^ 16 * z + (2 ^ 8 * y + x) := by
    rw [Nat.or_comm]
    exact (Nat.mul_add_lt_is_or (by omega) z).symm
  have s3 : (2 ^ 16 * z + (2 ^ 8 * y + x)) ||| 2 ^ 24 * w
      = 2 ^ 24 * w + (2 ^ 16 * z + (2 ^ 8 * y + x)) := by
    rw [Nat.or_comm]
    exact (Nat.mul_add_lt_is_or (by omega) w).symm
  rw [s1, s2, s3]
  omega

theorem portable_pack_eq (bc : Int → Int) (hbc : ∀ z, bc z = clamp z 0 255)
    (v : scalar_type Int 4) :
    ((portable.pack bc v : Nat) : Int)
      = clamp (v 0) 0 255 + clamp (v 1) 0 255 * 2 ^ 8 + clamp (v 2) 0 255 * 2 ^ 16
        + clamp (v 3) 0 255 * 2 ^ 24 := by
  have hb : ∀ z : Int, toUnsigned 32 (bc z) < 2 ^ 8 ∧
      ((toUnsigned 32 (bc z) : Nat) : Int) = clamp z 0 255 := by
    intro z
    have hr := clamp_range z 0 255 (by norm_num)
    have hc := toUnsigned_byte 32 (by norm_num) (clamp z 0 255) hr
    rw [hbc z]
    refine ⟨?_, hc⟩
    zify
    rw [hc]
    norm_num
    omega
  unfold portable.pack
  simp only []
  rw [or_shift_bytes _ _ _ _ (hb _).1 (hb _).1 (hb _).1 (hb _).1]
  push_cast
  rw [(hb _).2, (hb _).2, (hb _).2, (hb _).2]
/-- C20: pack byte-clamps each lane independently. For every register `s` read
as `int32x4`, the SSE2 `pack(s)` (`_mm_packs_epi32`, then `_mm_packus_epi16`, low
32 bits) is the sum over the four lanes of `clamp(s[i], 0, 255) * 2^(8i)`, lane 0
in the least significant byte, so lanes `[300, -10, 7, 255]` give the bytes
`255, 0, 7, 255`; and with a `byteclamp` that clamps into `[0, 255]` the portable
`pack` of any vector is the same sum of its lanes, so the two backends agree on
the same vector. -/
theorem pack_byte_clamps (s : Nat) (v : scalar_type Int 4) (bc : Int → Int)
    (hbc : ∀ z, bc z = clamp z 0 255) :
    ((sse.pack s : Nat) : Int)
      = clamp (lanesOf int32 4 s 0) 0 255 + clamp (lanesOf int32 4 s 1) 0 255 * 2 ^ 8
        + clamp (lanesOf int32 4 s 2) 0 255 * 2 ^ 16
        + clamp (lanesOf int32 4 s 3) 0 255 * 2 ^ 24 ∧
    sse.pack (_mm_set_epi32 255 7 (2 ^ 32 - 10) 300)
      = 255 + 0 * 2 ^ 8 + 7 * 2 ^ 16 + 255 * 2 ^ 24 ∧
    ((portable.pack bc v : Nat) : Int)
      = clamp (v 0) 0 255 + clamp (v 1) 0 255 * 2 ^ 8 + clamp (v 2) 0 255 * 2 ^ 16
        + clamp (v 3) 0 255 * 2 ^ 24 ∧
    sse.pack s = portable.pack bc (lanesOf int32 4 s) := by
  have h1 : ((sse.pack s : Nat) : Int)
      = clamp (lanesOf int32 4 s 0) 0 255 + clamp (lanesOf int32 4 s 1) 0 255 * 2 ^ 8
        + clamp (lanesOf int32 4 s 2) 0 255 * 2 ^ 16
        + clamp (lanesOf int32 4 s 3) 0 255 * 2 ^ 24 := sse_pack_eq s
  refine ⟨h1, by decide, portable_pack_eq bc hbc v, ?_⟩
  have h2 := portable_pack_eq bc hbc (lanesOf int32 4 s)
  exact_mod_cast h1.trans h2.symm

/-- The hypothesis of C20 holds for the `byteclamp` of the specification; with
it, and with the lanes `[300, -10, 7, 255]` in both backends, the conclusion is
obtained and the portable `pack` evaluates to the bytes `255, 0, 7, 255`. -/
theorem pack_byte_clamps_witness :
    (∀ z, byteclamp z = clamp z 0 255) ∧
    (((sse.pack (_mm_set_epi32 255 7 (2 ^ 32 - 10) 300) : Nat) : Int)
        = clamp (lanesOf int32 4 (_mm_set_epi32 255 7 (2 ^ 32 - 10) 300) 0) 0 255
          + clamp (lanesOf int32 4 (_mm_set_epi32 255 7 (2 ^ 32 - 10) 300) 1) 0 255 * 2 ^ 8
          + clamp (lanesOf int32 4 (_mm_set_epi32 255 7 (2 ^ 32 - 10) 300) 2) 0 255 * 2 ^ 16
          + clamp (lanesOf int32 4 (_mm_set_epi32 255 7 (2 ^ 32 - 10) 300) 3) 0 255 * 2 ^ 24 ∧
      sse.pack (_mm_set_epi32 255 7 (2 ^ 32 - 10) 300)
        = 255 + 0 * 2 ^ 8 + 7 * 2 ^ 16 + 255 * 2 ^ 24 ∧
      ((portable.pack byteclamp pack_example : Nat) : Int)
        = clamp (pack_example 0) 0 255 + clamp (pack_example 1) 0 255 * 2 ^ 8
          + clamp (pack_example 2) 0 255 * 2 ^ 16 + clamp (pack_example 3) 0 255 * 2 ^ 24 ∧
      sse.pack (_mm_set_epi32 255 7 (2 ^ 32 - 10) 300)
        = portable.pack byteclamp (lanesOf int32 4 (_mm_set_epi32 255 7 (2 ^ 32 - 10) 300))) ∧
    portable.pack byteclamp pack_example = 255 + 0 * 2 ^ 8 + 7 * 2 ^ 16 + 255 * 2 ^ 24 :=
  ⟨fun _ => rfl,
    pack_byte_clamps (_mm_set_epi32 255 7 (2 ^ 32 - 10) 300) pack_example byteclamp
      (fun _ => rfl),
    by decide⟩

/-! ## unpack -/

theorem lane16_split (i v : Nat) :
    lane 16 i v = lane 8 (2 * i) v + 2 ^ 8 * lane 8 (2 * i + 1) v := by
  unfold lane
  rw [show 8 * (2 * i + 1) = 16 * i + 8 by ring, show 8 * (2 * i) = 16 * i by ring, pow_add,
    ← Nat.div_div_eq_div_mul]
  generalize v / 2 ^ (16 * i) = u
  omega

theorem lane32_split (i v : Nat) :
    lane 32 i v = lane 16 (2 * i) v + 2 ^ 16 * lane 16 (2 * i + 1) v := by
  unfold lane
  rw [show 16 * (2 * i + 1) = 32 * i + 16 by ring, show 16 * (2 * i) = 32 * i by ring, pow_add,
    ← Nat.div_div_eq_div_mul]
  generalize v / 2 ^ (32 * i) = u
  omega

theorem lane_zero_reg (w i : Nat) : lane w i 0 = 0 := by
  unfold lane
  rw [Nat.zero_div, Nat.zero_mod]

theorem lane32_sse_unpack (s i : Nat) (hi : i < 4) :
    lane 32 i (sse.unpack s) = lane 8 i (s % 2 ^ 32) := by
  unfold sse.unpack _mm_cvtsi32_si128 _mm_setzero_si128
  simp only []
  rw [lane32_split]
  unfold _mm_unpacklo_epi16
  rw [lane_lanewise _ _ _ _ (by omega), lane_lanewise _ _ _ _ (by omega),
    if_pos (by omega), if_neg (by omega), lane_zero_reg, Nat.zero_mod, Nat.mul_zero,
    Nat.add_zero, show 2 * i / 2 = i by omega, Nat.mod_eq_of_lt (lane_lt _ _ _), lane16_split]
  unfold _mm_unpacklo_epi8
  rw [lane_lanewise _ _ _ _ (by omega), lane_lanewise _ _ _ _ (by omega),
    if_pos (by omega), if_neg (by omega), lane_zero_reg, Nat.zero_mod, Nat.mul_zero,
    Nat.add_zero, show 2 * i / 2 = i by omega, Nat.mod_eq_of_lt (lane_lt _ _ _)]

theorem lane32_sse_unpack_sse4_1 (s i : Nat) (hi : i < 4) :
    lane 32 i (sse.unpack_sse4_1 s) = lane 8 i (s % 2 ^ 32) := by
  unfold sse.unpack_sse4_1 _mm_cvtsi32_si128 _mm_cvtepu8_epi32
  simp only []
  rw [lane_lanewise _ _ _ _ hi]
  have := lane_lt 8 i (s % 2 ^ 32)
  omega

theorem int32_ofBits_byte (x : Nat) (hx : x < 256) : int32.ofBits x = (x : Int) := by
  show toSigned 32 x = (x : Int)
  rw [toSigned_of_lt x (by omega), if_pos (by norm_num; omega)]

theorem portable_unpack_apply (s : Nat) (hs : s < 2 ^ 32) (i : Fin 4) :
    portable.unpack s i = ((lane 8 i s : Nat) : Int) := by
  have h0 : (s >>> 0) &&& 0xff = lane 8 0 s := by
    rw [show (0xff : Nat) = 2 ^ 8 - 1 from rfl, Nat.and_pow_two_sub_one_eq_mod,
      Nat.shiftRight_eq_div_pow]
    rfl
  have h1 : (s >>> 8) &&& 0xff = lane 8 1 s := by
    rw [show (0xff : Nat) = 2 ^ 8 - 1 from rfl, Nat.and_pow_two_sub_one_eq_mod,
      Nat.shiftRight_eq_div_pow]
    rfl
  have h2 : (s >>> 16) &&& 0xff = lane 8 2 s := by
    rw [show (0xff : Nat) = 2 ^ 8 - 1 from rfl, Nat.and_pow_two_sub_one_eq_mod,
      Nat.shiftRight_eq_div_pow]
    rfl
  have h3 : s >>> 24 = lane 8 3 s := by
    rw [Nat.shiftRight_eq_div_pow]
    unfold lane
    norm_num at hs ⊢
    omega
  unfold portable.unpack
  simp only [h0, h1, h2, h3, setLane_apply]
  have hb := fun k => int32_ofBits_byte (lane 8 k s) (lane_lt 8 k s)
  have hi := i.isLt
  by_cases e3 : i.val = 3
  · rw [if_pos e3, hb, e3]
  · rw [if_neg e3]
    by_cases e2 : i.val = 2
    · rw [if_pos e2, hb, e2]
    · rw [if_neg e2]
      by_cases e1 : i.val = 1
      · rw [if_pos e1, hb, e1]
      · rw [if_neg e1, if_pos (by omega), hb, show i.val = 0 by omega]

theorem clamp_byte_id (z : Int) (h : 0 ≤ z ∧ z ≤ 255) : clamp z 0 255 = z := by
  unfold clamp
  split_ifs <;> omega

theorem unpack_of_byte_sum (P : Nat) (x0 x1 x2 x3 : Int) (h0 : 0 ≤ x0 ∧ x0 ≤ 255)
    (h1 : 0 ≤ x1 ∧ x1 ≤ 255) (h2 : 0 ≤ x2 ∧ x2 ≤ 255) (h3 : 0 ≤ x3 ∧ x3 ≤ 255)
    (hP : (P : Int) = x0 + x1 * 2 ^ 8 + x2 * 2 ^ 16 + x3 * 2 ^ 24) :
    P < 2 ^ 32 ∧ ((lane 8 0 P : Nat) : Int) = x0 ∧ ((lane 8 1 P : Nat) : Int) = x1 ∧
    ((lane 8 2 P : Nat) : Int) = x2 ∧ ((lane 8 3 P : Nat) : Int) = x3 := by
  unfold lane
  norm_num at hP ⊢
  omega

/-- C21: pack/unpack round trip. For every portable `int32x4` vector `v` whose
four lanes lie in `[0, 255]`, and a `byteclamp` that clamps into `[0, 255]`,
`unpack(pack(v))` is `v`; and for every register `s` whose four `int32x4` lanes
lie in `[0, 255]`, the SSE2 `unpack(pack(s))` holds the same vector as `s`. -/
theorem pack_unpack_roundtrip (v : scalar_type Int 4) (hv : ∀ i, 0 ≤ v i ∧ v i ≤ 255)
    (bc : Int → Int) (hbc : ∀ z, bc z = clamp z 0 255)
    (s : Nat) (hs : ∀ i, 0 ≤ lanesOf int32 4 s i ∧ lanesOf int32 4 s i ≤ 255) :
    portable.unpack (portable.pack bc v) = v ∧
    lanesOf int32 4 (sse.unpack (sse.pack s)) = lanesOf int32 4 s := by
  constructor
  · have hP := portable_pack_eq bc hbc v
    rw [clamp_byte_id _ (hv 0), clamp_byte_id _ (hv 1), clamp_byte_id _ (hv 2),
      clamp_byte_id _ (hv 3)] at hP
    obtain ⟨hlt, e0, e1, e2, e3⟩ :=
      unpack_of_byte_sum _ _ _ _ _ (hv 0) (hv 1) (hv 2) (hv 3) hP
    funext i
    rw [portable_unpack_apply _ hlt i]
    fin_cases i
    · exact e0
    · exact e1
    · exact e2
    · exact e3
  · have hP : ((sse.pack s : Nat) : Int)
        = clamp (lanesOf int32 4 s 0) 0 255 + clamp (lanesOf int32 4 s 1) 0 255 * 2 ^ 8
          + clamp (lanesOf int32 4 s 2) 0 255 * 2 ^ 16
          + clamp (lanesOf int32 4 s 3) 0 255 * 2 ^ 24 := sse_pack_eq s
    rw [clamp_byte_id _ (hs 0), clamp_byte_id _ (hs 1), clamp_byte_id _ (hs 2),
      clamp_byte_id _ (hs 3)] at hP
    obtain ⟨hlt, e0, e1, e2, e3⟩ :=
      unpack_of_byte_sum _ _ _ _ _ (hs 0) (hs 1) (hs 2) (hs 3) hP
    funext i
    show int32.ofBits (lane 32 i (sse.unpack (sse.pack s))) = _
    rw [lane32_sse_unpack _ _ i.isLt, Nat.mod_eq_of_lt hlt,
      int32_ofBits_byte _ (lane_lt 8 _ _)]
    fin_cases i
    · exact e0
    · exact e1
    · exact e2
    · exact e3

/-- The hypotheses of C21 hold for the vector `[0, 255, 7, 128]`, for the
`byteclamp` of the specification and for the register with the same lanes. -/
theorem pack_unpack_roundtrip_witness :
    ((∀ i, 0 ≤ roundtrip_example i ∧ roundtrip_example i ≤ 255) ∧
      (∀ z, byteclamp z = clamp z 0 255) ∧
      (∀ i, 0 ≤ lanesOf int32 4 (_mm_set_epi32 128 7 255 0) i ∧
        lanesOf int32 4 (_mm_set_epi32 128 7 255 0) i ≤ 255)) ∧
    (portable.unpack (portable.pack byteclamp roundtrip_example) = roundtrip_example ∧
      lanesOf int32 4 (sse.unpack (sse.pack (_mm_set_epi32 128 7 255 0)))
        = lanesOf int32 4 (_mm_set_epi32 128 7 255 0)) :=
  ⟨⟨by decide, fun _ => rfl, by decide⟩,
    pack_unpack_roundtrip roundtrip_example (by decide) byteclamp (fun _ => rfl)
      (_mm_set_epi32 128 7 255 0) (by decide)⟩

/-- C22: unpack splits the bytes in order, zero-extended. For every 32-bit word
`s` and lane `i`, lane `i` of the portable `unpack(s)` is `(s >> 8i) & 0xff`, a
value in `[0, 255]`, and the SSE2 `unpack` without SSE4.1 (two `unpacklo`
interleaves with zero), as well as the SSE4.1 form, holds the same lane. -/
theorem unpack_lanes (s : Nat) (hs : s < 2 ^ 32) (i : Fin 4) :
    portable.unpack s i = (((s >>> (8 * i.val)) &&& 0xff : Nat) : Int) ∧
    (0 ≤ portable.unpack s i ∧ portable.unpack s i ≤ 255) ∧
    lanesOf int32 4 (sse.unpack s) i = portable.unpack s i ∧
    lanesOf int32 4 (sse.unpack_sse4_1 s) i = portable.unpack s i := by
  have hp := portable_unpack_apply s hs i
  have hl := lane_lt 8 i s
  refine ⟨?_, ?_, ?_, ?_⟩
  · rw [hp, show (0xff : Nat) = 2 ^ 8 - 1 from rfl, Nat.and_pow_two_sub_one_eq_mod,
      Nat.shiftRight_eq_div_pow]
    rfl
  · rw [hp]
    norm_num at hl
    omega
  · show int32.ofBits (lane 32 i (sse.unpack s)) = _
    rw [lane32_sse_unpack _ _ i.isLt, Nat.mod_eq_of_lt hs, int32_ofBits_byte _ hl, hp]
  · show int32.ofBits (lane 32 i (sse.unpack_sse4_1 s)) = _
    rw [lane32_sse_unpack_sse4_1 _ _ i.isLt, Nat.mod_eq_of_lt hs, int32_ofBits_byte _ hl, hp]

/-- The hypothesis of C22 holds for the word `0x80FF0701` and lane 3, whose
byte is `0x80 = 128`. -/
theorem unpack_lanes_witness :
    (0x80FF0701 < 2 ^ 32) ∧
    (portable.unpack 0x80FF0701 3 = (((0x80FF0701 >>> (8 * (3 : Fin 4).val)) &&& 0xff : Nat) : Int) ∧
      (0 ≤ portable.unpack 0x80FF0701 3 ∧ portable.unpack 0x80FF0701 3 ≤ 255) ∧
      lanesOf int32 4 (sse.unpack 0x80FF0701) 3 = portable.unpack 0x80FF0701 3 ∧
      lanesOf int32 4 (sse.unpack_sse4_1 0x80FF0701) 3 = portable.unpack 0x80FF0701 3) ∧
    portable.unpack 0x80FF0701 3 = 128 :=
  ⟨by decide, unpack_lanes 0x80FF0701 (by decide) 3, by decide⟩

/-! ## get_mask -/

theorem sign_bit_mask (z : Int) (hz : int32.InRange z) :
    promoteBits z &&& 0x80000000 = if z < 0 then 2 ^ 31 else 0 := by
  have hz2 : -(2 ^ 31 : Int) ≤ z ∧ z < 2 ^ 31 := hz
  have hr : signedMin 32 ≤ z ∧ z ≤ signedMax 32 := by
    unfold signedMin signedMax
    norm_num at hz2 ⊢
    omega
  have hc := toUnsigned_of_signed (by decide : 0 < 32) z hr
  have hl := toUnsigned_lt 32 z
  have hb := testBit_msb (by decide : 0 < 32) hl
  unfold promoteBits intBits
  generalize toUnsigned 32 z = p at hc hl hb ⊢
  rw [show (0x80000000 : Nat) = 2 ^ 31 from rfl, Nat.and_two_pow, hb]
  norm_num at hc hl hz2 ⊢
  by_cases h : z < 0
  · rw [if_pos h] at hc
    rw [if_pos h, decide_eq_true (by omega)]
    rfl
  · rw [if_neg h] at hc
    rw [if_neg h, decide_eq_false (by omega)]
    rfl

theorem portable_get_mask_eq (a : scalar_type Int 4) (ha : ∀ i, int32.InRange (a i)) :
    portable.get_mask a
      = (if a 0 < 0 then 1 else 0) + (if a 1 < 0 then 1 else 0) * 2
        + (if a 2 < 0 then 1 else 0) * 4 + (if a 3 < 0 then 1 else 0) * 8 := by
  unfold portable.get_mask
  simp only [sign_bit_mask _ (ha _)]
  by_cases h0 : a 0 < 0 <;> by_cases h1 : a 1 < 0 <;> by_cases h2 : a 2 < 0 <;>
    by_cases h3 : a 3 < 0 <;> simp only [h0, h1, h2, h3, if_true, if_false] <;> decide

theorem lane32_top_bit (x : Nat) (hx : x < 2 ^ 32) :
    x >>> 31 = if toSigned 32 x < 0 then 1 else 0 := by
  rw [toSigned_of_lt x hx, Nat.shiftRight_eq_div_pow]
  norm_num at hx ⊢
  split_ifs <;> omega

theorem sse_get_mask_eq (s : Nat) :
    sse.get_mask s
      = (if lanesOf int32 4 s 0 < 0 then 1 else 0) + (if lanesOf int32 4 s 1 < 0 then 1 else 0) * 2
        + (if lanesOf int32 4 s 2 < 0 then 1 else 0) * 4
        + (if lanesOf int32 4 s 3 < 0 then 1 else 0) * 8 := by
  unfold sse.get_mask _mm_castsi128_ps _mm_movemask_ps lanewise
  rw [show List.range 4 = [0, 1, 2, 3] from rfl]
  simp only [List.map, ofLanes, lane32_top_bit _ (lane_lt 32 _ s)]
  show _ = (if toSigned 32 (lane 32 0 s) < 0 then 1 else 0)
      + (if toSigned 32 (lane 32 1 s) < 0 then 1 else 0) * 2
      + (if toSigned 32 (lane 32 2 s) < 0 then 1 else 0) * 4
      + (if toSigned 32 (lane 32 3 s) < 0 then 1 else 0) * 8
  split_ifs <;> rfl

theorem mask_sum_bits (p0 p1 p2 p3 : Prop) [Decidable p0] [Decidable p1] [Decidable p2]
    [Decidable p3] :
    ((if p0 then 1 else 0) + (if p1 then 1 else 0) * 2 + (if p2 then 1 else 0) * 4
        + (if p3 then 1 else 0) * 8 < 16) ∧
    (((if p0 then 1 else 0) + (if p1 then 1 else 0) * 2 + (if p2 then 1 else 0) * 4
        + (if p3 then 1 else 0) * 8).testBit 0 = decide p0) ∧
    (((if p0 then 1 else 0) + (if p1 then 1 else 0) * 2 + (if p2 then 1 else 0) * 4
        + (if p3 then 1 else 0) * 8).testBit 1 = decide p1) ∧
    (((if p0 then 1 else 0) + (if p1 then 1 else 0) * 2 + (if p2 then 1 else 0) * 4
        + (if p3 then 1 else 0) * 8).testBit 2 = decide p2) ∧
    (((if p0 then 1 else 0) + (if p1 then 1 else 0) * 2 + (if p2 then 1 else 0) * 4
        + (if p3 then 1 else 0) * 8).testBit 3 = decide p3) := by
  by_cases h0 : p0 <;> by_cases h1 : p1 <;> by_cases h2 : p2 <;> by_cases h3 : p3 <;>
    simp only [h0, h1, h2, h3, if_true, if_false] <;> decide

/-- C23: mask extraction. For every `int32x4` vector `a`, the portable
`get_mask(a)` is the sum over the four lanes of `[a[i] < 0] * 2^i`: a value below
16 whose bit `i` is the sign bit of lane `i`; and for every register the SSE2
`get_mask` returns what the portable one returns on the same vector. -/
theorem get_mask_bits (a : scalar_type Int 4) (ha : ∀ i, int32.InRange (a i)) (s : Nat) :
    portable.get_mask a
      = (if a 0 < 0 then 1 else 0) + (if a 1 < 0 then 1 else 0) * 2
        + (if a 2 < 0 then 1 else 0) * 4 + (if a 3 < 0 then 1 else 0) * 8 ∧
    portable.get_mask a < 16 ∧
    ((portable.get_mask a).testBit 0 = decide (a 0 < 0) ∧
      (portable.get_mask a).testBit 1 = decide (a 1 < 0) ∧
      (portable.get_mask a).testBit 2 = decide (a 2 < 0) ∧
      (portable.get_mask a).testBit 3 = decide (a 3 < 0)) ∧
    sse.get_mask s = portable.get_mask (lanesOf int32 4 s) := by
  have h := portable_get_mask_eq a ha
  have hb := mask_sum_bits (a 0 < 0) (a 1 < 0) (a 2 < 0) (a 3 < 0)
  rw [← h] at hb
  refine ⟨h, hb.1, hb.2, ?_⟩
  have hr : ∀ i, int32.InRange (lanesOf int32 4 s i) := by
    intro i
    have hl := lane_lt 32 i s
    show -(2 ^ 31 : Int) ≤ toSigned 32 (lane 32 i s) ∧ toSigned 32 (lane 32 i s) < 2 ^ 31
    rw [toSigned_of_lt _ hl]
    norm_num at hl ⊢
    split_ifs <;> omega
  rw [sse_get_mask_eq, portable_get_mask_eq _ hr]

/-- The scenario of the specification for C23: lanes 0 and 2 negative, lanes 1
and 3 not; the lanes are `int32` values and `get_mask` returns `0b0101 = 5`. -/
theorem get_mask_bits_witness :
    (∀ i, int32.InRange (get_mask_example i)) ∧
    (portable.get_mask get_mask_example
        = (if get_mask_example 0 < 0 then 1 else 0)
          + (if get_mask_example 1 < 0 then 1 else 0) * 2
          + (if get_mask_example 2 < 0 then 1 else 0) * 4
          + (if get_mask_example 3 < 0 then 1 else 0) * 8 ∧
      portable.get_mask get_mask_example < 16 ∧
      ((portable.get_mask get_mask_example).testBit 0 = decide (get_mask_example 0 < 0) ∧
        (portable.get_mask get_mask_example).testBit 1 = decide (get_mask_example 1 < 0) ∧
        (portable.get_mask get_mask_example).testBit 2 = decide (get_mask_example 2 < 0) ∧
        (portable.get_mask get_mask_example).testBit 3 = decide (get_mask_example 3 < 0)) ∧
      sse.get_mask (_mm_set_epi32 0x7FFFFFFF 0x80000000 0 0xFFFFFFFF)
        = portable.get_mask
            (lanesOf int32 4 (_mm_set_epi32 0x7FFFFFFF 0x80000000 0 0xFFFFFFFF))) ∧
    portable.get_mask get_mask_example = 5 ∧
    sse.get_mask (_mm_set_epi32 0x7FFFFFFF 0x80000000 0 0xFFFFFFFF) = 5 :=
  ⟨by decide,
    get_mask_bits get_mask_example (by decide)
      (_mm_set_epi32 0x7FFFFFFF 0x80000000 0 0xFFFFFFFF),
    by decide, by decide⟩

/-! ## nand -/

theorem ofBits_mod (T : ScalarType) (u : Nat) : T.ofBits (u % 2 ^ T.bits) = T.ofBits u := by
  unfold ScalarType.ofBits toSigned
  rw [Nat.mod_mod]

theorem toUnsigned_ofBits (T : ScalarType) (u : Nat) :
    toUnsigned T.bits (T.ofBits u) = u % 2 ^ T.bits := by
  unfold ScalarType.ofBits
  cases T.isSigned
  · simp only [Bool.false_eq_true, if_false]
    rw [toUnsigned_natCast, Nat.mod_mod]
  · simp only [if_true]
    zify
    rw [toUnsigned_cast, toSigned_emod]

theorem promoteBits_mod (w : Nat) (hw : w ≤ 32) (z : Int) :
    promoteBits z % 2 ^ w = toUnsigned w z := by
  unfold promoteBits intBits
  zify
  rw [toUnsigned_cast, toUnsigned_cast]
  exact Int.emod_emod_of_dvd z (pow_dvd_pow 2 hw)

theorem andnot_mod (w p q : Nat) (hw : w ≤ 32) :
    (bitNot p &&& q) % 2 ^ w = (2 ^ w - 1 - p % 2 ^ w) &&& (q % 2 ^ w) := by
  have h1 : p % 2 ^ w < 2 ^ w := Nat.mod_lt _ (Nat.pos_pow_of_pos w (by decide))
  rw [show 2 ^ w - 1 - p % 2 ^ w = 2 ^ w - (p % 2 ^ w + 1) by omega]
  apply Nat.eq_of_testBit_eq
  intro k
  rw [Nat.testBit_mod_two_pow, Nat.testBit_and, Nat.testBit_and, testBit_bitNot,
    Nat.testBit_two_pow_sub_succ h1, Nat.testBit_mod_two_pow, Nat.testBit_mod_two_pow]
  by_cases hk : k < w
  · have h32 : k < 32 := by omega
    simp [hk, h32]
  · simp [hk]

theorem andnot_self (w u : Nat) (hu : u < 2 ^ w) : (2 ^ w - 1 - u) &&& u = 0 := by
  rw [show 2 ^ w - 1 - u = 2 ^ w - (u + 1) by omega]
  apply Nat.eq_of_testBit_eq
  intro k
  rw [Nat.testBit_and, Nat.testBit_two_pow_sub_succ hu, Nat.zero_testBit]
  cases u.testBit k <;> simp

theorem scalar_nand_eq (T : ScalarType) (hT : T.bits = 8 ∨ T.bits = 16 ∨ T.bits = 32)
    (a b : Int) :
    scalar_nand T a b
      = T.ofBits ((2 ^ T.bits - 1 - toUnsigned T.bits a) &&& toUnsigned T.bits b) := by
  have hw : T.bits ≤ 32 := by omega
  unfold scalar_nand
  rw [← ofBits_mod, andnot_mod _ _ _ hw, promoteBits_mod _ hw, promoteBits_mod _ hw]

theorem convert_of_inRange (T : ScalarType) (hT : T.bits = 8 ∨ T.bits = 16 ∨ T.bits = 32)
    (z : Int) (hz : T.InRange z) : T.ofBits (toUnsigned T.bits z) = z := by
  have h := ofBits_promoteBits T hT z hz
  rw [← ofBits_mod, promoteBits_mod _ (by omega)] at h
  exact h

theorem ofBits_zero (T : ScalarType) : T.ofBits 0 = 0 := by
  unfold ScalarType.ofBits toSigned
  have hp : 0 < 2 ^ (T.bits - 1) := Nat.pos_pow_of_pos _ (by decide)
  cases T.isSigned <;> simp [hp]

/-- C24: nand is and-not of the first operand. For a lane type `T` of 8, 16 or
32 bits and vectors `a`, `b`, the bits of lane `i` of the portable `nand(a, b)`
are `(~a[i]) & b[i]`, so `nand(a, a)` is zero and `nand(0, b)` is `b`; lane `j` of
the SSE2 `nand` (`_mm_andnot_si128`) is `(~A[j]) & B[j]` as well and holds the
value the portable `nand` returns; and this is not `~(a & b)`, which at
`a = b = 0` is all ones while `nand(0, 0)` is zero. -/
theorem nand_is_andnot (T : ScalarType) (hT : T.bits = 8 ∨ T.bits = 16 ∨ T.bits = 32)
    (Size : Nat) (a b : scalar_type Int Size) (i : Fin Size) (hb : T.InRange (b i))
    (A B : Nat) (n : Nat) (j : Fin n) (hj : T.bits * j + T.bits ≤ 128) :
    toUnsigned T.bits (portable.nand T a b i)
      = (2 ^ T.bits - 1 - toUnsigned T.bits (a i)) &&& toUnsigned T.bits (b i) ∧
    portable.nand T a a i = 0 ∧
    portable.nand T (fun _ => 0) b i = b i ∧
    lane T.bits j (sse.nand A B) = (2 ^ T.bits - 1 - lane T.bits j A) &&& lane T.bits j B ∧
    lanesOf T n (sse.nand A B) j = portable.nand T (lanesOf T n A) (lanesOf T n B) j ∧
    (scalar_nand T 0 0 = 0 ∧
      T.ofBits (bitNot (promoteBits 0 &&& promoteBits 0)) = T.allOnes ∧ T.allOnes ≠ 0) := by
  have hp : ∀ x y : scalar_type Int Size, portable.nand T x y i
      = T.ofBits ((2 ^ T.bits - 1 - toUnsigned T.bits (x i)) &&& toUnsigned T.bits (y i)) := by
    intro x y
    unfold portable.nand
    rw [scalar_unroll_apply, scalar_nand_eq T hT]
  have hlane : lane T.bits j (sse.nand A B)
      = (2 ^ T.bits - 1 - lane T.bits j A) &&& lane T.bits j B := by
    unfold sse.nand _mm_andnot_si128
    rw [lane_and, lane_not128 _ _ _ hj]
  refine ⟨?_, ?_, ?_, hlane, ?_, ?_⟩
  · rw [hp, toUnsigned_ofBits]
    exact Nat.mod_eq_of_lt (lt_of_le_of_lt Nat.and_le_right (toUnsigned_lt _ _))
  · rw [hp, andnot_self _ _ (toUnsigned_lt _ _), ofBits_zero]
  · rw [hp]
    have h0 : toUnsigned T.bits 0 = 0 := by
      unfold toUnsigned
      simp
    rw [h0, Nat.sub_zero, Nat.and_comm, Nat.and_pow_two_sub_one_eq_mod,
      Nat.mod_eq_of_lt (toUnsigned_lt _ _), convert_of_inRange T hT _ hb]
  · unfold portable.nand
    rw [scalar_unroll_apply, scalar_nand_eq T hT]
    unfold lanesOf
    rw [hlane, toUnsigned_ofBits, toUnsigned_ofBits, Nat.mod_eq_of_lt (lane_lt _ _ _),
      Nat.mod_eq_of_lt (lane_lt _ _ _)]
  · obtain ⟨w, s⟩ := T
    simp only at hT
    cases s <;> rcases hT with rfl | rfl | rfl <;> decide

/-- The hypotheses of C24 hold for `uint8` lanes of the select example vectors
and for byte lane 1 of two registers. -/
theorem nand_is_andnot_witness :
    ((uint8.bits = 8 ∨ uint8.bits = 16 ∨ uint8.bits = 32) ∧
      uint8.InRange (select_example_b 0) ∧ uint8.bits * (1 : Fin 16).val + uint8.bits ≤ 128) ∧
    (toUnsigned uint8.bits (portable.nand uint8 select_example_a select_example_b 0)
        = (2 ^ uint8.bits - 1 - toUnsigned uint8.bits (select_example_a 0))
          &&& toUnsigned uint8.bits (select_example_b 0) ∧
      portable.nand uint8 select_example_a select_example_a 0 = 0 ∧
      portable.nand uint8 (fun _ => 0) select_example_b 0 = select_example_b 0 ∧
      lane uint8.bits (1 : Fin 16).val (sse.nand 0x0605 0x0807)
        = (2 ^ uint8.bits - 1 - lane uint8.bits (1 : Fin 16).val 0x0605)
          &&& lane uint8.bits (1 : Fin 16).val 0x0807 ∧
      lanesOf uint8 16 (sse.nand 0x0605 0x0807) 1
        = portable.nand uint8 (lanesOf uint8 16 0x0605) (lanesOf uint8 16 0x0807) 1 ∧
      (scalar_nand uint8 0 0 = 0 ∧
        uint8.ofBits (bitNot (promoteBits 0 &&& promoteBits 0)) = uint8.allOnes ∧
        uint8.allOnes ≠ 0)) ∧
    portable.nand uint8 select_example_a select_example_b 0 = 2 :=
  ⟨⟨by decide, by decide, by decide⟩,
    nand_is_andnot uint8 (by decide) 16 select_example_a select_example_b 0 (by decide)
      0x0605 0x0807 16 1 (by decide),
    by decide⟩

/-! ## Absolute value -/

theorem scalar_unroll_unary_apply {α : Type} [Inhabited α] {Size : Nat} (func : α → α)
    (a : scalar_type α Size) (i : Fin Size) :
    scalar_unroll_unary func a i = func (a i) := by
  unfold scalar_unroll_unary
  rw [foldl_update_apply (fun i => func (a i))]
  simp [List.mem_finRange]

/-- The pattern of the absolute value of the signed reading of `x`. -/
theorem abs_pattern {w : Nat} (hw : 0 < w) (x : Nat) (hx : x < 2 ^ w) :
    toUnsigned w (if toSigned w x < 0 then -toSigned w x else toSigned w x)
      = if x < 2 ^ (w - 1) then x else 2 ^ w - x := by
  have hp := pow_pred_double hw
  have hH : 0 < 2 ^ (w - 1) := Nat.pos_pow_of_pos _ (by decide)
  have hpi : (2 : Int) ^ w = 2 * 2 ^ (w - 1) := by exact_mod_cast hp
  have hc : ((2 ^ (w - 1) : Nat) : Int) = 2 ^ (w - 1) := by push_cast; rfl
  have hcw : ((2 ^ w : Nat) : Int) = 2 ^ w := by push_cast; rfl
  have h := toUnsigned_cast w (if toSigned w x < 0 then -toSigned w x else toSigned w x)
  rw [toSigned_of_lt x hx] at h ⊢
  rw [emod_range _ _ (by split_ifs <;> omega) (by split_ifs <;> omega)] at h
  generalize toUnsigned w _ = r at h ⊢
  generalize (2 : Nat) ^ w = M at *
  generalize (2 : Nat) ^ (w - 1) = H at *
  generalize (2 : Int) ^ w = Mi at *
  generalize (2 : Int) ^ (w - 1) = Hi at *
  split_ifs at h ⊢ <;> omega

/-- An arithmetic shift by `w - 1` leaves the sign mask. -/
theorem sign_mask_pattern {w : Nat} (hw : 0 < w) (x : Nat) (hx : x < 2 ^ w) :
    toUnsigned w (toSigned w x / 2 ^ (w - 1)) = if x < 2 ^ (w - 1) then 0 else 2 ^ w - 1 := by
  have hp := pow_pred_double hw
  have hH : (0 : Int) < 2 ^ (w - 1) := by positivity
  have hpi : (2 : Int) ^ w = 2 * 2 ^ (w - 1) := by exact_mod_cast hp
  have hc : ((2 ^ (w - 1) : Nat) : Int) = 2 ^ (w - 1) := by push_cast; rfl
  have hcw : ((2 ^ w : Nat) : Int) = 2 ^ w := by push_cast; rfl
  have hxi : (x : Int) < 2 ^ w := by exact_mod_cast hx
  rw [toSigned_of_lt x hx]
  split_ifs with h
  · have hxl : (x : Int) < 2 ^ (w - 1) := by rw [← hc]; exact_mod_cast h
    rw [Int.ediv_eq_zero_of_lt (by omega) hxl]
    rfl
  · have hxl : (2 : Int) ^ (w - 1) ≤ x := by rw [← hc]; exact_mod_cast (not_lt.mp h)
    have hq : ((x : Int) - 2 ^ w) / 2 ^ (w - 1) = -1 :=
      ((Int.ediv_emod_unique hH).mpr
        (⟨by rw [hpi]; ring, by omega, by omega⟩ :
          ((x : Int) - 2 ^ (w - 1)) + 2 ^ (w - 1) * (-1) = (x : Int) - 2 ^ w
            ∧ 0 ≤ (x : Int) - 2 ^ (w - 1) ∧ (x : Int) - 2 ^ (w - 1) < 2 ^ (w - 1))).1
    rw [hq]
    have h1 := toUnsigned_cast w (-1)
    rw [emod_range _ _ (by omega) (by omega)] at h1
    simp only [show ((-1 : Int) < 0) from by decide, if_true] at h1
    have hM : 0 < 2 ^ w := Nat.pos_pow_of_pos _ (by decide)
    omega

theorem xor_allOnes {w : Nat} (x : Nat) (hx : x < 2 ^ w) : x ^^^ (2 ^ w - 1) = 2 ^ w - 1 - x := by
  have hM : 0 < 2 ^ w := Nat.pos_pow_of_pos _ (by decide)
  rw [show 2 ^ w - 1 - x = 2 ^ w - (x + 1) by omega,
    show 2 ^ w - 1 = 2 ^ w - (0 + 1) by omega]
  apply Nat.eq_of_testBit_eq
  intro k
  rw [Nat.testBit_xor, Nat.testBit_two_pow_sub_succ hx, Nat.testBit_two_pow_sub_succ hM]
  by_cases hk : k < w
  · simp [hk]
  · have : x.testBit k = false := Nat.testBit_lt_two_pow (lt_of_lt_of_le hx
      (Nat.pow_le_pow_right (by decide) (not_lt.mp hk)))
    simp [hk, this]

/-- The sequence `(x xor m) - m` with the sign mask `m` gives the pattern of
the absolute value. -/
theorem xor_sub_pattern {w : Nat} (hw : 0 < w) (x : Nat) (hx : x < 2 ^ w) :
    toUnsigned w
        (((x ^^^ (if x < 2 ^ (w - 1) then 0 else 2 ^ w - 1) : Nat) : Int)
          - ((if x < 2 ^ (w - 1) then 0 else 2 ^ w - 1 : Nat) : Int))
      = if x < 2 ^ (w - 1) then x else 2 ^ w - x := by
  have hp := pow_pred_double hw
  have hH : 0 < 2 ^ (w - 1) := Nat.pos_pow_of_pos _ (by decide)
  split_ifs with h
  · rw [Nat.xor_zero, toUnsigned_sub x 0 hx (by omega)]
    simp
  · rw [xor_allOnes x hx, toUnsigned_sub _ _ (by omega) (by omega)]
    split_ifs <;> omega

theorem lane8_abs_int8x16 (a i : Nat) (hi : i < 16) :
    lane 8 i (sse.abs_int8x16 a)
      = if lane 8 i a < 2 ^ 7 then lane 8 i a else 2 ^ 8 - lane 8 i a := by
  have hx := lane_lt 8 i a
  have hz : lane 8 i (0 : Nat) = 0 := lane_zero_reg 8 i
  unfold sse.abs_int8x16
  simp only [_mm_setzero_si128]
  rw [lane_select_of_cond 8 i _ _ _ _ (by decide) (by omega) (lane8_cmpgt_epi8 0 a i hi)]
  unfold _mm_sub_epi8
  rw [lane_lanewise _ _ _ _ hi, hz, Nat.mod_eq_of_lt (toUnsigned_lt _ _),
    toSigned_of_lt (lane 8 i a) hx, toSigned_of_lt 0 (by decide)]
  have hs := toUnsigned_sub 0 (lane 8 i a) (by decide : 0 < 2 ^ 8) hx
  rw [hs]
  generalize lane 8 i a = x at *
  norm_num at hx ⊢
  split_ifs <;> omega

theorem lane16_abs_int16x8 (a i : Nat) (hi : i < 8) :
    lane 16 i (sse.abs_int16x8 a)
      = if lane 16 i a < 2 ^ 15 then lane 16 i a else 2 ^ 16 - lane 16 i a := by
  have hx := lane_lt 16 i a
  have hm : lane 16 i (_mm_srai_epi16 a 15)
      = if lane 16 i a < 2 ^ (16 - 1) then 0 else 2 ^ 16 - 1 := by
    unfold _mm_srai_epi16
    rw [lane_lanewise _ _ _ _ hi, Nat.mod_eq_of_lt (toUnsigned_lt _ _)]
    exact sign_mask_pattern (by decide) _ hx
  unfold sse.abs_int16x8 _mm_sub_epi16 _mm_xor_si128
  rw [lane_lanewise _ _ _ _ hi, Nat.mod_eq_of_lt (toUnsigned_lt _ _), lane_xor, hm]
  exact xor_sub_pattern (by decide) _ hx

theorem lane32_abs_int32x4 (a i : Nat) (hi : i < 4) :
    lane 32 i (sse.abs_int32x4 a)
      = if lane 32 i a < 2 ^ 31 then lane 32 i a else 2 ^ 32 - lane 32 i a := by
  have hx := lane_lt 32 i a
  have hm : lane 32 i (_mm_srai_epi32 a 31)
      = if lane 32 i a < 2 ^ (32 - 1) then 0 else 2 ^ 32 - 1 := by
    unfold _mm_srai_epi32
    rw [lane_lanewise _ _ _ _ hi, Nat.mod_eq_of_lt (toUnsigned_lt _ _)]
    exact sign_mask_pattern (by decide) _ hx
  unfold sse.abs_int32x4 _mm_sub_epi32 _mm_xor_si128
  rw [lane_lanewise _ _ _ _ hi, Nat.mod_eq_of_lt (toUnsigned_lt _ _), lane_xor, hm]
  exact xor_sub_pattern (by decide) _ hx

/-- The pattern of `scalar_abs` on the value held by a pattern, for a signed
lane type. -/
theorem scalar_abs_ofBits (T : ScalarType) (hs : T.isSigned = true) (hw : 0 < T.bits)
    (x : Nat) (hx : x < 2 ^ T.bits) :
    scalar_abs T (T.ofBits x)
      = T.ofBits (if x < 2 ^ (T.bits - 1) then x else 2 ^ T.bits - x) := by
  unfold scalar_abs ScalarType.convert
  rw [ofBits_signed T hs x, abs_pattern hw x hx]

theorem abs_agree (T : ScalarType) (hs : T.isSigned = true) (hw : 0 < T.bits) (n : Nat)
    (a r d : Nat) (i : Fin n)
    (hr : lane T.bits i r
      = if lane T.bits i a < 2 ^ (T.bits - 1) then lane T.bits i a
        else 2 ^ T.bits - lane T.bits i a)
    (hd : lane T.bits i d
      = toUnsigned T.bits (if toSigned T.bits (lane T.bits i a) < 0
          then -toSigned T.bits (lane T.bits i a) else toSigned T.bits (lane T.bits i a))) :
    lane T.bits i r = toUnsigned T.bits |toSigned T.bits (lane T.bits i a)| ∧
    lane T.bits i r = lane T.bits i d ∧
    lanesOf T n r i = portable.abs T (lanesOf T n a) i := by
  have hx := lane_lt T.bits i a
  have hp := abs_pattern hw _ hx
  have habs : |toSigned T.bits (lane T.bits i a)|
      = if toSigned T.bits (lane T.bits i a) < 0
          then -toSigned T.bits (lane T.bits i a) else toSigned T.bits (lane T.bits i a) := by
    split_ifs with h
    · exact abs_of_neg h
    · exact abs_of_nonneg (not_lt.mp h)
  refine ⟨?_, ?_, ?_⟩
  · rw [habs, hp, hr]
  · rw [hd, hp, hr]
  · unfold portable.abs
    rw [scalar_unroll_unary_apply]
    unfold lanesOf
    rw [scalar_abs_ofBits T hs hw _ hx, hr]

/-- C25: the absolute value fallbacks agree with the direct form and with the
portable backend. For every register `a` and every lane, the SSE2 sequence used
without SSSE3 (`int8x16`: `select(0 > a, 0 - a, a)`; `int16x8` and `int32x4`:
`(a xor m) - m` with `m = a sra (w - 1)`) leaves in the lane the pattern of
`|a[i]|` reduced modulo `2^w`, which is the lane of the direct form
(`_mm_abs_epi8`, `_mm_abs_epi16`, `_mm_abs_epi32`), and read as a signed lane it
is the lane of the portable `abs`. -/
theorem abs_fallback_agrees (a : Nat) (i : Fin 16) (j : Fin 8) (k : Fin 4) :
    (lane 8 i (sse.abs_int8x16 a) = toUnsigned 8 |toSigned 8 (lane 8 i a)| ∧
      lane 8 i (sse.abs_int8x16 a) = lane 8 i (sse.abs_int8x16_ssse3 a) ∧
      lanesOf int8 16 (sse.abs_int8x16 a) i = portable.abs int8 (lanesOf int8 16 a) i) ∧
    (lane 16 j (sse.abs_int16x8 a) = toUnsigned 16 |toSigned 16 (lane 16 j a)| ∧
      lane 16 j (sse.abs_int16x8 a) = lane 16 j (sse.abs_int16x8_ssse3 a) ∧
      lanesOf int16 8 (sse.abs_int16x8 a) j = portable.abs int16 (lanesOf int16 8 a) j) ∧
    (lane 32 k (sse.abs_int32x4 a) = toUnsigned 32 |toSigned 32 (lane 32 k a)| ∧
      lane 32 k (sse.abs_int32x4 a) = lane 32 k (sse.abs_int32x4_ssse3 a) ∧
      lanesOf int32 4 (sse.abs_int32x4 a) k = portable.abs int32 (lanesOf int32 4 a) k) := by
  refine ⟨?_, ?_, ?_⟩
  · refine abs_agree int8 rfl (by decide) 16 a _ _ i (lane8_abs_int8x16 a i i.isLt) ?_
    unfold sse.abs_int8x16_ssse3 _mm_abs_epi8
    exact (lane_lanewise 8 16 _ i i.isLt).trans (Nat.mod_eq_of_lt (toUnsigned_lt _ _))
  · refine abs_agree int16 rfl (by decide) 8 a _ _ j (lane16_abs_int16x8 a j j.isLt) ?_
    unfold sse.abs_int16x8_ssse3 _mm_abs_epi16
    exact (lane_lanewise 16 8 _ j j.isLt).trans (Nat.mod_eq_of_lt (toUnsigned_lt _ _))
  · refine abs_agree int32 rfl (by decide) 4 a _ _ k (lane32_abs_int32x4 a k k.isLt) ?_
    unfold sse.abs_int32x4_ssse3 _mm_abs_epi32
    exact (lane_lanewise 32 4 _ k k.isLt).trans (Nat.mod_eq_of_lt (toUnsigned_lt _ _))

/-! ## Shifts -/

theorem setLane4_apply {α : Type} (v : scalar_type α 4) (x y z w : α) (i : Fin 4) :
    setLane (setLane (setLane (setLane v 0 x) 1 y) 2 z) 3 w i = set4 x y z w i := by
  fin_cases i <;> rfl

theorem or_high_ones (k x : Nat) (hk : k ≤ 32) (hx : x < 2 ^ k) :
    x ||| (2 ^ 32 - 2 ^ k) = x + (2 ^ 32 - 2 ^ k) := by
  have h : 2 ^ 32 - 2 ^ k = 2 ^ k * (2 ^ (32 - k) - 1) := by
    rw [Nat.mul_sub, ← pow_add, Nat.mul_one, Nat.add_sub_cancel' hk]
  rw [h, Nat.or_comm, Nat.add_comm]
  exact (Nat.mul_add_lt_is_or hx _).symm

/-- The sign-filling shift of the pattern of an `int32` value is the floor of
the quotient by `2^n`. -/
theorem int32_shr_eq (a : Int) (ha : signedMin 32 ≤ a ∧ a ≤ signedMax 32) (n : Nat)
    (hn : n < 32) : int32_shr a n = a / 2 ^ n := by
  have hu := toUnsigned_lt 32 a
  have hc := toUnsigned_of_signed (by decide : 0 < 32) a ha
  have hb := testBit_msb (by decide : 0 < 32) hu
  have ha2 : -(2 ^ 31 : Int) ≤ a ∧ a ≤ 2 ^ 31 - 1 := ha
  unfold int32_shr
  generalize toUnsigned 32 a = u at *
  have hP : 0 < 2 ^ n := Nat.pos_pow_of_pos _ (by decide)
  have hPQ : 2 ^ (32 - n) * 2 ^ n = 2 ^ 32 := by
    rw [← pow_add, Nat.sub_add_cancel (le_of_lt hn)]
  have hd : u / 2 ^ n < 2 ^ (32 - n) := by
    rw [Nat.div_lt_iff_lt_mul hP, hPQ]
    exact hu
  have hdiv : ((u / 2 ^ n : Nat) : Int) = (u : Int) / 2 ^ n := by
    push_cast
    rfl
  have hle : u / 2 ^ n ≤ u := Nat.div_le_self _ _
  simp only [Nat.shiftRight_eq_div_pow, hb]
  by_cases hneg : a < 0
  · rw [if_pos hneg] at hc
    have h31 : 2 ^ (32 - 1) ≤ u := by
      norm_num at hc ha2 ⊢
      omega
    rw [if_pos (by simpa using h31), or_high_ones _ _ (by omega) hd]
    have hQ : 2 ^ (32 - n) ≤ 2 ^ 32 := Nat.pow_le_pow_right (by decide) (by omega)
    have hQ2 : n = 0 ∨ 2 ^ (32 - n) ≤ 2 ^ 31 := by
      rcases Nat.eq_zero_or_pos n with h | h
      · exact Or.inl h
      · exact Or.inr (Nat.pow_le_pow_right (by decide) (by omega))
    have hd0 : n = 0 → u / 2 ^ n = u := by
      intro h
      rw [h, pow_zero, Nat.div_one]
    have hV : u / 2 ^ n + (2 ^ 32 - 2 ^ (32 - n)) < 2 ^ 32 := by omega
    have hq : a / 2 ^ n = (u : Int) / 2 ^ n - ((2 ^ (32 - n) : Nat) : Int) := by
      have he : a = (u : Int) + (-((2 ^ (32 - n) : Nat) : Int)) * 2 ^ n := by
        have : (((2 ^ (32 - n) * 2 ^ n : Nat)) : Int) = ((2 ^ 32 : Nat) : Int) := by rw [hPQ]
        push_cast at this ⊢
        linarith
      have hne : ((2 : Int) ^ n) ≠ 0 := by positivity
      rw [he, Int.add_mul_ediv_right _ _ hne]
      ring
    rw [toSigned_of_lt _ hV, hq, ← hdiv]
    generalize u / 2 ^ n = d at *
    generalize (2 : Nat) ^ (32 - n) = Q at *
    norm_num at h31 hQ hQ2 hV ⊢
    split_ifs <;> omega
  · rw [if_neg hneg] at hc
    have h31 : u < 2 ^ (32 - 1) := by
      norm_num at hc ha2 ⊢
      omega
    rw [if_neg (by simpa using h31), Nat.or_zero,
      toSigned_of_lt _ (lt_of_le_of_lt hle hu), if_pos (lt_of_le_of_lt hle h31), hdiv, hc]

theorem toSigned_range {w : Nat} (hw : 0 < w) (u : Nat) :
    signedMin w ≤ toSigned w u ∧ toSigned w u ≤ signedMax w := by
  have hp := pow_pred_double hw
  have hlt : u % 2 ^ w < 2 ^ w := Nat.mod_lt _ (Nat.pos_pow_of_pos w (by decide))
  have hc : ((2 ^ (w - 1) : Nat) : Int) = 2 ^ (w - 1) := by push_cast; rfl
  have hcw : ((2 ^ w : Nat) : Int) = 2 ^ w := by push_cast; rfl
  unfold toSigned signedMin signedMax
  generalize u % 2 ^ w = x at *
  generalize (2 : Nat) ^ w = M at *
  generalize (2 : Nat) ^ (w - 1) = H at *
  generalize (2 : Int) ^ w = Mi at *
  generalize (2 : Int) ^ (w - 1) = Hi at *
  split_ifs <;> omega

theorem floor_div_bounds (a p : Int) (hp : 1 ≤ p) :
    (0 ≤ a → 0 ≤ a / p ∧ a / p ≤ a) ∧ (a < 0 → a ≤ a / p ∧ a / p < 0) := by
  constructor
  · intro h
    exact ⟨Int.ediv_nonneg h (by omega), Int.ediv_le_self _ h⟩
  · intro h
    refine ⟨Int.le_ediv_of_mul_le (by omega) ?_, Int.ediv_neg' h (by omega)⟩
    nlinarith

theorem floor_div_inRange (a : Int) (ha : int32.InRange a) (n : Nat) :
    int32.InRange (a / 2 ^ n) := by
  have hp : (1 : Int) ≤ 2 ^ n := by
    have h0 : (0 : Int) < 2 ^ n := by positivity
    omega
  have hb := floor_div_bounds a _ hp
  have ha2 : -(2 ^ 31 : Int) ≤ a ∧ a < 2 ^ 31 := ha
  show -(2 ^ 31 : Int) ≤ a / 2 ^ n ∧ a / 2 ^ n < 2 ^ 31
  generalize a / 2 ^ n = q at *
  by_cases h : 0 ≤ a
  · have := hb.1 h
    omega
  · have := hb.2 (by omega)
    omega

theorem int32_inRange_iff (a : Int) :
    int32.InRange a ↔ signedMin 32 ≤ a ∧ a ≤ signedMax 32 := by
  show (-(2 ^ 31 : Int) ≤ a ∧ a < 2 ^ 31) ↔ (-(2 ^ 31 : Int) ≤ a ∧ a ≤ 2 ^ 31 - 1)
  omega

theorem portable_sra_int32x4_apply (Count : Nat) (hC : Count < 32) (a : scalar_type Int 4)
    (i : Fin 4) (ha : int32.InRange (a i)) :
    portable.sra_int32x4 Count a i = a i / 2 ^ Count := by
  have h : ∀ j : Fin 4, j = i → int32_shr (a j) Count = a i / 2 ^ Count := by
    intro j hj
    rw [hj]
    exact int32_shr_eq _ ((int32_inRange_iff _).mp ha) _ hC
  unfold portable.sra_int32x4
  rw [setLane4_apply]
  unfold set4
  split_ifs with h0 h1 h2
  · exact h 0 (Fin.ext h0.symm)
  · exact h 1 (Fin.ext h1.symm)
  · exact h 2 (Fin.ext h2.symm)
  · exact h 3 (Fin.ext (by have := i.isLt; show (3 : Nat) = i.val; omega))

theorem lanesOf_sse_sra_int32x4 (Count : Nat) (s : Nat) (i : Fin 4) :
    lanesOf int32 4 (sse.sra_int32x4 Count s) i = lanesOf int32 4 s i / 2 ^ Count := by
  have hr : int32.InRange (int32.ofBits (lane 32 i s)) := by
    rw [int32_inRange_iff, ofBits_signed int32 rfl]
    exact toSigned_range (by decide) _
  have hq := floor_div_inRange _ hr Count
  unfold lanesOf sse.sra_int32x4 _mm_srai_epi32
  show int32.ofBits (lane 32 i (lanewise 32 4 _)) = _
  rw [lane_lanewise _ _ _ _ i.isLt]
  exact (ofBits_mod int32 _).trans (convert_of_inRange int32 (Or.inr (Or.inr rfl)) _ hq)

/-- C26: `sra` on signed lanes is an arithmetic shift. For every `int32x4` `a`
and every `Count < 32`, lane `i` of the portable `sra<Count>(a)`, which fills the
vacated bits of the pattern with the sign bit, is the floor of `a[i] / 2^Count`;
the SSE2 `sra<Count>` holds the same floor in the lane and agrees with the
portable backend; a negative lane stays negative and `-1` is a fixed point. -/
theorem sra_int32x4_floor (Count : Nat) (hC : Count < 32) (a : scalar_type Int 4)
    (ha : ∀ i, int32.InRange (a i)) (s : Nat) (i : Fin 4) :
    portable.sra_int32x4 Count a i = a i / 2 ^ Count ∧
    lanesOf int32 4 (sse.sra_int32x4 Count s) i = lanesOf int32 4 s i / 2 ^ Count ∧
    lanesOf int32 4 (sse.sra_int32x4 Count s) i
      = portable.sra_int32x4 Count (lanesOf int32 4 s) i ∧
    (a i < 0 → portable.sra_int32x4 Count a i < 0) ∧
    (a i = -1 → portable.sra_int32x4 Count a i = -1) := by
  have hp : (1 : Int) ≤ 2 ^ Count := by
    have h0 : (0 : Int) < 2 ^ Count := by positivity
    omega
  have hr : int32.InRange (lanesOf int32 4 s i) := by
    unfold lanesOf
    rw [int32_inRange_iff, ofBits_signed int32 rfl]
    exact toSigned_range (by decide) _
  rw [portable_sra_int32x4_apply Count hC a i (ha i),
    portable_sra_int32x4_apply Count hC _ i hr]
  refine ⟨rfl, lanesOf_sse_sra_int32x4 Count s i, lanesOf_sse_sra_int32x4 Count s i, ?_, ?_⟩
  · intro h
    exact ((floor_div_bounds _ _ hp).2 h).2
  · intro h
    have := (floor_div_bounds (a i) _ hp).2 (by omega)
    omega

/-- The hypotheses of C26 hold for a shift by 1 of the example vector, whose
lane 0 is `-7`: the lane becomes `-4`, the floor of `-7 / 2`. -/
theorem sra_int32x4_floor_witness :
    ((1 : Nat) < 32 ∧ ∀ i, int32.InRange (sra_example i)) ∧
    (portable.sra_int32x4 1 sra_example 0 = sra_example 0 / 2 ^ 1 ∧
      lanesOf int32 4 (sse.sra_int32x4 1 0xFFFFFFF9) 0
        = lanesOf int32 4 0xFFFFFFF9 0 / 2 ^ 1 ∧
      lanesOf int32 4 (sse.sra_int32x4 1 0xFFFFFFF9) 0
        = portable.sra_int32x4 1 (lanesOf int32 4 0xFFFFFFF9) 0 ∧
      (sra_example 0 < 0 → portable.sra_int32x4 1 sra_example 0 < 0) ∧
      (sra_example 0 = -1 → portable.sra_int32x4 1 sra_example 0 = -1)) ∧
    portable.sra_int32x4 1 sra_example 0 = -4 ∧
    lanesOf int32 4 (sse.sra_int32x4 1 0xFFFFFFF9) 0 = -4 :=
  ⟨⟨by decide, by decide⟩,
    sra_int32x4_floor 1 (by decide) sra_example (by decide) 0xFFFFFFF9 0,
    by decide, by decide⟩

theorem uint32_convert (z : Int) : uint32.convert z = z % 2 ^ 32 := by
  unfold ScalarType.convert
  show uint32.ofBits (toUnsigned 32 z) = z % 2 ^ 32
  rw [ofBits_unsigned uint32 rfl _ (toUnsigned_lt 32 z)]
  exact toUnsigned_cast 32 z

theorem int32_convert_uint32 (l : Nat) (hl : l < 2 ^ 32) :
    int32.convert (uint32.ofBits l) = toSigned 32 l := by
  unfold ScalarType.convert
  rw [ofBits_unsigned uint32 rfl l hl, ofBits_signed int32 rfl]
  show toSigned 32 (toUnsigned 32 (l : Int)) = toSigned 32 l
  rw [toUnsigned_natCast, Nat.mod_eq_of_lt hl]

theorem int32_convert_inRange (z : Int) : int32.InRange (int32.convert z) := by
  unfold ScalarType.convert
  rw [int32_inRange_iff, ofBits_signed int32 rfl]
  exact toSigned_range (by decide) _

theorem portable_sra_uint32x4_apply (Count : Nat) (hC : Count < 32) (a : scalar_type Int 4)
    (i : Fin 4) :
    portable.sra_uint32x4 Count a i = uint32.convert (int32.convert (a i) / 2 ^ Count) := by
  have h : ∀ j : Fin 4, j = i → uint32.convert (int32_shr (int32.convert (a j)) Count)
      = uint32.convert (int32.convert (a i) / 2 ^ Count) := by
    intro j hj
    rw [hj, int32_shr_eq _ ((int32_inRange_iff _).mp (int32_convert_inRange _)) _ hC]
  unfold portable.sra_uint32x4
  rw [setLane4_apply]
  unfold set4
  split_ifs with h0 h1 h2
  · exact h 0 (Fin.ext h0.symm)
  · exact h 1 (Fin.ext h1.symm)
  · exact h 2 (Fin.ext h2.symm)
  · exact h 3 (Fin.ext (by have := i.isLt; show (3 : Nat) = i.val; omega))

theorem portable_srl_uint32x4_apply (Count : Nat) (a : scalar_type Int 4) (i : Fin 4) :
    portable.srl_uint32x4 Count a i = uint32.ofBits (toUnsigned 32 (a i) >>> Count) := by
  have h : ∀ j : Fin 4, j = i → uint32.ofBits (toUnsigned 32 (a j) >>> Count)
      = uint32.ofBits (toUnsigned 32 (a i) >>> Count) := by
    intro j hj
    rw [hj]
  unfold portable.srl_uint32x4
  rw [setLane4_apply]
  unfold set4
  split_ifs with h0 h1 h2
  · exact h 0 (Fin.ext h0.symm)
  · exact h 1 (Fin.ext h1.symm)
  · exact h 2 (Fin.ext h2.symm)
  · exact h 3 (Fin.ext (by have := i.isLt; show (3 : Nat) = i.val; omega))

theorem uint32_ofBits_shr (u Count : Nat) (hu : u < 2 ^ 32) :
    uint32.ofBits (u >>> Count) = (u : Int) / 2 ^ Count := by
  have hle : u / 2 ^ Count ≤ u := Nat.div_le_self _ _
  rw [Nat.shiftRight_eq_div_pow, ofBits_unsigned uint32 rfl _ (lt_of_le_of_lt hle hu)]
  push_cast
  rfl

/-- The SSE2 and the portable shifts of `uint32x4` agree lane by lane. -/
theorem lanesOf_sse_shift_uint32x4 (Count : Nat) (hC : Count < 32) (s : Nat) (i : Fin 4) :
    lanesOf uint32 4 (sse.sra_uint32x4 Count s) i
      = portable.sra_uint32x4 Count (lanesOf uint32 4 s) i ∧
    lanesOf uint32 4 (sse.srl_uint32x4 Count s) i
      = portable.srl_uint32x4 Count (lanesOf uint32 4 s) i := by
  have hl : lane 32 i s < 2 ^ 32 := lane_lt 32 i s
  constructor
  · rw [portable_sra_uint32x4_apply Count hC]
    unfold lanesOf sse.sra_uint32x4 _mm_srai_epi32
    show uint32.ofBits (lane 32 i (lanewise 32 4 _)) = _
    rw [lane_lanewise _ _ _ _ i.isLt]
    show _ = uint32.convert (int32.convert (uint32.ofBits (lane 32 i s)) / 2 ^ Count)
    rw [int32_convert_uint32 _ hl]
    exact ofBits_mod uint32 _
  · rw [portable_srl_uint32x4_apply]
    unfold lanesOf sse.srl_uint32x4 _mm_srli_epi32
    show uint32.ofBits (lane 32 i (lanewise 32 4 _)) = _
    rw [lane_lanewise _ _ _ _ i.isLt]
    show _ = uint32.ofBits (toUnsigned 32 (uint32.ofBits (lane 32 i s)) >>> Count)
    rw [ofBits_unsigned uint32 rfl _ hl, toUnsigned_natCast, Nat.mod_eq_of_lt hl]
    exact ofBits_mod uint32 _

/-- C27, the claim as written fails: `sra` on `uint32x4` is in the catalogue of
both backends, next to `srl`. On a lane holding `2147483648` a shift by 4 gives
`4160749568` with `sra` (sign bits shifted in) and `134217728` with `srl`, in the
portable and in the SSE2 backend. -/
theorem sra_uint32x4_is_offered :
    (ShiftOp.sra, VectorType.uint32x4) ∈ portable.shift_catalogue ∧
    (ShiftOp.sra, VectorType.uint32x4) ∈ sse.shift_catalogue ∧
    portable.sra_uint32x4 4 srl_example 0 = 4160749568 ∧
    portable.srl_uint32x4 4 srl_example 0 = 134217728 ∧
    lanesOf uint32 4 (sse.sra_uint32x4 4 0x80000000) 0 = 4160749568 ∧
    lanesOf uint32 4 (sse.srl_uint32x4 4 0x80000000) 0 = 134217728 := by
  decide

/-- C27, amended: both backends offer `sra<Count>` on `uint32x4` next to
`srl<Count>`, and shifts on the 32-bit vector types only. For `Count < 32`, lane
`i` of `sra<Count>(a)` on a `uint32x4` is the floor of `s / 2^Count` reduced
modulo `2^32`, where `s` is `a[i]` converted to `int32` (the sign bit is shifted
in), while lane `i` of `srl<Count>(a)` is the floor of `a[i] / 2^Count`; the SSE2
backend returns the lanes of the portable one for both. -/
theorem sra_uint32x4_sign_fill (Count : Nat) (hC : Count < 32) (a : scalar_type Int 4)
    (ha : ∀ i, uint32.InRange (a i)) (s : Nat) (i : Fin 4) :
    ((ShiftOp.sra, VectorType.uint32x4) ∈ portable.shift_catalogue ∧
      (ShiftOp.sra, VectorType.uint32x4) ∈ sse.shift_catalogue) ∧
    (∀ op ty, ((op, ty) ∈ portable.shift_catalogue
          ↔ ty = VectorType.uint32x4 ∨ ty = VectorType.int32x4) ∧
        ((op, ty) ∈ sse.shift_catalogue
          ↔ ty = VectorType.uint32x4 ∨ ty = VectorType.int32x4)) ∧
    portable.sra_uint32x4 Count a i = (int32.convert (a i) / 2 ^ Count) % 2 ^ 32 ∧
    portable.srl_uint32x4 Count a i = a i / 2 ^ Count ∧
    lanesOf uint32 4 (sse.sra_uint32x4 Count s) i
      = portable.sra_uint32x4 Count (lanesOf uint32 4 s) i ∧
    lanesOf uint32 4 (sse.srl_uint32x4 Count s) i
      = portable.srl_uint32x4 Count (lanesOf uint32 4 s) i := by
  refine ⟨by decide, ?_, ?_, ?_, lanesOf_sse_shift_uint32x4 Count hC s i⟩
  · intro op ty
    cases op <;> cases ty <;> decide
  · rw [portable_sra_uint32x4_apply Count hC, uint32_convert]
  · have hr : (0 : Int) ≤ a i ∧ a i < 2 ^ 32 := ha i
    have hc := toUnsigned_cast 32 (a i)
    rw [Int.emod_eq_of_lt hr.1 hr.2] at hc
    rw [portable_srl_uint32x4_apply, uint32_ofBits_shr _ _ (toUnsigned_lt 32 _), hc]

/-- The hypotheses of the amended C27 hold for a shift by 4 of the example
vector, whose lane 0 has the top bit set. -/
theorem sra_uint32x4_sign_fill_witness :
    ((4 : Nat) < 32 ∧ ∀ i, uint32.InRange (srl_example i)) ∧
    (((ShiftOp.sra, VectorType.uint32x4) ∈ portable.shift_catalogue ∧
        (ShiftOp.sra, VectorType.uint32x4) ∈ sse.shift_catalogue) ∧
      (∀ op ty, ((op, ty) ∈ portable.shift_catalogue
            ↔ ty = VectorType.uint32x4 ∨ ty = VectorType.int32x4) ∧
          ((op, ty) ∈ sse.shift_catalogue
            ↔ ty = VectorType.uint32x4 ∨ ty = VectorType.int32x4)) ∧
      portable.sra_uint32x4 4 srl_example 0
        = (int32.convert (srl_example 0) / 2 ^ 4) % 2 ^ 32 ∧
      portable.srl_uint32x4 4 srl_example 0 = srl_example 0 / 2 ^ 4 ∧
      lanesOf uint32 4 (sse.sra_uint32x4 4 0x80000000) 0
        = portable.sra_uint32x4 4 (lanesOf uint32 4 0x80000000) 0 ∧
      lanesOf uint32 4 (sse.srl_uint32x4 4 0x80000000) 0
        = portable.srl_uint32x4 4 (lanesOf uint32 4 0x80000000) 0) :=
  ⟨⟨by decide, by decide⟩,
    sra_uint32x4_sign_fill 4 (by decide) srl_example (by decide) 0x80000000 0⟩

/-! ## The branches of the signed saturating helpers -/

theorem scalar_signed_adds_branch (w : Nat) (a b : Int) :
    scalar_signed_adds w a b
      = if scalar_signed_adds_saturates w a b = true then scalar_signed_bound w a
        else scalar_signed_adds_wrapped w a b := by
  unfold scalar_signed_adds scalar_signed_adds_saturates scalar_signed_bound
    scalar_signed_adds_wrapped
  simp only [decide_eq_true_eq]

theorem scalar_signed_subs_branch (w : Nat) (a b : Int) :
    scalar_signed_subs w a b
      = if scalar_signed_subs_saturates w a b = true then scalar_signed_bound w a
        else scalar_signed_subs_wrapped w a b := by
  unfold scalar_signed_subs scalar_signed_subs_saturates scalar_signed_bound
    scalar_signed_subs_wrapped
  simp only [decide_eq_true_eq]

theorem scalar_signed_bound_eq (w : Nat) (hw0 : 0 < w) (a : Int)
    (ha : signedMin w ≤ a ∧ a ≤ signedMax w) :
    scalar_signed_bound w a = if 0 ≤ a then signedMax w else signedMin w := by
  unfold scalar_signed_bound
  have hx := toUnsigned_of_signed hw0 a ha
  have hxl := toUnsigned_lt w a
  simp only []
  generalize toUnsigned w a = x at hx hxl ⊢
  have hs := toUnsigned_bound hw0 x hxl
  have hsl := toUnsigned_lt w (↑(x >>> (w - 1)) + signedMax w)
  generalize toUnsigned w (↑(x >>> (w - 1)) + signedMax w) = s at hs hsl ⊢
  rw [toSigned_of_lt s hsl]
  unfold signedMin signedMax at *
  have hp := pow_pred_double hw0
  have hpi : (2 : Int) ^ w = ((2 ^ w : Nat) : Int) := by push_cast; rfl
  have hci : (2 : Int) ^ (w - 1) = ((2 ^ (w - 1) : Nat) : Int) := by push_cast; rfl
  generalize (2 : Nat) ^ w = M at *
  generalize (2 : Nat) ^ (w - 1) = H at *
  generalize (2 : Int) ^ w = Mi at *
  generalize (2 : Int) ^ (w - 1) = Hi at *
  split_ifs at hx hs ⊢ <;> omega

theorem toUnsigned_add_toUnsigned (w : Nat) (a b : Int) :
    toUnsigned w ((toUnsigned w a : Int) + toUnsigned w b) = toUnsigned w (a + b) := by
  have h : ((toUnsigned w a : Int) + toUnsigned w b) % 2 ^ w = (a + b) % 2 ^ w := by
    rw [toUnsigned_cast, toUnsigned_cast]
    exact (Int.add_emod a b _).symm
  unfold toUnsigned at h ⊢
  rw [h]

theorem toUnsigned_sub_toUnsigned (w : Nat) (a b : Int) :
    toUnsigned w ((toUnsigned w a : Int) - toUnsigned w b) = toUnsigned w (a - b) := by
  have h : ((toUnsigned w a : Int) - toUnsigned w b) % 2 ^ w = (a - b) % 2 ^ w := by
    rw [toUnsigned_cast, toUnsigned_cast]
    exact (Int.sub_emod a b _).symm
  unfold toUnsigned at h ⊢
  rw [h]

theorem scalar_signed_adds_saturates_iff (w : Nat) (a b : Int) (hw0 : 0 < w) (hw32 : w ≤ 32)
    (ha : signedMin w ≤ a ∧ a ≤ signedMax w) (hb : signedMin w ≤ b ∧ b ≤ signedMax w) :
    scalar_signed_adds_saturates w a b = true
      ↔ ((a < 0 ↔ b < 0) ∧ ¬(a < 0 ↔ scalar_signed_adds_wrapped w a b < 0)) := by
  have hk : w - 1 < 32 := by omega
  unfold scalar_signed_adds_saturates scalar_signed_adds_wrapped
  simp only [decide_eq_true_eq, ge_iff_le, toSigned_nonneg_iff hw0, toSigned_neg_iff hw0,
    Nat.testBit_or, Nat.testBit_xor,
    testBit_bitNot, hk, decide_True, Bool.true_and, testBit_msb hw0 (toUnsigned_lt w _),
    adds_cond_iff]
  have hx := toUnsigned_of_signed hw0 a ha
  have hxl := toUnsigned_lt w a
  generalize toUnsigned w a = x at hx hxl ⊢
  have hy := toUnsigned_of_signed hw0 b hb
  have hyl := toUnsigned_lt w b
  generalize toUnsigned w b = y at hy hyl ⊢
  have hvl := toUnsigned_lt w (↑x + ↑y)
  generalize toUnsigned w (↑x + ↑y) = v at hvl ⊢
  have hs := toUnsigned_bound hw0 x hxl
  have hsl := toUnsigned_lt w (↑(x >>> (w - 1)) + signedMax w)
  generalize toUnsigned w (↑(x >>> (w - 1)) + signedMax w) = s at hs hsl ⊢
  unfold signedMin signedMax at *
  have hp := pow_pred_double hw0
  have hpi : (2 : Int) ^ w = ((2 ^ w : Nat) : Int) := by push_cast; rfl
  have hci : (2 : Int) ^ (w - 1) = ((2 ^ (w - 1) : Nat) : Int) := by push_cast; rfl
  generalize (2 : Nat) ^ w = M at *
  generalize (2 : Nat) ^ (w - 1) = H at *
  have hs1 : (x < H → s = H - 1) ∧ (¬x < H → s = H) := by
    constructor <;> intro h <;> simp only [h, if_true, if_false] at hs <;> exact hs
  clear hs
  by_cases h1 : a < 0 <;> by_cases h2 : b < 0 <;>
    simp only [h1, h2, if_true, if_false] at hx hy <;> omega

theorem scalar_signed_subs_saturates_iff (w : Nat) (a b : Int) (hw0 : 0 < w)
    (ha : signedMin w ≤ a ∧ a ≤ signedMax w) (hb : signedMin w ≤ b ∧ b ≤ signedMax w) :
    scalar_signed_subs_saturates w a b = true
      ↔ (¬(a < 0 ↔ b < 0) ∧ ¬(a < 0 ↔ scalar_signed_subs_wrapped w a b < 0)) := by
  unfold scalar_signed_subs_saturates scalar_signed_subs_wrapped
  simp only [decide_eq_true_eq, toSigned_neg_iff hw0, Nat.testBit_and, Nat.testBit_xor,
    testBit_msb hw0 (toUnsigned_lt w _), subs_cond_iff]
  have hx := toUnsigned_of_signed hw0 a ha
  have hxl := toUnsigned_lt w a
  generalize toUnsigned w a = x at hx hxl ⊢
  have hy := toUnsigned_of_signed hw0 b hb
  have hyl := toUnsigned_lt w b
  generalize toUnsigned w b = y at hy hyl ⊢
  have hvl := toUnsigned_lt w (↑x - ↑y)
  generalize toUnsigned w (↑x - ↑y) = v at hvl ⊢
  have hs := toUnsigned_bound hw0 x hxl
  have hsl := toUnsigned_lt w (↑(x >>> (w - 1)) + signedMax w)
  generalize toUnsigned w (↑(x >>> (w - 1)) + signedMax w) = s at hs hsl ⊢
  unfold signedMin signedMax at *
  have hp := pow_pred_double hw0
  have hpi : (2 : Int) ^ w = ((2 ^ w : Nat) : Int) := by push_cast; rfl
  have hci : (2 : Int) ^ (w - 1) = ((2 ^ (w - 1) : Nat) : Int) := by push_cast; rfl
  generalize (2 : Nat) ^ w = M at *
  generalize (2 : Nat) ^ (w - 1) = H at *
  have hs1 : (x < H → s = H - 1) ∧ (¬x < H → s = H) := by
    constructor <;> intro h <;> simp only [h, if_true, if_false] at hs <;> exact hs
  clear hs
  by_cases h1 : a < 0 <;> by_cases h2 : b < 0 <;>
    simp only [h1, h2, if_true, if_false] at hx hy <;> omega

/-- C28, the claim as written fails in both directions at width 8. With
`a = 127`, `b = -1` the operands have different signs, yet `scalar_signed_subs`
takes its saturation branch and returns `127`; with `a = 1`, `b = 2` the operands
have the same sign and the wrapped difference `-1` has the other sign, yet the
branch is not taken and the result is `-1`. -/
theorem signed_subs_same_sign_counterexample :
    (scalar_signed_subs_saturates 8 127 (-1) = true ∧
      scalar_signed_subs 8 127 (-1) = 127 ∧
      ¬((127 : Int) < 0 ↔ (-1 : Int) < 0)) ∧
    (scalar_signed_subs_saturates 8 1 2 = false ∧
      scalar_signed_subs 8 1 2 = -1 ∧
      ((1 : Int) < 0 ↔ (2 : Int) < 0) ∧
      ¬((1 : Int) < 0 ↔ scalar_signed_subs_wrapped 8 1 2 < 0)) ∧
    ¬(scalar_signed_subs_saturates 8 127 (-1) = true
      ↔ (((127 : Int) < 0 ↔ (-1 : Int) < 0) ∧
        ¬((127 : Int) < 0 ↔ scalar_signed_subs_wrapped 8 127 (-1) < 0))) := by
  decide

/-- C28, amended: for every width `w` in {8, 16, 32} and all signed `a`, `b`,
`scalar_signed_subs` takes its saturation branch (returns the bound instead of
the wrapped difference `v = a - b mod 2^w`) exactly when `a` and `b` have
different signs and the sign of `v` differs from the sign of `a`; the bound is
`MAX_w` for `a >= 0` and `MIN_w` for `a < 0`. -/
theorem signed_subs_saturation_branch (w : Nat) (hw : w = 8 ∨ w = 16 ∨ w = 32) (a b : Int)
    (ha : signedMin w ≤ a ∧ a ≤ signedMax w) (hb : signedMin w ≤ b ∧ b ≤ signedMax w) :
    scalar_signed_subs w a b
      = (if scalar_signed_subs_saturates w a b = true then scalar_signed_bound w a
        else scalar_signed_subs_wrapped w a b) ∧
    scalar_signed_subs_wrapped w a b = toSigned w (toUnsigned w (a - b)) ∧
    (scalar_signed_subs_saturates w a b = true
      ↔ (¬(a < 0 ↔ b < 0) ∧ ¬(a < 0 ↔ scalar_signed_subs_wrapped w a b < 0))) ∧
    scalar_signed_bound w a = (if 0 ≤ a then signedMax w else signedMin w) := by
  have hw0 : 0 < w := by omega
  refine ⟨scalar_signed_subs_branch w a b, ?_,
    scalar_signed_subs_saturates_iff w a b hw0 ha hb, scalar_signed_bound_eq w hw0 a ha⟩
  unfold scalar_signed_subs_wrapped
  simp only [toUnsigned_sub_toUnsigned]

/-- The hypotheses of the amended C28 hold at width 8 for `a = 127`, `b = -1`,
where the branch is taken and the result is `127`. -/
theorem signed_subs_saturation_branch_witness :
    (((8 : Nat) = 8 ∨ (8 : Nat) = 16 ∨ (8 : Nat) = 32) ∧
      (signedMin 8 ≤ 127 ∧ (127 : Int) ≤ signedMax 8) ∧
      (signedMin 8 ≤ -1 ∧ (-1 : Int) ≤ signedMax 8)) ∧
    (scalar_signed_subs 8 127 (-1)
        = (if scalar_signed_subs_saturates 8 127 (-1) = true then scalar_signed_bound 8 127
          else scalar_signed_subs_wrapped 8 127 (-1)) ∧
      scalar_signed_subs_wrapped 8 127 (-1) = toSigned 8 (toUnsigned 8 (127 - -1)) ∧
      (scalar_signed_subs_saturates 8 127 (-1) = true
        ↔ (¬((127 : Int) < 0 ↔ (-1 : Int) < 0) ∧
          ¬((127 : Int) < 0 ↔ scalar_signed_subs_wrapped 8 127 (-1) < 0))) ∧
      scalar_signed_bound 8 127 = (if (0 : Int) ≤ 127 then signedMax 8 else signedMin 8)) ∧
    scalar_signed_subs 8 127 (-1) = 127 :=
  ⟨⟨by decide, by decide, by decide⟩,
    signed_subs_saturation_branch 8 (by decide) 127 (-1) (by decide) (by decide),
    by decide⟩

/-- C29: the overflow condition of the signed saturating add. For every width
`w` in {8, 16, 32} and all signed `a`, `b`, `scalar_signed_adds` takes its
saturation branch exactly when `a` and `b` have the same sign and the wrapped sum
`v = a + b mod 2^w` has the opposite sign, and in that branch it returns `MAX_w`
if `a >= 0` and `MIN_w` if `a < 0`. -/
theorem signed_adds_saturation_branch (w : Nat) (hw : w = 8 ∨ w = 16 ∨ w = 32) (a b : Int)
    (ha : signedMin w ≤ a ∧ a ≤ signedMax w) (hb : signedMin w ≤ b ∧ b ≤ signedMax w) :
    scalar_signed_adds w a b
      = (if scalar_signed_adds_saturates w a b = true then scalar_signed_bound w a
        else scalar_signed_adds_wrapped w a b) ∧
    scalar_signed_adds_wrapped w a b = toSigned w (toUnsigned w (a + b)) ∧
    (scalar_signed_adds_saturates w a b = true
      ↔ ((a < 0 ↔ b < 0) ∧ ¬(a < 0 ↔ scalar_signed_adds_wrapped w a b < 0))) ∧
    (scalar_signed_adds_saturates w a b = true
      → scalar_signed_adds w a b = if 0 ≤ a then signedMax w else signedMin w) := by
  have hw0 : 0 < w := by omega
  have hw32 : w ≤ 32 := by omega
  refine ⟨scalar_signed_adds_branch w a b, ?_,
    scalar_signed_adds_saturates_iff w a b hw0 hw32 ha hb, ?_⟩
  · unfold scalar_signed_adds_wrapped
    simp only [toUnsigned_add_toUnsigned]
  · intro h
    rw [scalar_signed_adds_branch, if_pos h, scalar_signed_bound_eq w hw0 a ha]

/-- The hypotheses of C29 hold at width 8 for `a = -128`, `b = -1`, where the
branch is taken and the result is `-128`. -/
theorem signed_adds_saturation_branch_witness :
    (((8 : Nat) = 8 ∨ (8 : Nat) = 16 ∨ (8 : Nat) = 32) ∧
      (signedMin 8 ≤ -128 ∧ (-128 : Int) ≤ signedMax 8) ∧
      (signedMin 8 ≤ -1 ∧ (-1 : Int) ≤ signedMax 8)) ∧
    (scalar_signed_adds 8 (-128) (-1)
        = (if scalar_signed_adds_saturates 8 (-128) (-1) = true
          then scalar_signed_bound 8 (-128)
          else scalar_signed_adds_wrapped 8 (-128) (-1)) ∧
      scalar_signed_adds_wrapped 8 (-128) (-1) = toSigned 8 (toUnsigned 8 (-128 + -1)) ∧
      (scalar_signed_adds_saturates 8 (-128) (-1) = true
        ↔ (((-128 : Int) < 0 ↔ (-1 : Int) < 0) ∧
          ¬((-128 : Int) < 0 ↔ scalar_signed_adds_wrapped 8 (-128) (-1) < 0))) ∧
      (scalar_signed_adds_saturates 8 (-128) (-1) = true
        → scalar_signed_adds 8 (-128) (-1)
          = if (0 : Int) ≤ -128 then signedMax 8 else signedMin 8)) ∧
    scalar_signed_adds_saturates 8 (-128) (-1) = true ∧
    scalar_signed_adds 8 (-128) (-1) = -128 :=
  ⟨⟨by decide, by decide, by decide⟩,
    signed_adds_saturation_branch 8 (by decide) (-128) (-1) (by decide) (by decide),
    by decide, by decide⟩

/-! ## The SSE2 signed saturating add without overflow -/

theorem lane32_add_epi32 (A B i : Nat) (hi : i < 4) :
    lane 32 i (_mm_add_epi32 A B) = (lane 32 i A + lane 32 i B) % 2 ^ 32 := by
  unfold _mm_add_epi32
  rw [lane_lanewise _ _ _ _ hi]

theorem lane32_srai_epi32_31 (A i : Nat) (hi : i < 4) :
    lane 32 i (_mm_srai_epi32 A 31) = if lane 32 i A < 2 ^ 31 then 0 else 2 ^ 32 - 1 := by
  unfold _mm_srai_epi32
  rw [lane_lanewise _ _ _ _ hi, Nat.mod_eq_of_lt (toUnsigned_lt _ _)]
  exact sign_mask_pattern (by decide : 0 < 32) _ (lane_lt 32 i A)

theorem lane32_cmpeq_epi32_self (t i : Nat) (hi : i < 4) :
    lane 32 i (_mm_cmpeq_epi32 t t) = 2 ^ 32 - 1 := by
  unfold _mm_cmpeq_epi32
  rw [lane_lanewise _ _ _ _ hi, if_pos rfl]
  rfl

theorem adds_mask_cond_iff (p q r : Prop) [Decidable p] [Decidable q] [Decidable r] :
    ((((decide q ^^ decide r) ^^ true) || (decide p ^^ decide q)) = true)
      ↔ ¬((p ↔ q) ∧ ¬(q ↔ r)) := by
  by_cases hp : p <;> by_cases hq : q <;> by_cases hr : r <;> simp [hp, hq, hr]

/-- The sign test of the SSE2 `adds(int32x4)` on the patterns of one lane. -/
theorem adds_mask_bit (x y : Nat) (hx : x < 2 ^ 32) (hy : y < 2 ^ 32) :
    ((((y ^^^ (x + y) % 2 ^ 32) ^^^ (2 ^ 32 - 1))
        ||| ((if x < 2 ^ 31 then 0 else 2 ^ 32 - 1) ^^^ y)).testBit 31 = true)
      ↔ (signedMin 32 ≤ toSigned 32 x + toSigned 32 y
          ∧ toSigned 32 x + toSigned 32 y ≤ signedMax 32) := by
  have hv : (x + y) % 2 ^ 32 < 2 ^ 32 := Nat.mod_lt _ (by norm_num)
  have hy31 : y.testBit 31 = decide (2 ^ 31 ≤ y) := testBit_msb (by decide : 0 < 32) hy
  have hv31 : ((x + y) % 2 ^ 32).testBit 31 = decide (2 ^ 31 ≤ (x + y) % 2 ^ 32) :=
    testBit_msb (by decide : 0 < 32) hv
  have h1 : (2 ^ 32 - 1 : Nat).testBit 31 = true := by decide
  have h0 : (0 : Nat).testBit 31 = false := by decide
  have hs31 : (if x < 2 ^ 31 then 0 else 2 ^ 32 - 1 : Nat).testBit 31 = decide (2 ^ 31 ≤ x) := by
    split_ifs with h
    · rw [h0]
      exact (decide_eq_false (by omega)).symm
    · rw [h1]
      exact (decide_eq_true (by omega)).symm
  rw [Nat.testBit_or, Nat.testBit_xor, Nat.testBit_xor, Nat.testBit_xor, hy31, hv31, h1, hs31,
    toSigned_of_lt x hx, toSigned_of_lt y hy]
  unfold signedMin signedMax
  have hvv : x + y < 2 ^ 32 ∧ (x + y) % 2 ^ 32 = x + y
      ∨ 2 ^ 32 ≤ x + y ∧ (x + y) % 2 ^ 32 + 2 ^ 32 = x + y := by
    omega
  generalize (x + y) % 2 ^ 32 = v at *
  rw [adds_mask_cond_iff]
  norm_num at hx hy hv hvv ⊢
  by_cases hx1 : x < 2147483648 <;> by_cases hy1 : y < 2147483648 <;>
    simp only [hx1, hy1, if_true, if_false] <;> omega

theorem lane32_sse_adds_int32x4 (A B i : Nat) (hi : i < 4) :
    lane 32 i (sse.adds_int32x4 A B)
      = if signedMin 32 ≤ toSigned 32 (lane 32 i A) + toSigned 32 (lane 32 i B)
          ∧ toSigned 32 (lane 32 i A) + toSigned 32 (lane 32 i B) ≤ signedMax 32
        then lane 32 i (_mm_add_epi32 A B) else lane 32 i (_mm_srai_epi32 A 31) := by
  unfold sse.adds_int32x4
  simp only [_mm_setzero_si128]
  rw [lane_select_of_cond 32 i _ _ _ _ (by decide) (by omega) (lane32_cmpgt_epi32 0 _ i hi)]
  refine if_congr ?_ rfl rfl
  rw [lane_zero_reg, gt_iff_lt, show toSigned 32 0 = 0 from by decide,
    toSigned_neg_iff (by decide : 0 < 32)]
  unfold _mm_or_si128 _mm_xor_si128
  rw [lane_or, lane_xor, lane_xor, lane_xor, lane32_cmpeq_epi32_self _ _ hi,
    lane32_srai_epi32_31 _ _ hi, lane32_add_epi32 _ _ _ hi]
  exact adds_mask_bit _ _ (lane_lt 32 i A) (lane_lt 32 i B)

theorem toSigned_add_mod (x y : Nat) (hx : x < 2 ^ 32) (hy : y < 2 ^ 32)
    (h : signedMin 32 ≤ toSigned 32 x + toSigned 32 y
      ∧ toSigned 32 x + toSigned 32 y ≤ signedMax 32) :
    toSigned 32 ((x + y) % 2 ^ 32) = toSigned 32 x + toSigned 32 y := by
  have hv : (x + y) % 2 ^ 32 < 2 ^ 32 := Nat.mod_lt _ (by norm_num)
  rw [toSigned_of_lt _ hv]
  rw [toSigned_of_lt x hx, toSigned_of_lt y hy] at h ⊢
  unfold signedMin signedMax at h
  have hvv : x + y < 2 ^ 32 ∧ (x + y) % 2 ^ 32 = x + y
      ∨ 2 ^ 32 ≤ x + y ∧ (x + y) % 2 ^ 32 + 2 ^ 32 = x + y := by
    omega
  generalize (x + y) % 2 ^ 32 = v at *
  norm_num at hx hy hv hvv h ⊢
  by_cases hx1 : x < 2147483648 <;> by_cases hy1 : y < 2147483648 <;>
    simp only [hx1, hy1, if_true, if_false] at h ⊢ <;> split_ifs <;> omega

/-- C30: the SSE2 signed 32-bit `adds` is exact when nothing overflows. For all
registers `A`, `B` and every lane `i` whose unbounded sum `a[i] + b[i]` lies in
`[-2^31, 2^31 - 1]`, lane `i` of `adds(A, B)` is `a[i] + b[i]`; and in every lane
`j` the mask selects the wrapped sum `v` exactly when the sum of that lane does
not overflow, the sign mask `a >> 31` otherwise. -/
theorem sse_adds_int32x4_exact (A B : Nat) (i : Fin 4)
    (h : signedMin 32 ≤ lanesOf int32 4 A i + lanesOf int32 4 B i
      ∧ lanesOf int32 4 A i + lanesOf int32 4 B i ≤ signedMax 32) :
    lanesOf int32 4 (sse.adds_int32x4 A B) i = lanesOf int32 4 A i + lanesOf int32 4 B i ∧
    ∀ j : Fin 4, lane 32 j (sse.adds_int32x4 A B)
      = if signedMin 32 ≤ lanesOf int32 4 A j + lanesOf int32 4 B j
          ∧ lanesOf int32 4 A j + lanesOf int32 4 B j ≤ signedMax 32
        then lane 32 j (_mm_add_epi32 A B) else lane 32 j (_mm_srai_epi32 A 31) := by
  have hl : ∀ (R : Nat) (j : Fin 4), lanesOf int32 4 R j = toSigned 32 (lane 32 j R) := by
    intro R j
    unfold lanesOf
    exact ofBits_signed int32 rfl _
  simp only [hl] at h ⊢
  refine ⟨?_, fun j => lane32_sse_adds_int32x4 A B j j.isLt⟩
  rw [lane32_sse_adds_int32x4 A B i i.isLt, if_pos h, lane32_add_epi32 _ _ _ i.isLt]
  exact toSigned_add_mod _ _ (lane_lt 32 i A) (lane_lt 32 i B) h

/-- The hypothesis of C30 holds in lane 0 of the registers with lanes
`[2147483646, 2147483647, 0, 0]` and `[1, 1, 0, 0]`, where the sum is
`2147483647`; lane 1 overflows and holds the sign mask `0`. -/
theorem sse_adds_int32x4_exact_witness :
    (signedMin 32 ≤ lanesOf int32 4 (_mm_set_epi32 0 0 0x7FFFFFFF 0x7FFFFFFE) 0
        + lanesOf int32 4 (_mm_set_epi32 0 0 1 1) 0
      ∧ lanesOf int32 4 (_mm_set_epi32 0 0 0x7FFFFFFF 0x7FFFFFFE) 0
        + lanesOf int32 4 (_mm_set_epi32 0 0 1 1) 0 ≤ signedMax 32) ∧
    (lanesOf int32 4
        (sse.adds_int32x4 (_mm_set_epi32 0 0 0x7FFFFFFF 0x7FFFFFFE) (_mm_set_epi32 0 0 1 1)) 0
        = lanesOf int32 4 (_mm_set_epi32 0 0 0x7FFFFFFF 0x7FFFFFFE) 0
          + lanesOf int32 4 (_mm_set_epi32 0 0 1 1) 0 ∧
      ∀ j : Fin 4, lane 32 j
          (sse.adds_int32x4 (_mm_set_epi32 0 0 0x7FFFFFFF 0x7FFFFFFE) (_mm_set_epi32 0 0 1 1))
        = if signedMin 32 ≤ lanesOf int32 4 (_mm_set_epi32 0 0 0x7FFFFFFF 0x7FFFFFFE) j
              + lanesOf int32 4 (_mm_set_epi32 0 0 1 1) j
            ∧ lanesOf int32 4 (_mm_set_epi32 0 0 0x7FFFFFFF 0x7FFFFFFE) j
              + lanesOf int32 4 (_mm_set_epi32 0 0 1 1) j ≤ signedMax 32
          then lane 32 j
            (_mm_add_epi32 (_mm_set_epi32 0 0 0x7FFFFFFF 0x7FFFFFFE) (_mm_set_epi32 0 0 1 1))
          else lane 32 j (_mm_srai_epi32 (_mm_set_epi32 0 0 0x7FFFFFFF 0x7FFFFFFE) 31)) ∧
    lanesOf int32 4
      (sse.adds_int32x4 (_mm_set_epi32 0 0 0x7FFFFFFF 0x7FFFFFFE) (_mm_set_epi32 0 0 1 1)) 0
      = 2147483647 ∧
    lanesOf int32 4
      (sse.adds_int32x4 (_mm_set_epi32 0 0 0x7FFFFFFF 0x7FFFFFFE) (_mm_set_epi32 0 0 1 1)) 1
      = 0 :=
  ⟨by decide,
    sse_adds_int32x4_exact (_mm_set_epi32 0 0 0x7FFFFFFF 0x7FFFFFFE) (_mm_set_epi32 0 0 1 1) 0
      (by decide),
    by decide, by decide⟩

/-! ## Indexed access -/

theorem lane32_set_component (i : Fin 4) (A s : Nat) (j : Fin 4) :
    lane 32 j (sse.set_component i A s) = if j = i then s % 2 ^ 32 else lane 32 j A := by
  have hs : ∀ k, k < 4 → lane 32 k (_mm_set1_epi32 s) = s % 2 ^ 32 := by
    intro k hk
    unfold _mm_set1_epi32
    rw [lane_lanewise _ _ _ _ hk]
  have hl : ∀ k, lane 32 k A % 2 ^ 32 = lane 32 k A :=
    fun k => Nat.mod_eq_of_lt (lane_lt _ _ _)
  have hl2 : ∀ k, lane 32 k A < 4294967296 := by
    intro k
    have h := lane_lt 32 k A
    norm_num at h
    exact h
  unfold sse.set_component sse.set_component_0 sse.set_component_1 sse.set_component_2
    sse.set_component_3 sse.simd_shuffle_epi _mm_castps_si128 _mm_castsi128_ps _mm_shuffle_ps
    _mm_unpacklo_epi32 _mm_unpackhi_epi32
  fin_cases i <;> fin_cases j <;>
    simp [lane_ofLanes, hs, hl, hl2, show lane 2 0 (_MM_SHUFFLE 3 2 3 0) = 0 from by decide,
      show lane 2 1 (_MM_SHUFFLE 3 2 3 0) = 3 from by decide,
      show lane 2 2 (_MM_SHUFFLE 3 2 3 0) = 2 from by decide,
      show lane 2 3 (_MM_SHUFFLE 3 2 3 0) = 3 from by decide,
      show lane 2 0 (_MM_SHUFFLE 3 2 0 1) = 1 from by decide,
      show lane 2 1 (_MM_SHUFFLE 3 2 0 1) = 0 from by decide,
      show lane 2 2 (_MM_SHUFFLE 3 2 0 1) = 2 from by decide,
      show lane 2 3 (_MM_SHUFFLE 3 2 0 1) = 3 from by decide,
      show lane 2 0 (_MM_SHUFFLE 3 0 1 0) = 0 from by decide,
      show lane 2 1 (_MM_SHUFFLE 3 0 1 0) = 1 from by decide,
      show lane 2 2 (_MM_SHUFFLE 3 0 1 0) = 0 from by decide,
      show lane 2 3 (_MM_SHUFFLE 3 0 1 0) = 3 from by decide,
      show lane 2 0 (_MM_SHUFFLE 0 1 1 0) = 0 from by decide,
      show lane 2 1 (_MM_SHUFFLE 0 1 1 0) = 1 from by decide,
      show lane 2 2 (_MM_SHUFFLE 0 1 1 0) = 1 from by decide,
      show lane 2 3 (_MM_SHUFFLE 0 1 1 0) = 0 from by decide]

theorem sse_get_component_eq (j : Fin 4) (A : Nat) : sse.get_component j A = lane 32 j A := by
  have h : ∀ c k, k < 4 → lane 32 0 (_mm_shuffle_epi32 A c) = lane 32 (lane 2 0 c) A := by
    intro c k _
    unfold _mm_shuffle_epi32
    rw [lane_lanewise _ _ _ _ (by decide), Nat.mod_eq_of_lt (lane_lt _ _ _)]
  unfold sse.get_component _mm_cvtsi128_si32
  fin_cases j
  · rfl
  · simp [h 0x55 0, show lane 2 0 0x55 = 1 from by decide]
  · simp [h 0xaa 0, show lane 2 0 0xaa = 2 from by decide]
  · simp [h 0xff 0, show lane 2 0 0xff = 3 from by decide]

theorem portable_get_set_component (i j : Fin 4) (a : scalar_type Int 4) (x : Int) :
    portable.get_component j (portable.set_component i a x) = if i = j then x else a j := by
  unfold portable.get_component portable.set_component
  rw [setLane_apply]
  by_cases h : i = j
  · rw [if_pos h, if_pos (by rw [h])]
  · rw [if_neg h, if_neg (fun hv => h (Fin.ext hv.symm))]

theorem sse_get_set_component (i j : Fin 4) (A s : Nat) :
    sse.get_component j (sse.set_component i A s)
      = if i = j then s % 2 ^ 32 else lane 32 j A := by
  rw [sse_get_component_eq, lane32_set_component]
  by_cases h : i = j
  · rw [if_pos h, if_pos h.symm]
  · rw [if_neg h, if_neg (fun hv => h hv.symm)]

/-- C31: SSE2 `set_component` writes exactly one lane. For all `i`, `j` in
{0, 1, 2, 3}, every register `A` and every 32-bit scalar `s`,
`get_component<j>(set_component<i>(A, s))` in the path without SSE4.1 is `s` when
`i = j` and lane `j` of `A` otherwise, and `get_component<j>` reads lane `j`; the
portable `a[Index] = s` behaves the same way, and for `uint32` and `int32` lanes
the SSE2 result read in the lane type is the portable result on the vector the
register holds. -/
theorem set_component_writes_one_lane (i j : Fin 4) (A s : Nat) (hs : s < 2 ^ 32)
    (T : ScalarType) (hT : T.bits = 32) (a : scalar_type Int 4) (x : Int)
    (hx : T.InRange x) :
    sse.get_component j (sse.set_component i A s) = (if i = j then s else lane 32 j A) ∧
    sse.get_component j A = lane 32 j A ∧
    portable.get_component j (portable.set_component i a x) = (if i = j then x else a j) ∧
    T.ofBits (sse.get_component j (sse.set_component i A (toUnsigned 32 x)))
      = portable.get_component j (portable.set_component i (lanesOf T 4 A) x) := by
  refine ⟨?_, sse_get_component_eq j A, portable_get_set_component i j a x, ?_⟩
  · rw [sse_get_set_component, Nat.mod_eq_of_lt hs]
  · rw [sse_get_set_component, portable_get_set_component,
      Nat.mod_eq_of_lt (toUnsigned_lt 32 x)]
    obtain ⟨w, sg⟩ := T
    simp only at hT
    subst hT
    by_cases h : i = j
    · rw [if_pos h, if_pos h]
      exact convert_of_inRange _ (Or.inr (Or.inr rfl)) x hx
    · rw [if_neg h, if_neg h]
      rfl

/-- The hypotheses of C31 hold for `int32` lanes when lane 1 of the register
with lanes `[1, 2, 3, 4]` is set to `7`: reading lane 1 gives `7`, reading lane 2
gives `3`. -/
theorem set_component_writes_one_lane_witness :
    ((7 : Nat) < 2 ^ 32 ∧ int32.bits = 32 ∧ int32.InRange (-5)) ∧
    (sse.get_component 1 (sse.set_component 1 (_mm_set_epi32 4 3 2 1) 7)
        = (if (1 : Fin 4) = 1 then 7 else lane 32 (1 : Fin 4) (_mm_set_epi32 4 3 2 1)) ∧
      sse.get_component 1 (_mm_set_epi32 4 3 2 1)
        = lane 32 (1 : Fin 4) (_mm_set_epi32 4 3 2 1) ∧
      portable.get_component 1 (portable.set_component 1 component_example (-5))
        = (if (1 : Fin 4) = 1 then -5 else component_example 1) ∧
      int32.ofBits
          (sse.get_component 1 (sse.set_component 1 (_mm_set_epi32 4 3 2 1) (toUnsigned 32 (-5))))
        = portable.get_component 1
            (portable.set_component 1 (lanesOf int32 4 (_mm_set_epi32 4 3 2 1)) (-5))) ∧
    sse.get_component 1 (sse.set_component 1 (_mm_set_epi32 4 3 2 1) 7) = 7 ∧
    sse.get_component 2 (sse.set_component 1 (_mm_set_epi32 4 3 2 1) 7) = 3 :=
  ⟨⟨by decide, by decide, by decide⟩,
    set_component_writes_one_lane 1 1 (_mm_set_epi32 4 3 2 1) 7 (by decide) int32 (by decide)
      component_example (-5) (by decide),
    by decide, by decide⟩

/-! ## pack after unpack -/

theorem byte_sum_word (s : Nat) (hs : s < 2 ^ 32) :
    ((lane 8 0 s : Nat) : Int) + (lane 8 1 s : Nat) * 2 ^ 8 + (lane 8 2 s : Nat) * 2 ^ 16
      + (lane 8 3 s : Nat) * 2 ^ 24 = (s : Int) := by
  have h := lane32_zero_bytes s
  have h0 : lane 32 0 s = s := by
    unfold lane
    rw [Nat.mul_zero, pow_zero, Nat.div_one, Nat.mod_eq_of_lt hs]
  rw [h0] at h
  zify at h
  rw [h]
  ring

theorem lane8_byte (i s : Nat) : (0 : Int) ≤ (lane 8 i s : Nat) ∧ ((lane 8 i s : Nat) : Int) ≤ 255 := by
  have h := lane_lt 8 i s
  norm_num at h
  omega

theorem portable_pack_unpack (bc : Int → Int) (hbc : ∀ z, bc z = clamp z 0 255) (s : Nat)
    (hs : s < 2 ^ 32) : portable.pack bc (portable.unpack s) = s := by
  have h := portable_pack_eq bc hbc (portable.unpack s)
  rw [portable_unpack_apply s hs 0, portable_unpack_apply s hs 1, portable_unpack_apply s hs 2,
    portable_unpack_apply s hs 3] at h
  simp only [Fin.val_zero, Fin.val_one, Fin.val_two,
    show ((3 : Fin 4) : Nat) = 3 from rfl] at h
  rw [clamp_byte_id _ (lane8_byte 0 s), clamp_byte_id _ (lane8_byte 1 s),
    clamp_byte_id _ (lane8_byte 2 s), clamp_byte_id _ (lane8_byte 3 s), byte_sum_word s hs] at h
  exact_mod_cast h

theorem sse_pack_of_byte_lanes (R s : Nat) (hs : s < 2 ^ 32)
    (hR : ∀ i, i < 4 → lane 32 i R = lane 8 i s) : sse.pack R = s := by
  have hb : ∀ i, i < 4 → clamp (toSigned 32 (lane 32 i R)) 0 255 = ((lane 8 i s : Nat) : Int) := by
    intro i hi
    have hl := lane_lt 8 i s
    rw [hR i hi, toSigned_of_lt _ (lt_of_lt_of_le hl (by norm_num)),
      if_pos (lt_of_lt_of_le hl (by norm_num))]
    exact clamp_byte_id _ (lane8_byte i s)
  have h := sse_pack_eq R
  rw [hb 0 (by decide), hb 1 (by decide), hb 2 (by decide), hb 3 (by decide),
    byte_sum_word s hs] at h
  exact_mod_cast h

/-- C32: `pack` after `unpack` returns the word. For every 32-bit unsigned word
`s`, the lanes of `unpack(s)` lie in `[0, 255]` and `pack(unpack(s))` is `s`, in
the portable backend (with a `byteclamp` that clamps into `[0, 255]`) and in the
SSE2 backend, with either `unpack` of the latter. -/
theorem pack_unpack_word (s : Nat) (hs : s < 2 ^ 32) (bc : Int → Int)
    (hbc : ∀ z, bc z = clamp z 0 255) :
    (∀ i, 0 ≤ portable.unpack s i ∧ portable.unpack s i ≤ 255) ∧
    portable.pack bc (portable.unpack s) = s ∧
    sse.pack (sse.unpack s) = s ∧
    sse.pack (sse.unpack_sse4_1 s) = s := by
  refine ⟨?_, portable_pack_unpack bc hbc s hs, ?_, ?_⟩
  · intro i
    rw [portable_unpack_apply s hs i]
    exact lane8_byte i s
  · refine sse_pack_of_byte_lanes _ s hs ?_
    intro i hi
    rw [lane32_sse_unpack s i hi, Nat.mod_eq_of_lt hs]
  · refine sse_pack_of_byte_lanes _ s hs ?_
    intro i hi
    rw [lane32_sse_unpack_sse4_1 s i hi, Nat.mod_eq_of_lt hs]

/-- The hypotheses of C32 hold for the word `0x80FF0701` and the `byteclamp` of
the library. -/
theorem pack_unpack_word_witness :
    ((0x80FF0701 : Nat) < 2 ^ 32 ∧ ∀ z, byteclamp z = clamp z 0 255) ∧
    ((∀ i, 0 ≤ portable.unpack 0x80FF0701 i ∧ portable.unpack 0x80FF0701 i ≤ 255) ∧
      portable.pack byteclamp (portable.unpack 0x80FF0701) = 0x80FF0701 ∧
      sse.pack (sse.unpack 0x80FF0701) = 0x80FF0701 ∧
      sse.pack (sse.unpack_sse4_1 0x80FF0701) = 0x80FF0701) :=
  ⟨⟨by decide, fun _ => rfl⟩, pack_unpack_word 0x80FF0701 (by decide) byteclamp (fun _ => rfl)⟩

/-- C33: the signed saturating add is commutative. For every width `w` in
{8, 16, 32} and all signed `a`, `b` of that width,
`scalar_signed_adds(a, b) = scalar_signed_adds(b, a)`, although the code derives
the bound from the sign of its first operand and tests overflow on the second. -/
theorem scalar_signed_adds_comm (w : Nat) (hw : w = 8 ∨ w = 16 ∨ w = 32) (a b : Int)
    (ha : signedMin w ≤ a ∧ a ≤ signedMax w) (hb : signedMin w ≤ b ∧ b ≤ signedMax w) :
    scalar_signed_adds w a b = scalar_signed_adds w b a := by
  rw [scalar_signed_adds_eq w a b (by omega) (by omega) ha hb,
    scalar_signed_adds_eq w b a (by omega) (by omega) hb ha, Int.add_comm]

/-- The hypotheses of C33 hold at width 8 for `a = 127`, `b = 1`, where both
orders saturate to `127`, the bound coming from `a = 127` in one order and from
`a = 1` in the other. -/
theorem scalar_signed_adds_comm_witness :
    (((8 : Nat) = 8 ∨ (8 : Nat) = 16 ∨ (8 : Nat) = 32) ∧
      (signedMin 8 ≤ 127 ∧ (127 : Int) ≤ signedMax 8) ∧
      (signedMin 8 ≤ 1 ∧ (1 : Int) ≤ signedMax 8)) ∧
    scalar_signed_adds 8 127 1 = scalar_signed_adds 8 1 127 ∧
    scalar_signed_adds 8 127 1 = 127 ∧ scalar_signed_adds 8 1 127 = 127 :=
  ⟨⟨by decide, by decide, by decide⟩,
    scalar_signed_adds_comm 8 (by decide) 127 1 (by decide) (by decide),
    by decide, by decide⟩

/-! ## Logical shifts of `int32x4` -/

theorem set4_of_lane {α : Type} (f : Fin 4 → α) (i : Fin 4) :
    set4 (f 0) (f 1) (f 2) (f 3) i = f i := by
  fin_cases i <;> rfl

theorem portable_srl_int32x4_apply (Count : Nat) (a : scalar_type Int 4) (i : Fin 4) :
    portable.srl_int32x4 Count a i = int32.ofBits (toUnsigned 32 (a i) >>> Count) := by
  unfold portable.srl_int32x4
  rw [setLane4_apply]
  exact set4_of_lane (fun k => int32.ofBits (toUnsigned 32 (a k) >>> Count)) i

theorem portable_sll_int32x4_apply (Count : Nat) (a : scalar_type Int 4) (i : Fin 4) :
    portable.sll_int32x4 Count a i
      = int32.ofBits ((toUnsigned 32 (a i) <<< Count) % 2 ^ 32) := by
  unfold portable.sll_int32x4
  rw [setLane4_apply]
  exact set4_of_lane (fun k => int32.ofBits ((toUnsigned 32 (a k) <<< Count) % 2 ^ 32)) i

/-- A pattern shifted right by at least one position reads as a non-negative
value below `2 ^ (32 - Count)`. -/
theorem int32_ofBits_shr (u Count : Nat) (hu : u < 2 ^ 32) (h1 : 1 ≤ Count) (h32 : Count < 32) :
    int32.ofBits (u >>> Count) = ((u / 2 ^ Count : Nat) : Int) ∧
    u / 2 ^ Count < 2 ^ (32 - Count) := by
  have hP : 0 < 2 ^ Count := Nat.pos_pow_of_pos _ (by decide)
  have hPQ : 2 ^ (32 - Count) * 2 ^ Count = 2 ^ 32 := by
    rw [← pow_add, Nat.sub_add_cancel (le_of_lt h32)]
  have hd : u / 2 ^ Count < 2 ^ (32 - Count) := by
    rw [Nat.div_lt_iff_lt_mul hP, hPQ]
    exact hu
  have hQ : 2 ^ (32 - Count) ≤ 2 ^ 31 := Nat.pow_le_pow_right (by decide) (by omega)
  refine ⟨?_, hd⟩
  rw [Nat.shiftRight_eq_div_pow, ofBits_signed int32 rfl]
  show toSigned 32 (u / 2 ^ Count) = _
  rw [toSigned_of_lt _ (lt_of_lt_of_le hd (le_trans hQ (by norm_num))),
    if_pos (lt_of_lt_of_le hd hQ)]

theorem toUnsigned_mul_pow (a : Int) (n : Nat) :
    (toUnsigned 32 a <<< n) % 2 ^ 32 = toUnsigned 32 (a * 2 ^ n) := by
  have h1 := toUnsigned_cast 32 a
  have h2 := toUnsigned_cast 32 (a * 2 ^ n)
  have key : (((toUnsigned 32 a * 2 ^ n) % 2 ^ 32 : Nat) : Int)
      = ((toUnsigned 32 (a * 2 ^ n) : Nat) : Int) := by
    rw [h2, Int.natCast_mod, Nat.cast_mul, h1]
    have e1 : ((2 ^ 32 : Nat) : Int) = 2 ^ 32 := by norm_num
    have e2 : ((2 ^ n : Nat) : Int) = 2 ^ n := by push_cast; rfl
    rw [e1, e2, Int.mul_emod (a % 2 ^ 32), Int.emod_emod, ← Int.mul_emod]
  rw [Nat.shiftLeft_eq]
  exact_mod_cast key

theorem toUnsigned_int32_ofBits (l : Nat) (hl : l < 2 ^ 32) :
    toUnsigned 32 (int32.ofBits l) = l := by
  have h := toUnsigned_ofBits int32 l
  rw [show int32.bits = 32 from rfl, Nat.mod_eq_of_lt hl] at h
  exact h

theorem lanesOf_sse_shift_int32x4 (Count : Nat) (s : Nat) (i : Fin 4) :
    lanesOf int32 4 (sse.srl_int32x4 Count s) i
      = portable.srl_int32x4 Count (lanesOf int32 4 s) i ∧
    lanesOf int32 4 (sse.sll_int32x4 Count s) i
      = portable.sll_int32x4 Count (lanesOf int32 4 s) i := by
  have hl : lane 32 i s < 2 ^ 32 := lane_lt 32 i s
  constructor
  · rw [portable_srl_int32x4_apply]
    unfold lanesOf sse.srl_int32x4 _mm_srli_epi32
    show int32.ofBits (lane 32 i (lanewise 32 4 _)) = _
    rw [lane_lanewise _ _ _ _ i.isLt]
    show _ = int32.ofBits (toUnsigned 32 (int32.ofBits (lane 32 i s)) >>> Count)
    rw [toUnsigned_int32_ofBits _ hl]
    exact ofBits_mod int32 _
  · rw [portable_sll_int32x4_apply]
    unfold lanesOf sse.sll_int32x4 _mm_slli_epi32
    show int32.ofBits (lane 32 i (lanewise 32 4 _)) = _
    rw [lane_lanewise _ _ _ _ i.isLt]
    show _ = int32.ofBits ((toUnsigned 32 (int32.ofBits (lane 32 i s)) <<< Count) % 2 ^ 32)
    rw [toUnsigned_int32_ofBits _ hl]

/-- C34: `srl` on signed lanes is a logical shift. For every `int32x4` `a`, every
`Count` with `1 <= Count < 32` and every lane `i`, lane `i` of the portable
`srl<Count>(a)` is the floor of `(a[i] mod 2^32) / 2^Count`, which is
non-negative and below `2^(32 - Count)`; lane `i` of `sll<Count>(a)` is
`(a[i] * 2^Count) mod 2^32` read as a signed value; and the SSE2 `srl` and `sll`
hold the lanes of the portable ones. -/
theorem srl_int32x4_logical (Count : Nat) (h1 : 1 ≤ Count) (h32 : Count < 32)
    (a : scalar_type Int 4) (s : Nat) (i : Fin 4) :
    portable.srl_int32x4 Count a i = (a i % 2 ^ 32) / 2 ^ Count ∧
    (0 ≤ portable.srl_int32x4 Count a i ∧ portable.srl_int32x4 Count a i < 2 ^ (32 - Count)) ∧
    portable.sll_int32x4 Count a i = toSigned 32 (toUnsigned 32 (a i * 2 ^ Count)) ∧
    lanesOf int32 4 (sse.srl_int32x4 Count s) i
      = portable.srl_int32x4 Count (lanesOf int32 4 s) i ∧
    lanesOf int32 4 (sse.sll_int32x4 Count s) i
      = portable.sll_int32x4 Count (lanesOf int32 4 s) i := by
  have h := int32_ofBits_shr (toUnsigned 32 (a i)) Count (toUnsigned_lt 32 _) h1 h32
  have hc := toUnsigned_cast 32 (a i)
  rw [portable_srl_int32x4_apply, portable_sll_int32x4_apply, h.1]
  refine ⟨?_, ⟨Int.natCast_nonneg _, ?_⟩, ?_, lanesOf_sse_shift_int32x4 Count s i⟩
  · rw [← hc]
    push_cast
    rfl
  · exact_mod_cast h.2
  · rw [toUnsigned_mul_pow, ofBits_signed int32 rfl]
    rfl

/-- The hypotheses of C34 hold for a shift by 4 of the example vector, whose
lane 0 is `-7`: `srl` gives `268435455`, `sll` gives `-112`. -/
theorem srl_int32x4_logical_witness :
    ((1 : Nat) ≤ 4 ∧ (4 : Nat) < 32) ∧
    (portable.srl_int32x4 4 sra_example 0 = (sra_example 0 % 2 ^ 32) / 2 ^ 4 ∧
      (0 ≤ portable.srl_int32x4 4 sra_example 0
        ∧ portable.srl_int32x4 4 sra_example 0 < 2 ^ (32 - 4)) ∧
      portable.sll_int32x4 4 sra_example 0
        = toSigned 32 (toUnsigned 32 (sra_example 0 * 2 ^ 4)) ∧
      lanesOf int32 4 (sse.srl_int32x4 4 0xFFFFFFF9) 0
        = portable.srl_int32x4 4 (lanesOf int32 4 0xFFFFFFF9) 0 ∧
      lanesOf int32 4 (sse.sll_int32x4 4 0xFFFFFFF9) 0
        = portable.sll_int32x4 4 (lanesOf int32 4 0xFFFFFFF9) 0) ∧
    portable.srl_int32x4 4 sra_example 0 = 268435455 ∧
    portable.sll_int32x4 4 sra_example 0 = -112 ∧
    lanesOf int32 4 (sse.srl_int32x4 4 0xFFFFFFF9) 0 = 268435455 ∧
    lanesOf int32 4 (sse.sll_int32x4 4 0xFFFFFFF9) 0 = -112 :=
  ⟨⟨by decide, by decide⟩,
    srl_int32x4_logical 4 (by decide) (by decide) sra_example 0xFFFFFFF9 0,
    by decide, by decide, by decide, by decide⟩

/-! ## abs and neg at the minimum -/

/-- Conversion to a signed `w`-bit type of a value in `[-2^(w-1), 2^(w-1)]`:
only the upper end wraps. -/
theorem signed_wrap {w : Nat} (hw : 0 < w) (z : Int)
    (hz : -(2 ^ (w - 1) : Int) ≤ z ∧ z ≤ 2 ^ (w - 1)) :
    toSigned w (toUnsigned w z) = if z = 2 ^ (w - 1) then -(2 ^ (w - 1)) else z := by
  have hp := pow_pred_double hw
  have hH : (0 : Int) < 2 ^ (w - 1) := by positivity
  have hpi : (2 : Int) ^ w = 2 * 2 ^ (w - 1) := by exact_mod_cast hp
  have hc : ((2 ^ (w - 1) : Nat) : Int) = 2 ^ (w - 1) := by push_cast; rfl
  have hcw : ((2 ^ w : Nat) : Int) = 2 ^ w := by push_cast; rfl
  have h := toUnsigned_cast w z
  have hl := toUnsigned_lt w z
  rw [emod_range _ _ (by omega) (by omega)] at h
  generalize toUnsigned w z = u at h hl ⊢
  rw [toSigned_of_lt u hl]
  generalize (2 : Nat) ^ w = M at *
  generalize (2 : Nat) ^ (w - 1) = H at *
  generalize (2 : Int) ^ w = Mi at *
  generalize (2 : Int) ^ (w - 1) = Hi at *
  split_ifs at h ⊢ <;> omega

theorem scalar_abs_signed (T : ScalarType) (hs : T.isSigned = true) (hw : 0 < T.bits) (a : Int)
    (ha : T.InRange a) :
    scalar_abs T a = if a = signedMin T.bits then signedMin T.bits else |a| := by
  have hr : -(2 ^ (T.bits - 1) : Int) ≤ a ∧ a < 2 ^ (T.bits - 1) := by
    unfold ScalarType.InRange at ha
    rw [hs] at ha
    exact ha
  have habs : (if a < 0 then -a else a) = |a| := by
    split_ifs with h
    · exact (abs_of_neg h).symm
    · exact (abs_of_nonneg (not_lt.mp h)).symm
  unfold scalar_abs ScalarType.convert signedMin
  rw [ofBits_signed T hs, habs, signed_wrap hw _ (by rw [← habs]; split_ifs <;> omega)]
  have hcond : (|a| = 2 ^ (T.bits - 1)) ↔ a = -(2 ^ (T.bits - 1)) := by
    rw [← habs]
    split_ifs <;> constructor <;> intro h <;> omega
  by_cases h : a = -(2 ^ (T.bits - 1))
  · rw [if_pos (hcond.mpr h), if_pos h]
  · rw [if_neg (fun hh => h (hcond.mp hh)), if_neg h]

theorem scalar_neg_signed (T : ScalarType) (hs : T.isSigned = true) (hw : 0 < T.bits) (a : Int)
    (ha : T.InRange a) :
    scalar_neg T a = if a = signedMin T.bits then signedMin T.bits else -a := by
  have hr : -(2 ^ (T.bits - 1) : Int) ≤ a ∧ a < 2 ^ (T.bits - 1) := by
    unfold ScalarType.InRange at ha
    rw [hs] at ha
    exact ha
  unfold scalar_neg ScalarType.convert signedMin
  rw [ofBits_signed T hs, signed_wrap hw _ (by omega)]
  by_cases h : a = -(2 ^ (T.bits - 1))
  · rw [if_pos (by omega), if_pos h]
  · rw [if_neg (by omega), if_neg h]

theorem scalar_abs_inRange (T : ScalarType) (hs : T.isSigned = true) (hw : 0 < T.bits)
    (a : Int) (ha : T.InRange a) : T.InRange (scalar_abs T a) := by
  have hr : -(2 ^ (T.bits - 1) : Int) ≤ a ∧ a < 2 ^ (T.bits - 1) := by
    unfold ScalarType.InRange at ha
    rw [hs] at ha
    exact ha
  have hH : (0 : Int) < 2 ^ (T.bits - 1) := by positivity
  rw [scalar_abs_signed T hs hw a ha]
  unfold ScalarType.InRange signedMin
  rw [hs, if_pos rfl]
  split_ifs with h
  · omega
  · rcases abs_cases a with ⟨h1, _⟩ | ⟨h1, _⟩ <;> rw [h1] <;> omega

theorem scalar_abs_idem (T : ScalarType) (hs : T.isSigned = true) (hw : 0 < T.bits) (a : Int)
    (ha : T.InRange a) : scalar_abs T (scalar_abs T a) = scalar_abs T a := by
  have hH : (0 : Int) < 2 ^ (T.bits - 1) := by positivity
  rw [scalar_abs_signed T hs hw _ (scalar_abs_inRange T hs hw a ha),
    scalar_abs_signed T hs hw a ha]
  unfold signedMin
  by_cases h : a = -(2 ^ (T.bits - 1))
  · rw [if_pos h, if_pos rfl]
  · rw [if_neg h, abs_abs, if_neg]
    intro hh
    have := abs_nonneg a
    omega

theorem toUnsigned_neg_toSigned (w : Nat) (x : Nat) :
    toUnsigned w (-toSigned w x) = toUnsigned w ((0 : Int) - x) := by
  have h : (-toSigned w x) % 2 ^ w = ((0 : Int) - x) % 2 ^ w := by
    rw [zero_sub]
    exact Int.ModEq.neg (toSigned_emod w x)
  unfold toUnsigned
  rw [h]

theorem lanesOf_abs_of_pattern (T : ScalarType) (hs : T.isSigned = true) (hw : 0 < T.bits)
    (n : Nat) (a r : Nat) (i : Fin n)
    (hr : lane T.bits i r
      = if lane T.bits i a < 2 ^ (T.bits - 1) then lane T.bits i a
        else 2 ^ T.bits - lane T.bits i a) :
    lanesOf T n r i = portable.abs T (lanesOf T n a) i := by
  unfold portable.abs
  rw [scalar_unroll_unary_apply]
  unfold lanesOf
  rw [scalar_abs_ofBits T hs hw _ (lane_lt _ _ _), hr]

theorem lanesOf_neg_of_pattern (T : ScalarType) (hs : T.isSigned = true) (n : Nat)
    (a r : Nat) (i : Fin n)
    (hr : lane T.bits i r = toUnsigned T.bits ((0 : Int) - (lane T.bits i a : Nat))) :
    lanesOf T n r i = portable.neg T (lanesOf T n a) i := by
  unfold portable.neg
  rw [scalar_unroll_unary_apply]
  unfold lanesOf scalar_neg ScalarType.convert
  rw [hr, ofBits_signed T hs (lane T.bits i a), toUnsigned_neg_toSigned]

theorem lane8_neg_int8x16 (a i : Nat) (hi : i < 16) :
    lane 8 i (sse.neg_int8x16 a) = toUnsigned 8 ((0 : Int) - (lane 8 i a : Nat)) := by
  unfold sse.neg_int8x16 _mm_sub_epi8 _mm_setzero_si128
  rw [lane_lanewise _ _ _ _ hi, lane_zero_reg, Nat.mod_eq_of_lt (toUnsigned_lt _ _),
    Nat.cast_zero]

theorem lane16_neg_int16x8 (a i : Nat) (hi : i < 8) :
    lane 16 i (sse.neg_int16x8 a) = toUnsigned 16 ((0 : Int) - (lane 16 i a : Nat)) := by
  unfold sse.neg_int16x8 _mm_sub_epi16 _mm_setzero_si128
  rw [lane_lanewise _ _ _ _ hi, lane_zero_reg, Nat.mod_eq_of_lt (toUnsigned_lt _ _),
    Nat.cast_zero]

/-- C35: `abs` and `neg` wrap at the minimum value. For signed 8- and 16-bit
lanes, `abs(a)` is `|a|` and non-negative for every `a` other than `MIN_w`, while
`abs(MIN_w)` and `neg(MIN_w)` are `MIN_w`, so that `abs` is negative only there;
`abs(abs(a))` is `abs(a)` for every `a`; and the SSE2 `abs` and `neg` of `int8x16`
and `int16x8` hold the lanes of the portable ones. -/
theorem abs_neg_wrap_at_min (T : ScalarType) (hT : T = int8 ∨ T = int16) (Size : Nat)
    (v : scalar_type Int Size) (hv : ∀ i, T.InRange (v i)) (i : Fin Size) (A : Nat)
    (k : Fin 16) (l : Fin 8) :
    (v i ≠ signedMin T.bits → 0 ≤ portable.abs T v i ∧ portable.abs T v i = |v i|) ∧
    (v i = signedMin T.bits →
      portable.abs T v i = signedMin T.bits ∧ portable.neg T v i = signedMin T.bits) ∧
    (portable.abs T v i < 0 ↔ v i = signedMin T.bits) ∧
    portable.abs T (portable.abs T v) i = portable.abs T v i ∧
    (lanesOf int8 16 (sse.abs_int8x16 A) k = portable.abs int8 (lanesOf int8 16 A) k ∧
      lanesOf int8 16 (sse.neg_int8x16 A) k = portable.neg int8 (lanesOf int8 16 A) k) ∧
    (lanesOf int16 8 (sse.abs_int16x8 A) l = portable.abs int16 (lanesOf int16 8 A) l ∧
      lanesOf int16 8 (sse.neg_int16x8 A) l = portable.neg int16 (lanesOf int16 8 A) l) := by
  have hs : T.isSigned = true := by rcases hT with rfl | rfl <;> rfl
  have hw : 0 < T.bits := by rcases hT with rfl | rfl <;> decide
  have hH : (0 : Int) < 2 ^ (T.bits - 1) := by positivity
  have ha := scalar_abs_signed T hs hw (v i) (hv i)
  have hn := scalar_neg_signed T hs hw (v i) (hv i)
  have hidem := scalar_abs_idem T hs hw (v i) (hv i)
  have hp : ∀ u : scalar_type Int Size, portable.abs T u i = scalar_abs T (u i) := by
    intro u
    unfold portable.abs
    rw [scalar_unroll_unary_apply]
  have hpn : portable.neg T v i = scalar_neg T (v i) := by
    unfold portable.neg
    rw [scalar_unroll_unary_apply]
  rw [hp (portable.abs T v), hp v, hpn]
  refine ⟨?_, ?_, ?_, hidem, ⟨?_, ?_⟩, ⟨?_, ?_⟩⟩
  · intro h
    rw [ha, if_neg h]
    exact ⟨abs_nonneg _, rfl⟩
  · intro h
    rw [ha, hn, if_pos h, if_pos h]
    exact ⟨rfl, rfl⟩
  · rw [ha]
    unfold signedMin
    by_cases h : v i = -(2 ^ (T.bits - 1))
    · rw [if_pos h]
      exact ⟨fun _ => h, fun _ => by omega⟩
    · rw [if_neg h]
      exact ⟨fun hh => absurd hh (not_lt.mpr (abs_nonneg _)), fun hh => absurd hh h⟩
  · exact lanesOf_abs_of_pattern int8 rfl (by decide) 16 A _ k (lane8_abs_int8x16 A k k.isLt)
  · exact lanesOf_neg_of_pattern int8 rfl 16 A _ k (lane8_neg_int8x16 A k k.isLt)
  · exact lanesOf_abs_of_pattern int16 rfl (by decide) 8 A _ l (lane16_abs_int16x8 A l l.isLt)
  · exact lanesOf_neg_of_pattern int16 rfl 8 A _ l (lane16_neg_int16x8 A l l.isLt)

/-- The hypotheses of C35 hold for `int8` lanes of the example vector, whose
lane 0 is `-128`: `abs` and `neg` return `-128` there, and `abs` of lane 1,
`-127`, is `127`. -/
theorem abs_neg_wrap_at_min_witness :
    ((int8 = int8 ∨ int8 = int16) ∧ ∀ i, int8.InRange (abs_example i)) ∧
    ((abs_example 0 ≠ signedMin int8.bits →
        0 ≤ portable.abs int8 abs_example 0
          ∧ portable.abs int8 abs_example 0 = |abs_example 0|) ∧
      (abs_example 0 = signedMin int8.bits →
        portable.abs int8 abs_example 0 = signedMin int8.bits
          ∧ portable.neg int8 abs_example 0 = signedMin int8.bits) ∧
      (portable.abs int8 abs_example 0 < 0 ↔ abs_example 0 = signedMin int8.bits) ∧
      portable.abs int8 (portable.abs int8 abs_example) 0 = portable.abs int8 abs_example 0 ∧
      (lanesOf int8 16 (sse.abs_int8x16 0x80) 0 = portable.abs int8 (lanesOf int8 16 0x80) 0 ∧
        lanesOf int8 16 (sse.neg_int8x16 0x80) 0
          = portable.neg int8 (lanesOf int8 16 0x80) 0) ∧
      (lanesOf int16 8 (sse.abs_int16x8 0x80) 0 = portable.abs int16 (lanesOf int16 8 0x80) 0 ∧
        lanesOf int16 8 (sse.neg_int16x8 0x80) 0
          = portable.neg int16 (lanesOf int16 8 0x80) 0)) ∧
    portable.abs int8 abs_example 0 = -128 ∧
    portable.neg int8 abs_example 0 = -128 ∧
    portable.abs int8 abs_example 1 = 127 ∧
    lanesOf int8 16 (sse.abs_int8x16 0x80) 0 = -128 ∧
    lanesOf int8 16 (sse.neg_int8x16 0x80) 0 = -128 :=
  ⟨⟨by decide, by decide⟩,
    abs_neg_wrap_at_min int8 (Or.inl rfl) 16 abs_example (by decide) 0 0x80 0 0,
    by decide, by decide, by decide, by decide, by decide⟩

/-! ## Narrowing of 32-bit lanes -/

theorem sext16_value (x : Nat) :
    toSigned 32 ((x <<< 16) % 2 ^ 32) / 2 ^ 16 = toSigned 16 (x % 2 ^ 16) := by
  have hy : x % 2 ^ 16 < 2 ^ 16 := Nat.mod_lt _ (by norm_num)
  have hv : (x <<< 16) % 2 ^ 32 < 2 ^ 32 := Nat.mod_lt _ (by norm_num)
  have he : (x <<< 16) % 2 ^ 32 = x % 2 ^ 16 * 2 ^ 16 := by
    rw [Nat.shiftLeft_eq]
    omega
  rw [toSigned_of_lt _ hv, toSigned_of_lt _ hy, he]
  generalize x % 2 ^ 16 = y at *
  norm_num at hy ⊢
  split_ifs <;> omega

theorem toSigned16_range (y : Nat) : -32768 ≤ toSigned 16 y ∧ toSigned 16 y ≤ 32767 := by
  have h := toSigned_range (by decide : 0 < 16) y
  unfold signedMin signedMax at h
  norm_num at h
  exact h

/-- The lanes after the two shifts hold the sign extension of the low half. -/
theorem lane32_sext16 (a k : Nat) (hk : k < 4) :
    toSigned 32 (lane 32 k (_mm_srai_epi32 (_mm_slli_epi32 a 16) 16))
      = toSigned 16 (lane 32 k a % 2 ^ 16) := by
  have hr := toSigned16_range (lane 32 k a % 2 ^ 16)
  unfold _mm_srai_epi32 _mm_slli_epi32
  rw [lane_lanewise _ _ _ _ hk, lane_lanewise _ _ _ _ hk, sext16_value,
    Nat.mod_eq_of_lt (toUnsigned_lt _ _)]
  generalize toSigned 16 (lane 32 k a % 2 ^ 16) = z at hr ⊢
  refine (signed_wrap (by decide : 0 < 32) _ ?_).trans (if_neg ?_)
  · norm_num
    omega
  · norm_num
    omega

theorem toUnsigned16_toSigned16 (y : Nat) (hy : y < 2 ^ 16) : toUnsigned 16 (toSigned 16 y) = y := by
  have h := toUnsigned_ofBits int16 y
  rw [ofBits_signed int16 rfl] at h
  exact h.trans (Nat.mod_eq_of_lt hy)

theorem lane16_simd_packus_epi32 (a b j : Nat) (hj : j < 8) :
    lane 16 j (sse.simd_packus_epi32 a b)
      = (if j < 4 then lane 32 j a else lane 32 (j - 4) b) % 2 ^ 16 := by
  have hc : ∀ y : Nat, y < 2 ^ 16 →
      toUnsigned 16 (clamp (toSigned 16 y) (-32768) 32767) % 2 ^ 16 = y := by
    intro y hy
    have hr := toSigned16_range y
    have hcl : clamp (toSigned 16 y) (-32768) 32767 = toSigned 16 y := by
      unfold clamp
      split_ifs <;> omega
    rw [hcl, toUnsigned16_toSigned16 y hy, Nat.mod_eq_of_lt hy]
  unfold sse.simd_packus_epi32 _mm_packs_epi32
  simp only []
  rw [lane_lanewise _ _ _ _ hj]
  by_cases h : j < 4
  · rw [if_pos h, if_pos h, lane32_sext16 a j h]
    exact hc _ (Nat.mod_lt _ (by norm_num))
  · rw [if_neg h, if_neg h, lane32_sext16 b (j - 4) (by omega)]
    exact hc _ (Nat.mod_lt _ (by norm_num))

theorem lane16_packus_epi32 (a b j : Nat) (hj : j < 8)
    (hx : (if j < 4 then lane 32 j a else lane 32 (j - 4) b) ≤ 65535) :
    lane 16 j (_mm_packus_epi32 a b) = if j < 4 then lane 32 j a else lane 32 (j - 4) b := by
  have hc : ∀ x : Nat, x ≤ 65535 →
      toUnsigned 16 (clamp (toSigned 32 x) 0 65535) % 2 ^ 16 = x := by
    intro x hx
    have h1 : toSigned 32 x = (x : Int) := by
      rw [toSigned_of_lt x (by norm_num; omega), if_pos (by norm_num; omega)]
    have hcl : clamp (x : Int) 0 65535 = (x : Int) := by
      unfold clamp
      split_ifs <;> omega
    rw [h1, hcl, toUnsigned_natCast, Nat.mod_mod]
    exact Nat.mod_eq_of_lt (by norm_num; omega)
  unfold _mm_packus_epi32
  rw [lane_lanewise _ _ _ _ hj]
  by_cases h : j < 4
  · rw [if_pos h] at hx
    rw [if_pos h, if_pos h]
    exact hc _ hx
  · rw [if_neg h] at hx
    rw [if_neg h, if_neg h]
    exact hc _ hx

/-- C36: `simd_packus_epi32` narrows by truncation. For all registers `a`, `b`,
the eight 16-bit lanes of `simd_packus_epi32(a, b)` are the low 16 bits of the
four lanes of `a` followed by the low 16 bits of the four lanes of `b`: after the
two shifts every lane holds the sign extension of its low half, which the signed
saturation of `_mm_packs_epi32` leaves alone. For an input lane in `[0, 65535]`
the output lane is that of the unsigned-saturating `_mm_packus_epi32`. -/
theorem simd_packus_epi32_truncates (a b : Nat) (j : Fin 8) :
    lane 16 j (sse.simd_packus_epi32 a b)
      = (if j.val < 4 then lane 32 j a else lane 32 (j.val - 4) b) % 2 ^ 16 ∧
    (∀ k, k < 4 →
      (-32768 ≤ toSigned 32 (lane 32 k (_mm_srai_epi32 (_mm_slli_epi32 a 16) 16))
        ∧ toSigned 32 (lane 32 k (_mm_srai_epi32 (_mm_slli_epi32 a 16) 16)) ≤ 32767)
      ∧ (-32768 ≤ toSigned 32 (lane 32 k (_mm_srai_epi32 (_mm_slli_epi32 b 16) 16))
        ∧ toSigned 32 (lane 32 k (_mm_srai_epi32 (_mm_slli_epi32 b 16) 16)) ≤ 32767)) ∧
    ((if j.val < 4 then lane 32 j a else lane 32 (j.val - 4) b) ≤ 65535 →
      lane 16 j (sse.simd_packus_epi32 a b) = lane 16 j (_mm_packus_epi32 a b)) := by
  refine ⟨lane16_simd_packus_epi32 a b j j.isLt, ?_, ?_⟩
  · intro k hk
    rw [lane32_sext16 a k hk, lane32_sext16 b k hk]
    exact ⟨toSigned16_range _, toSigned16_range _⟩
  · intro h
    rw [lane16_simd_packus_epi32 a b j j.isLt, lane16_packus_epi32 a b j j.isLt h]
    exact Nat.mod_eq_of_lt (by norm_num; omega)

/-- The hypothesis of C36 holds in lane 1 of the register with lanes
`[1, 65535, 65541, 4294967295]`, whose output lane is `65535`; lane 2, which
holds `65541`, is truncated to `5`, where `_mm_packus_epi32` saturates to
`65535`. -/
theorem simd_packus_epi32_truncates_witness :
    ((if (1 : Fin 8).val < 4 then lane 32 (1 : Fin 8) (_mm_set_epi32 0xFFFFFFFF 65541 65535 1)
        else lane 32 ((1 : Fin 8).val - 4) 0) ≤ 65535) ∧
    (lane 16 (1 : Fin 8) (sse.simd_packus_epi32 (_mm_set_epi32 0xFFFFFFFF 65541 65535 1) 0)
        = (if (1 : Fin 8).val < 4
            then lane 32 (1 : Fin 8) (_mm_set_epi32 0xFFFFFFFF 65541 65535 1)
            else lane 32 ((1 : Fin 8).val - 4) 0) % 2 ^ 16 ∧
      (∀ k, k < 4 →
        (-32768 ≤ toSigned 32 (lane 32 k
            (_mm_srai_epi32 (_mm_slli_epi32 (_mm_set_epi32 0xFFFFFFFF 65541 65535 1) 16) 16))
          ∧ toSigned 32 (lane 32 k
            (_mm_srai_epi32 (_mm_slli_epi32 (_mm_set_epi32 0xFFFFFFFF 65541 65535 1) 16) 16))
            ≤ 32767)
        ∧ (-32768 ≤ toSigned 32 (lane 32 k (_mm_srai_epi32 (_mm_slli_epi32 0 16) 16))
          ∧ toSigned 32 (lane 32 k (_mm_srai_epi32 (_mm_slli_epi32 0 16) 16)) ≤ 32767)) ∧
      ((if (1 : Fin 8).val < 4
          then lane 32 (1 : Fin 8) (_mm_set_epi32 0xFFFFFFFF 65541 65535 1)
          else lane 32 ((1 : Fin 8).val - 4) 0) ≤ 65535 →
        lane 16 (1 : Fin 8) (sse.simd_packus_epi32 (_mm_set_epi32 0xFFFFFFFF 65541 65535 1) 0)
          = lane 16 (1 : Fin 8) (_mm_packus_epi32 (_mm_set_epi32 0xFFFFFFFF 65541 65535 1) 0))) ∧
    lane 16 1 (sse.simd_packus_epi32 (_mm_set_epi32 0xFFFFFFFF 65541 65535 1) 0) = 65535 ∧
    lane 16 2 (sse.simd_packus_epi32 (_mm_set_epi32 0xFFFFFFFF 65541 65535 1) 0) = 5 ∧
    lane 16 2 (_mm_packus_epi32 (_mm_set_epi32 0xFFFFFFFF 65541 65535 1) 0) = 65535 :=
  ⟨by decide, simd_packus_epi32_truncates (_mm_set_epi32 0xFFFFFFFF 65541 65535 1) 0 1,
    by decide, by decide, by decide⟩

end mango.simd
